import Mathlib

/-!
Shallow embedding of the rustfuck execution engine (src/src/*.rs) and proofs
about it.  Machine integers are modelled as `Nat`/`Int` with explicit `% 256`
(for `u8` cells) where overflow matters.  The `usize` position is modelled as
a `Nat`; `add_offset_size` returns `Option Nat`, with `none` for the
subtraction underflow that is a fatal arithmetic error in the Rust code (the
spec declares behaviour on negative drift undefined; every theorem below only
covers executions where the underflow does not occur).  Stateful interpreter
loops become fuel-indexed recursions: `none` means "ran out of fuel or hit a
fatal error", `some` means normal completion, so "the program terminates" is
"`∃ fuel, run fuel = some _`".
-/

set_option linter.unusedVariables false

/-- BF-IR tokens, from `src/src/hir.rs` (`enum BfOp`). -/
inductive BfOp where
  | Inc
  | Dec
  | MvRight
  | MvLeft
  | In
  | Out
  | BrFor
  | BrBack
deriving Repr, DecidableEq

/-- HIR ops, from `src/src/hir.rs` (`enum HirOp`). -/
inductive HirOp where
  | Modify (delta : Int)
  | Move (delta : Int)
  | In
  | Out
  | BrFor
  | BrBack
deriving Repr, DecidableEq

/-- LIR ops, from `src/src/lir.rs` (`enum LirOp`). -/
inductive LirOp where
  | Modify (delta : Int)
  | Move (delta : Int)
  | WriteZero
  | Hop (delta : Int)
  | MoveCell (delta : Int)
  | In
  | Out
  | BrFor
  | BrBack
  | CnstMovSet (set : List (Int × Int))
  | Meta (comment : String)
deriving Repr, DecidableEq

/-- Tape state, from `src/src/state.rs` (`struct BrainfuckState`).  Cells hold
`u8` values modelled as `Nat` (every write in the interpreters stores a value
`< 256`). -/
structure BrainfuckState where
  cells : List Nat
  pos : Nat
deriving Repr, DecidableEq

/-- `BrainfuckState::read_cell`: out-of-bounds reads return 0. -/
def BrainfuckState.read_cell (s : BrainfuckState) (i : Nat) : Nat :=
  s.cells.getD i 0

/-- `BrainfuckState::read_cur_cell`. -/
def BrainfuckState.read_cur_cell (s : BrainfuckState) : Nat :=
  s.read_cell s.pos

/-- `BrainfuckState::set_cell`: `Vec::resize(i+1, 0)` when `i >= len`, then
`cells[i] = val`. -/
def BrainfuckState.set_cell (s : BrainfuckState) (val : Nat) (i : Nat) : BrainfuckState :=
  let cells :=
    if s.cells.length ≤ i then s.cells ++ List.replicate (i + 1 - s.cells.length) 0
    else s.cells
  { s with cells := cells.set i val }

/-- `BrainfuckState::set_cur_cell`. -/
def BrainfuckState.set_cur_cell (s : BrainfuckState) (val : Nat) : BrainfuckState :=
  s.set_cell val s.pos

/-- `BrainfuckState::modify_cur_cell_with`: resize to `pos+1` if needed, then
mutate `cells[pos]` in place; equivalently write `f` of the current read. -/
def BrainfuckState.modify_cur_cell_with (s : BrainfuckState) (f : Nat → Nat) : BrainfuckState :=
  s.set_cell (f s.read_cur_cell) s.pos

/-- `BrainfuckState::modify_cur_cell_by`: `(cells[pos] as i32 + arg) as u8` =
the low 8 bits of the i32 sum. -/
def BrainfuckState.modify_cur_cell_by (s : BrainfuckState) (arg : Int) : BrainfuckState :=
  s.set_cell (((s.read_cur_cell : Int) + arg).emod 256).toNat s.pos

/-- Rust `as i8` truncation of an `isize`: keep the low 8 bits, reinterpret
two's-complement signed. -/
def toI8 (d : Int) : Int :=
  let r := d.emod 256
  if r < 128 then r else r - 256

/-- `add_offset_8` from `src/src/state.rs`, acting on a `u8` cell (`dst`) with
an `i8` delta (`delta`, assumed in `[-128, 127]`): `overflowing_add` for
positive deltas, `overflowing_sub delta.unsigned_abs()` otherwise. -/
def add_offset_8 (dst : Nat) (delta : Int) : Nat :=
  if 0 < delta then (dst + delta.toNat) % 256
  else (dst + 256 - delta.natAbs) % 256

/-- `add_offset_size` from `src/src/state.rs`, acting on the `usize` position:
`dst + delta as usize` for positive deltas, `dst - delta.unsigned_abs()`
otherwise.  The subtraction underflows (fatal) when `|delta| > dst`, modelled
as `none`. -/
def add_offset_size (dst : Nat) (delta : Int) : Option Nat :=
  if 0 < delta then some (dst + delta.toNat)
  else if delta.natAbs ≤ dst then some (dst - delta.natAbs) else none

/-- `BfParser::parse` from `src/src/parser.rs`: filter the byte stream to the
eight recognised characters (`+ - > < . , [ ]`), dropping everything else. -/
def BfParser.parse : List Nat → List BfOp
  | [] => []
  | b :: rest =>
    match b with
    | 43 => BfOp.Inc :: BfParser.parse rest      -- b'+'
    | 45 => BfOp.Dec :: BfParser.parse rest      -- b'-'
    | 62 => BfOp.MvRight :: BfParser.parse rest  -- b'>'
    | 60 => BfOp.MvLeft :: BfParser.parse rest   -- b'<'
    | 46 => BfOp.Out :: BfParser.parse rest      -- b'.'
    | 44 => BfOp.In :: BfParser.parse rest       -- b','
    | 91 => BfOp.BrFor :: BfParser.parse rest    -- b'['
    | 93 => BfOp.BrBack :: BfParser.parse rest   -- b']'
    | _ => BfParser.parse rest

/-- The byte-filtering loop duplicated inside `HirGen::gen` (src/src/hir.rs,
lines 85-98); textually the same match as `BfParser::parse`. -/
def HirGen.filter : List Nat → List BfOp
  | [] => []
  | b :: rest =>
    match b with
    | 43 => BfOp.Inc :: HirGen.filter rest
    | 45 => BfOp.Dec :: HirGen.filter rest
    | 62 => BfOp.MvRight :: HirGen.filter rest
    | 60 => BfOp.MvLeft :: HirGen.filter rest
    | 46 => BfOp.Out :: HirGen.filter rest
    | 44 => BfOp.In :: HirGen.filter rest
    | 91 => BfOp.BrFor :: HirGen.filter rest
    | 93 => BfOp.BrBack :: HirGen.filter rest
    | _ => HirGen.filter rest

/-- Is the BF op part of a `+`/`-` run? -/
def BfOp.isAdd : BfOp → Bool
  | .Inc | .Dec => true
  | _ => false

/-- Is the BF op part of a `>`/`<` run? -/
def BfOp.isMv : BfOp → Bool
  | .MvRight | .MvLeft => true
  | _ => false

/-- `Inc` contributes +1, `Dec` contributes −1. -/
def BfOp.addDelta : BfOp → Int
  | .Inc => 1
  | _ => -1

/-- `MvRight` contributes +1, `MvLeft` contributes −1. -/
def BfOp.mvDelta : BfOp → Int
  | .MvRight => 1
  | _ => -1

/-- `HirGen::lower` (src/src/hir.rs): consume the maximal contiguous run of
`Inc`/`Dec` (resp. `MvRight`/`MvLeft`) and emit a single `Modify` (resp.
`Move`) with the signed sum; everything else passes through.  The Rust `while
let` loop with a strictly increasing cursor becomes fuel recursion (the
cursor advances at least 1 per iteration, so `bf.length` fuel is enough). -/
def HirGen.lowerF : Nat → List BfOp → List HirOp
  | _, [] => []
  | 0, _ :: _ => []
  | fuel + 1, op :: rest =>
    match op with
    | .Inc | .Dec =>
      let run := (op :: rest).takeWhile BfOp.isAdd
      HirOp.Modify (run.foldl (fun a o => a + o.addDelta) 0) ::
        HirGen.lowerF fuel ((op :: rest).dropWhile BfOp.isAdd)
    | .MvRight | .MvLeft =>
      let run := (op :: rest).takeWhile BfOp.isMv
      HirOp.Move (run.foldl (fun a o => a + o.mvDelta) 0) ::
        HirGen.lowerF fuel ((op :: rest).dropWhile BfOp.isMv)
    | .In => HirOp.In :: HirGen.lowerF fuel rest
    | .Out => HirOp.Out :: HirGen.lowerF fuel rest
    | .BrFor => HirOp.BrFor :: HirGen.lowerF fuel rest
    | .BrBack => HirOp.BrBack :: HirGen.lowerF fuel rest

/-- `HirGen::lower` with its canonical fuel. -/
def HirGen.lower (bf : List BfOp) : List HirOp :=
  HirGen.lowerF bf.length bf

/-- `HirGen::new(p).gen()` (src/src/hir.rs lines 80-101): the duplicated
byte filter followed by `lower`. -/
def HirGen.gen (program : List Nat) : List HirOp :=
  HirGen.lower (HirGen.filter program)

/-- Bracket classifier for HIR. -/
def HirOp.isOpen : HirOp → Bool
  | .BrFor => true
  | _ => false

/-- Bracket classifier for HIR. -/
def HirOp.isClose : HirOp → Bool
  | .BrBack => true
  | _ => false

/-- Bracket classifier for LIR. -/
def LirOp.isOpen : LirOp → Bool
  | .BrFor => true
  | _ => false

/-- Bracket classifier for LIR. -/
def LirOp.isClose : LirOp → Bool
  | .BrBack => true
  | _ => false

/-- Either bracket (HIR). -/
def HirOp.isBr (op : HirOp) : Bool := op.isOpen || op.isClose

/-- Either bracket (LIR). -/
def LirOp.isBr (op : LirOp) : Bool := op.isOpen || op.isClose

/-- The forward bracket scan shared by `gen_branch_table` (hir.rs lines
310-328, lir.rs lines 378-396) and `BfInterpreter::execute`'s `BrFor` case
(parser.rs lines 74-95): walking the list, `+1` depth at every open, `−1` at
every close at positive depth, and the first close at depth 0 is the match.
Returns the 0-based index into the list being walked. -/
def scanAux (isOp isCl : α → Bool) : Nat → List α → Option Nat
  | _, [] => none
  | depth, x :: xs =>
    if isCl x then
      if depth = 0 then some 0
      else (scanAux isOp isCl (depth - 1) xs).map (· + 1)
    else if isOp x then (scanAux isOp isCl (depth + 1) xs).map (· + 1)
    else (scanAux isOp isCl depth xs).map (· + 1)

/-- Absolute-index forward match: the scan starts at `i + 1`. -/
def scanMatch (isOp isCl : α → Bool) (prog : List α) (i : Nat) : Option Nat :=
  (scanAux isOp isCl 0 (prog.drop (i + 1))).map (fun r => i + 1 + r)

/-- The backward bracket scan of `BfInterpreter::execute`'s `BrBack` case
(parser.rs lines 97-118): `pos -= 1` then examine, `+1` depth at every close,
`−1` at every open at positive depth, first open at depth 0 is the match.
`pos -= 1` at 0 underflows `usize` (fatal), modelled as `none`. -/
def scanBackAux (isOp isCl : α → Bool) (prog : List α) : Nat → Nat → Option Nat
  | _, 0 => none
  | depth, pos + 1 =>
    match prog[pos]? with
    | none => none
    | some x =>
      if isCl x then scanBackAux isOp isCl prog (depth + 1) pos
      else if isOp x then
        if 0 < depth then scanBackAux isOp isCl prog (depth - 1) pos
        else some pos
      else scanBackAux isOp isCl prog depth pos

/-- Absolute-index backward match starting from bracket index `i`. -/
def scanBack (isOp isCl : α → Bool) (prog : List α) (i : Nat) : Option Nat :=
  scanBackAux isOp isCl prog 0 i

/-- One step of `gen_branch_table`'s outer loop (hir.rs lines 303-335,
lir.rs lines 371-403): at every open bracket run the forward scan; a failed
scan is the fatal `unreachable!("Unterminated bracket, ...")`, else store
`table[ip] = m; table[m] = ip`.  Fuel is the number of remaining positions. -/
def btAux (isOp isCl : α → Bool) (prog : List α) : Nat → Nat → List Nat → Option (List Nat)
  | 0, ip, table =>
    match prog[ip]? with
    | none => some table
    | some _ => none
  | fuel + 1, ip, table =>
    match prog[ip]? with
    | none => some table
    | some op =>
      if isOp op then
        match scanMatch isOp isCl prog ip with
        | none => none
        | some m => btAux isOp isCl prog fuel (ip + 1) ((table.set ip m).set m ip)
      else btAux isOp isCl prog fuel (ip + 1) table

/-- Generic `gen_branch_table`: table of zeros, then the scan loop. -/
def branchTableG (isOp isCl : α → Bool) (prog : List α) : Option (List Nat) :=
  btAux isOp isCl prog prog.length 0 (List.replicate prog.length 0)

/-- `HirInterpreter::gen_branch_table` (src/src/hir.rs lines 303-335). -/
def HirInterpreter.gen_branch_table (prog : List HirOp) : Option (List Nat) :=
  branchTableG HirOp.isOpen HirOp.isClose prog

/-- `LirInterpreter::gen_branch_table` (src/src/lir.rs lines 371-403). -/
def LirInterpreter.gen_branch_table (prog : List LirOp) : Option (List Nat) :=
  branchTableG LirOp.isOpen LirOp.isClose prog

/-- `Iterator::position`: index of the first element satisfying `p`. -/
def firstIdx (p : α → Bool) : List α → Option Nat
  | [] => none
  | x :: xs => if p x then some 0 else (firstIdx p xs).map (· + 1)

/-- `LirGen::try_opt_simple_hir_loop` (src/src/lir.rs lines 126-156): find
the first bracket after the leading `BrFor`; if it is a `BrBack` the loop is
simple and its body (the ops strictly between) is matched against the three
idiom patterns.  Returns the replacement op and the cursor skip. -/
def LirGen.try_opt_simple_hir_loop (hir : List HirOp) : Option (LirOp × Nat) :=
  match firstIdx HirOp.isBr (hir.drop 1) with
  | none => none
  | some v =>
    if (hir.drop 1).getD v HirOp.BrBack = HirOp.BrFor then none
    else
      match (hir.drop 1).take v with
      | [HirOp.Modify _] => some (LirOp.WriteZero, 2)
      | [HirOp.Move d] => some (LirOp.Hop d, 2)
      | [HirOp.Modify a, HirOp.Move d, HirOp.Modify b, HirOp.Move nd] =>
        if a = -1 ∧ b = 1 ∧ d = -nd then some (LirOp.MoveCell d, 5) else none
      | _ => none

/-- Is the LIR op a plain `Modify` or `Move`? (the pass-B body test). -/
def LirOp.isModMov : LirOp → Bool
  | .Modify _ | .Move _ => true
  | _ => false

/-- The simulation fold inside `try_opt_simple_lir_loop` (lir.rs lines
182-191): walk the body tracking the running `offset`; every `Modify` pushes
`(offset, delta)` onto the set.  Returns `(final offset, set)`. -/
def LirGen.simBody : List LirOp → Int → List (Int × Int) → Int × List (Int × Int)
  | [], off, set => (off, set)
  | LirOp.Move d :: rest, off, set => LirGen.simBody rest (off + d) set
  | LirOp.Modify d :: rest, off, set => LirGen.simBody rest off (set ++ [(off, d)])
  | _ :: rest, off, set => LirGen.simBody rest off set

/-- `LirGen::try_opt_simple_lir_loop` (src/src/lir.rs lines 158-209): if the
simple loop's body is all `Modify`/`Move`, rewrite it as
`[BrFor, CnstMovSet set, Move offset, BrBack]` (the fixup `Move` is emitted
unconditionally). -/
def LirGen.try_opt_simple_lir_loop (lir : List LirOp) : Option (List LirOp × Nat) :=
  match firstIdx LirOp.isBr (lir.drop 1) with
  | none => none
  | some v =>
    if (lir.drop 1).getD v LirOp.BrBack = LirOp.BrFor then none
    else
      let content := (lir.drop 1).take v
      if content.all LirOp.isModMov then
        let (off, set) := LirGen.simBody content 0 []
        some ([LirOp.BrFor, LirOp.CnstMovSet set, LirOp.Move off, LirOp.BrBack],
          content.length + 1)
      else none

/-- Pass A of `LirGen::gen_ir` (lir.rs lines 65-92): copy ops through, but at
every `BrFor` attempt the simple-loop rewrite, consuming `skip + 1` ops on
success.  Fuel recursion for the strictly advancing cursor. -/
def LirGen.passA : Nat → List HirOp → List LirOp
  | _, [] => []
  | 0, _ :: _ => []
  | fuel + 1, op :: rest =>
    match op with
    | .Modify d => LirOp.Modify d :: LirGen.passA fuel rest
    | .Move d => LirOp.Move d :: LirGen.passA fuel rest
    | .In => LirOp.In :: LirGen.passA fuel rest
    | .Out => LirOp.Out :: LirGen.passA fuel rest
    | .BrBack => LirOp.BrBack :: LirGen.passA fuel rest
    | .BrFor =>
      match LirGen.try_opt_simple_hir_loop (op :: rest) with
      | some (opt, skip) => opt :: LirGen.passA fuel ((op :: rest).drop (skip + 1))
      | none => LirOp.BrFor :: LirGen.passA fuel rest

/-- Pass B of `LirGen::gen_ir` (lir.rs lines 96-120): at every `BrFor`
attempt the balanced-offset rewrite, extending with the emitted vector and
consuming `skip + 1` ops on success. -/
def LirGen.passB : Nat → List LirOp → List LirOp
  | _, [] => []
  | 0, _ :: _ => []
  | fuel + 1, op :: rest =>
    match op with
    | .BrFor =>
      match LirGen.try_opt_simple_lir_loop (op :: rest) with
      | some (opts, skip) => opts ++ LirGen.passB fuel ((op :: rest).drop (skip + 1))
      | none => LirOp.BrFor :: LirGen.passB fuel rest
    | other => other :: LirGen.passB fuel rest

/-- `LirGen::gen_ir` (src/src/lir.rs lines 62-123): pass A then pass B. -/
def LirGen.gen_ir (hir : List HirOp) : List LirOp :=
  let lir := LirGen.passA hir.length hir
  LirGen.passB lir.length lir

/-- Execution configuration: tape state plus the input and output byte
streams (stdin/stdout). -/
structure ExecSt where
  st : BrainfuckState
  input : List Nat
  output : List Nat
deriving Repr, DecidableEq

/-- The initial configuration: empty tape at position 0 (`BrainfuckState`
literal in `BfInterpreter::execute` / `BrainfuckState::new`). -/
def ExecSt.init (input : List Nat) : ExecSt :=
  { st := { cells := [], pos := 0 }, input := input, output := [] }

/-- `BfInterpreter::execute` (src/src/parser.rs lines 39-127) as a fuel
recursion: `some` = the program counter ran off the end (normal
termination); `none` = fuel exhausted or a fatal panic (`MvLeft` at 0,
unmatched bracket, read from empty input). -/
def bfRun (prog : List BfOp) : Nat → Nat → ExecSt → Option ExecSt
  | 0, _, _ => none
  | fuel + 1, ip, es =>
    match prog[ip]? with
    | none => some es
    | some op =>
      match op with
      | .MvRight => bfRun prog fuel (ip + 1) { es with st := { es.st with pos := es.st.pos + 1 } }
      | .MvLeft =>
        if es.st.pos = 0 then none
        else bfRun prog fuel (ip + 1) { es with st := { es.st with pos := es.st.pos - 1 } }
      | .Inc => bfRun prog fuel (ip + 1) { es with st := es.st.modify_cur_cell_by 1 }
      | .Dec => bfRun prog fuel (ip + 1) { es with st := es.st.modify_cur_cell_by (-1) }
      | .Out => bfRun prog fuel (ip + 1) { es with output := es.output ++ [es.st.read_cur_cell] }
      | .In =>
        match es.input with
        | [] => none
        | b :: rest =>
          bfRun prog fuel (ip + 1) { es with st := es.st.set_cur_cell (b % 256), input := rest }
      | .BrFor =>
        if es.st.read_cur_cell = 0 then
          match scanMatch (fun o => o = BfOp.BrFor) (fun o => o = BfOp.BrBack) prog ip with
          | none => none
          | some m => bfRun prog fuel (m + 1) es
        else bfRun prog fuel (ip + 1) es
      | .BrBack =>
        if es.st.read_cur_cell ≠ 0 then
          match scanBack (fun o => o = BfOp.BrFor) (fun o => o = BfOp.BrBack) prog ip with
          | none => none
          | some b => bfRun prog fuel (b + 1) es
        else bfRun prog fuel (ip + 1) es

/-- `BfInterpreter::execute` top level: run from ip 0 on the fresh state and
report the bytes written to stdout. -/
def BfInterpreter.execute (prog : List BfOp) (input : List Nat) (fuel : Nat) :
    Option (List Nat) :=
  (bfRun prog fuel 0 ⟨⟨[], 0⟩, input, []⟩).map ExecSt.output

/-- The `while read_cur_cell() > 0` loop of `LirOp::Hop` (lir.rs lines
308-312), generalised over the state type and loop body; also reused to
phrase loop-execution lemmas. -/
def whileRun (readC : σ → Nat) (eff : σ → Option σ) : Nat → σ → Option σ
  | 0, _ => none
  | fuel + 1, s => if 0 < readC s then (eff s).bind (whileRun readC eff fuel) else some s

/-- Branch classification shared by the HIR and LIR interpreter loops. -/
inductive OpClass where
  | openBr
  | closeBr
  | plain
deriving Repr, DecidableEq

/-- The shared shape of `HirInterpreter::execute` and
`LirInterpreter::execute` (hir.rs lines 198-257, lir.rs lines 241-344): a
fuel loop over the program with a precomputed branch table; `BrFor` with a
zero cell and `BrBack` with a nonzero cell set the pc to `table[pc]`, every
op is followed by `pc += 1`.  `eff` is the per-op state transformer (it gets
the current fuel for the inner `Hop` loop). -/
def runG (classify : α → OpClass) (readC : σ → Nat) (eff : Nat → α → σ → Option σ)
    (prog : List α) (table : List Nat) : Nat → Nat → σ → Option σ
  | 0, _, _ => none
  | fuel + 1, ip, s =>
    match prog[ip]? with
    | none => some s
    | some op =>
      match classify op with
      | .openBr =>
        if readC s = 0 then runG classify readC eff prog table fuel (table.getD ip 0 + 1) s
        else runG classify readC eff prog table fuel (ip + 1) s
      | .closeBr =>
        if readC s ≠ 0 then runG classify readC eff prog table fuel (table.getD ip 0 + 1) s
        else runG classify readC eff prog table fuel (ip + 1) s
      | .plain =>
        match eff fuel op s with
        | none => none
        | some s' => runG classify readC eff prog table fuel (ip + 1) s'

/-- Branch classification of HIR ops. -/
def HirOp.classify : HirOp → OpClass
  | .BrFor => OpClass.openBr
  | .BrBack => OpClass.closeBr
  | _ => OpClass.plain

/-- Branch classification of LIR ops. -/
def LirOp.classify : LirOp → OpClass
  | .BrFor => OpClass.openBr
  | .BrBack => OpClass.closeBr
  | _ => OpClass.plain

/-- Current-cell read on a configuration. -/
def ExecSt.readCur (es : ExecSt) : Nat := es.st.read_cur_cell

/-- Per-op state transformer of `HirInterpreter::execute` (hir.rs lines
222-254); brackets are handled by `runG`. -/
def hirEff (fuel : Nat) (op : HirOp) (es : ExecSt) : Option ExecSt :=
  match op with
  | .Modify d =>
    some { es with st := es.st.modify_cur_cell_with (fun c => add_offset_8 c (toI8 d)) }
  | .Move d =>
    match add_offset_size es.st.pos d with
    | none => none
    | some p => some { es with st := { es.st with pos := p } }
  | .Out => some { es with output := es.output ++ [es.st.read_cur_cell] }
  | .In =>
    match es.input with
    | [] => none
    | b :: rest => some { es with st := es.st.set_cur_cell (b % 256), input := rest }
  | .BrFor | .BrBack => none

/-- The `Move` part of `hirEff`/`lirEff`, shared for loop-body lemmas. -/
def moveEff (d : Int) (es : ExecSt) : Option ExecSt :=
  match add_offset_size es.st.pos d with
  | none => none
  | some p => some { es with st := { es.st with pos := p } }

/-- One entry of `LirOp::CnstMovSet` execution (lir.rs lines 329-340):
`target = pos + offset` (fatal on underflow), then
`set_cell (add_offset_8 (read_cell target) (delta as i8)) target`. -/
def cmsEntry (st : BrainfuckState) (od : Int × Int) : Option BrainfuckState :=
  match add_offset_size st.pos od.1 with
  | none => none
  | some target => some (st.set_cell (add_offset_8 (st.read_cell target) (toI8 od.2)) target)

/-- Per-op state transformer of `LirInterpreter::execute` (lir.rs lines
269-341); brackets are handled by `runG`. -/
def lirEff (fuel : Nat) (op : LirOp) (es : ExecSt) : Option ExecSt :=
  match op with
  | .Modify d =>
    some { es with st := es.st.modify_cur_cell_with (fun c => add_offset_8 c (toI8 d)) }
  | .Move d => moveEff d es
  | .Out => some { es with output := es.output ++ [es.st.read_cur_cell] }
  | .In =>
    match es.input with
    | [] => none
    | b :: rest => some { es with st := es.st.set_cur_cell (b % 256), input := rest }
  | .WriteZero => some { es with st := es.st.set_cur_cell 0 }
  | .Hop d => whileRun ExecSt.readCur (moveEff d) fuel es
  | .MoveCell d =>
    if es.st.read_cur_cell ≠ 0 then
      match add_offset_size es.st.pos d with
      | none => none
      | some target =>
        let s1 := es.st.set_cell
          ((es.st.read_cell target + es.st.read_cur_cell) % 256) target
        some { es with st := s1.set_cur_cell 0 }
    else some es
  | .Meta _ => some es
  | .CnstMovSet set =>
    match set.foldlM cmsEntry es.st with
    | none => none
    | some st' => some { es with st := st' }
  | .BrFor | .BrBack => none

/-- `HirInterpreter::execute` (src/src/hir.rs lines 174-301) top level:
build the branch table (fatal on failure), run from pc 0. -/
def HirInterpreter.execute (prog : List HirOp) (input : List Nat) (fuel : Nat) :
    Option (List Nat) :=
  match HirInterpreter.gen_branch_table prog with
  | none => none
  | some table =>
    (runG HirOp.classify ExecSt.readCur hirEff prog table fuel 0 ⟨⟨[], 0⟩, input, []⟩).map
      ExecSt.output

/-- `LirInterpreter::execute` (src/src/lir.rs lines 215-369) top level. -/
def LirInterpreter.execute (prog : List LirOp) (input : List Nat) (fuel : Nat) :
    Option (List Nat) :=
  match LirInterpreter.gen_branch_table prog with
  | none => none
  | some table =>
    (runG LirOp.classify ExecSt.readCur lirEff prog table fuel 0 ⟨⟨[], 0⟩, input, []⟩).map
      ExecSt.output

/-- Machine state of the code emitted by `Jit::jit` (src/src/jit.rs):
`cells` is the caller's 30,000-byte zeroed region (`x0` points into it at
offset `pos`), `buf` is the sequence of bytes written through the output
cursor `x1`.  A pointer outside the region is undefined behaviour in the
real code; the model reads 0 there and the theorems below only evaluate
programs whose pointer stays in range. -/
structure JitSt where
  cells : List Nat
  pos : Int
  buf : List Nat
deriving Repr, DecidableEq

/-- `ldrb w2, [x0]` at the current pointer. -/
def JitSt.readCur (s : JitSt) : Nat :=
  if 0 ≤ s.pos then s.cells.getD s.pos.toNat 0 else 0

/-- `strb` of the low byte at pointer `i`. -/
def JitSt.write (s : JitSt) (i : Int) (v : Nat) : JitSt :=
  if 0 ≤ i then { s with cells := s.cells.set i.toNat (v % 256) } else s

/-- Behavioural model of the per-op AArch64 code emitted by `Jit::jit`
(src/src/jit.rs lines 22-187), one arm per `match` arm of the source.  The
`x5 = x0 ± |off|; ldrb; add/sub; strb` sequences become byte reads and
mod-256 writes; `LirOp::In` emits nothing; the source `match` has no
`CnstMovSet` arm at all (it references an `OffsetModify` variant that
`lir.rs` does not define), modelled as `none`. -/
def jitEff (fuel : Nat) (op : LirOp) (s : JitSt) : Option JitSt :=
  match op with
  | .Modify d => some (s.write s.pos (((s.readCur : Int) + d).emod 256).toNat)
  | .Move d => some { s with pos := s.pos + d }
  | .WriteZero => some (s.write s.pos 0)
  | .Hop d =>
    whileRun JitSt.readCur (fun s' => some { s' with pos := s'.pos + d }) fuel s
  | .MoveCell d =>
    -- ldrb w2,[x0]; cbz skip; strb wzr,[x0]; ldrb w3,[x5]; add; and #0xFF; strb [x5]
    if s.readCur ≠ 0 then
      let c := s.readCur
      let s1 := s.write s.pos 0
      let t := if 0 ≤ s.pos + d then s1.cells.getD (s.pos + d).toNat 0 else 0
      some (s1.write (s.pos + d) ((c + t) % 256))
    else some s
  | .Out => some { s with buf := s.buf ++ [s.readCur] }
  | .In => some s
  | .Meta _ => some s
  | .CnstMovSet _ => none
  | .BrFor | .BrBack => none

/-- `Jit::jit` (src/src/jit.rs lines 15-208): run the emitted code on a
zeroed 30,000-cell region and output buffer.  The label-pair stack realises
exactly the scan matching of the interpreters' branch tables, so control
flow is modelled with the same table. -/
def Jit.jit (prog : List LirOp) (fuel : Nat) : Option JitSt :=
  match LirInterpreter.gen_branch_table prog with
  | none => none
  | some table =>
    runG LirOp.classify JitSt.readCur jitEff prog table fuel 0
      ⟨List.replicate 30000 0, 0, []⟩

/-- The flush after the native call returns (jit.rs line 206 /
main.rs line 125): `write_all(&buff[0..buff.iter().position(|&b| b == 0).unwrap()])`
— the buffer contents up to the first zero byte. -/
def Jit.flush (buf : List Nat) : Option (List Nat) :=
  let full := buf ++ List.replicate (30000 - buf.length) 0
  (firstIdx (fun b => b == 0) full).map (fun i => full.take i)

/-- The byte sequence the JIT backend writes to stdout. -/
def Jit.output (prog : List LirOp) (fuel : Nat) : Option (List Nat) :=
  match Jit.jit prog fuel with
  | none => none
  | some s => Jit.flush s.buf

/-- Is the HIR op a `Modify`? -/
def HirOp.isModify : HirOp → Bool
  | .Modify _ => true
  | _ => false

/-- Is the HIR op a `Move`? -/
def HirOp.isMove : HirOp → Bool
  | .Move _ => true
  | _ => false

/-- Bracket weight of the op at index `q`: +1 for an open, −1 for a close,
0 otherwise (and 0 past the end). -/
def balAt (isOp isCl : α → Bool) (prog : List α) (q : Nat) : Int :=
  match prog[q]? with
  | none => 0
  | some op => if isCl op then -1 else if isOp op then 1 else 0

/-- Net bracket balance of the index range `[a, b)`: the number of opens
minus the number of closes.  Two brackets are "at the same nesting depth"
exactly when the balance of the range strictly between them is 0. -/
def Bal (isOp isCl : α → Bool) (prog : List α) (a b : Nat) : Int :=
  ∑ i ∈ Finset.Ico a b, balAt isOp isCl prog i

/-- Bracket balance of a whole list window (the weight of each element
mirrors the scan: a close counts −1, otherwise an open counts +1). -/
def brBal (isOp isCl : α → Bool) (l : List α) : Int :=
  (l.map (fun x => if isCl x then (-1 : Int) else if isOp x then 1 else 0)).sum

/-- `j` is the first close bracket to the right of `i` at the same nesting
depth: a close, with bracket balance 0 strictly between, and no earlier such
close. -/
def IsFirstClose (isOp isCl : α → Bool) (prog : List α) (i j : Nat) : Prop :=
  i < j ∧ (∃ op, prog[j]? = some op ∧ isCl op = true) ∧
    Bal isOp isCl prog (i + 1) j = 0 ∧
    ∀ j', i < j' → j' < j → (∀ op, prog[j']? = some op → isCl op = true →
      Bal isOp isCl prog (i + 1) j' ≠ 0)

/-- Every open bracket of `prog` has a forward match (the scan from it
succeeds). -/
def OpensMatched (isOp isCl : α → Bool) (prog : List α) : Prop :=
  ∀ i op, prog[i]? = some op → isOp op = true → (scanMatch isOp isCl prog i).isSome

/-- Every close bracket of `prog` is the forward match of some open. -/
def ClosesMatched (isOp isCl : α → Bool) (prog : List α) : Prop :=
  ∀ j op, prog[j]? = some op → isCl op = true →
    ∃ i op', prog[i]? = some op' ∧ isOp op' = true ∧ scanMatch isOp isCl prog i = some j

/-- "All brackets matched" for a BF-IR program. -/
def BfWellFormed (prog : List BfOp) : Prop :=
  OpensMatched (fun o => o = BfOp.BrFor) (fun o => o = BfOp.BrBack) prog ∧
    ClosesMatched (fun o => o = BfOp.BrFor) (fun o => o = BfOp.BrBack) prog


/-! ## Segmentation maps for the C1 simulation proofs -/

/-- Length of the first lowering segment of a BF-IR list: a maximal
`Inc`/`Dec` or `MvRight`/`MvLeft` run, or a single op. -/
def segLen : List BfOp → Nat
  | [] => 0
  | op :: rest =>
    match op with
    | .Inc | .Dec => ((op :: rest).takeWhile BfOp.isAdd).length
    | .MvRight | .MvLeft => ((op :: rest).takeWhile BfOp.isMv).length
    | _ => 1

/-- BF-IR index of the `j`-th boundary of the lowering segmentation. -/
def bIdx : Nat → List BfOp → Nat
  | 0, _ => 0
  | j + 1, bf => segLen bf + bIdx j (bf.drop (segLen bf))


/-- Classifiers for BF-IR brackets. -/
def BfOp.isOpen : BfOp → Bool
  | .BrFor => true
  | _ => false

/-- Classifiers for BF-IR brackets. -/
def BfOp.isClose : BfOp → Bool
  | .BrBack => true
  | _ => false

def HirOp.toLir : HirOp → LirOp
  | .Modify d => LirOp.Modify d
  | .Move d => LirOp.Move d
  | .In => LirOp.In
  | .Out => LirOp.Out
  | .BrFor => LirOp.BrFor
  | .BrBack => LirOp.BrBack

def HirOp.isModMov : HirOp → Bool
  | .Modify _ | .Move _ => true
  | _ => false

def cStep : List HirOp → Nat
  | [] => 1
  | op :: rest =>
    match op with
    | HirOp.BrFor =>
      match LirGen.try_opt_simple_hir_loop (op :: rest) with
      | some (_, skip) => skip + 1
      | none =>
        match firstIdx HirOp.isBr rest with
        | none => 1
        | some v =>
          if rest.getD v HirOp.BrBack = HirOp.BrFor then 1
          else if (rest.take v).all HirOp.isModMov then v + 2
          else 1
    | _ => 1

def cOut : List HirOp → List LirOp
  | [] => []
  | op :: rest =>
    match op with
    | HirOp.BrFor =>
      match LirGen.try_opt_simple_hir_loop (op :: rest) with
      | some (opt, _) => [opt]
      | none =>
        match firstIdx HirOp.isBr rest with
        | none => [LirOp.BrFor]
        | some v =>
          if rest.getD v HirOp.BrBack = HirOp.BrFor then [LirOp.BrFor]
          else if (rest.take v).all HirOp.isModMov then
            [LirOp.BrFor,
              LirOp.CnstMovSet (LirGen.simBody ((rest.take v).map HirOp.toLir) 0 []).2,
              LirOp.Move (LirGen.simBody ((rest.take v).map HirOp.toLir) 0 []).1,
              LirOp.BrBack]
          else [LirOp.BrFor]
    | other => [other.toLir]

def cIdx : Nat → List HirOp → Nat
  | 0, _ => 0
  | j + 1, h => cStep h + cIdx j (h.drop (cStep h))

def oIdx : Nat → List HirOp → Nat
  | 0, _ => 0
  | j + 1, h => (cOut h).length + oIdx j (h.drop (cStep h))

def cCount : List HirOp → Nat :=
  fun h => go h.length h
where go : Nat → List HirOp → Nat
  | _, [] => 0
  | 0, _ :: _ => 0
  | fuel + 1, h => 1 + go fuel (h.drop (cStep h))

def StEq (a b : ExecSt) : Prop :=
  a.st.pos = b.st.pos ∧ a.input = b.input ∧ a.output = b.output ∧
    ∀ i, a.st.read_cell i = b.st.read_cell i

def ValidSt (a : ExecSt) : Prop := ∀ i, a.st.read_cell i < 256

def seqEff (eff : Nat → α → σ → Option σ) : List α → σ → Option σ
  | [], s => some s
  | op :: t, s =>
    match eff 0 op s with
    | none => none
    | some s' => seqEff eff t s'


/-! ## Basic list and state lemmas -/

theorem getD_append_replicate_zero (l : List Nat) (k j : Nat) :
    (l ++ List.replicate k (0 : Nat)).getD j 0 = l.getD j 0 := by
  simp only [List.getD_eq_getElem?_getD, List.getElem?_append]
  split
  · rfl
  · rw [List.getElem?_replicate]
    have : l[j]? = none := by
      rw [List.getElem?_eq_none]
      omega
    rw [this]
    split <;> rfl

theorem read_cell_set_cell_self (s : BrainfuckState) (v i : Nat) :
    (s.set_cell v i).read_cell i = v := by
  unfold BrainfuckState.set_cell BrainfuckState.read_cell
  simp only [List.getD_eq_getElem?_getD]
  split
  · next h =>
    rw [List.getElem?_set_self, Option.getD_some]
    simp only [List.length_append, List.length_replicate]
    omega
  · next h =>
    rw [List.getElem?_set_self, Option.getD_some]
    omega

theorem read_cell_set_cell_ne (s : BrainfuckState) (v i j : Nat) (hij : j ≠ i) :
    (s.set_cell v i).read_cell j = s.read_cell j := by
  unfold BrainfuckState.set_cell BrainfuckState.read_cell
  simp only [List.getD_eq_getElem?_getD]
  rw [List.getElem?_set_ne (Ne.symm hij)]
  split
  · next h =>
    rw [← List.getD_eq_getElem?_getD, ← List.getD_eq_getElem?_getD,
      getD_append_replicate_zero]
  · rfl

theorem read_cell_oob (s : BrainfuckState) (j : Nat) (h : s.cells.length ≤ j) :
    s.read_cell j = 0 := by
  unfold BrainfuckState.read_cell
  simp only [List.getD_eq_getElem?_getD]
  rw [List.getElem?_eq_none h]
  rfl

/-! ## C9: set_cell / read_cell frame property -/

/-- C9: after `set_cell v i`, `read_cell i` returns `v`; `read_cell j` for
`j ≠ i` (including `j` beyond the old length) is unchanged; and out-of-range
reads return 0 (reads are pure functions of the state and never grow the
tape). -/
theorem c9_set_cell_frame (s : BrainfuckState) (v i : Nat) :
    (s.set_cell v i).read_cell i = v ∧
      (∀ j, j ≠ i → (s.set_cell v i).read_cell j = s.read_cell j) ∧
      (∀ j, s.cells.length ≤ j → s.read_cell j = 0) :=
  ⟨read_cell_set_cell_self s v i,
   fun j hj => read_cell_set_cell_ne s v i j hj,
   fun j hj => read_cell_oob s j hj⟩

/-- Witness for C9 at a concrete state. -/
theorem c9_set_cell_frame_witness :
    ((⟨[7], 0⟩ : BrainfuckState).set_cell 5 3).read_cell 3 = 5 ∧
      ((⟨[7], 0⟩ : BrainfuckState).set_cell 5 3).read_cell 0 = 7 ∧
      ((⟨[7], 0⟩ : BrainfuckState).set_cell 5 3).read_cell 9 = 0 := by
  obtain ⟨h1, h2, _⟩ := c9_set_cell_frame (⟨[7], 0⟩ : BrainfuckState) 5 3
  obtain ⟨_, _, h3⟩ := c9_set_cell_frame (((⟨[7], 0⟩ : BrainfuckState).set_cell 5 3)) 5 3
  refine ⟨h1, ?_, ?_⟩
  · rw [h2 0 (by decide)]
    decide
  · exact h3 9 (by decide)

/-! ## C10: the Modify path computes (c + delta) mod 256 -/

/-- C10: the `Modify` execution path of the HIR and LIR interpreters —
truncate the delta with `as i8` (`toI8`), then `add_offset_8` — equals
`(c + delta) mod 256` for every cell value `c < 256` and every `isize`
delta, including deltas outside `[-128, 127]` and the `i8::MIN` case. -/
theorem c10_modify_mod256 (c : Nat) (delta : Int) (h : c < 256) :
    add_offset_8 c (toI8 delta) = (((c : Int) + delta) % 256).toNat := by
  have htoI8 : toI8 delta = if delta % 256 < 128 then delta % 256 else delta % 256 - 256 := rfl
  rw [htoI8]
  have h0 : 0 ≤ delta % 256 := Int.emod_nonneg delta (by norm_num)
  have h1 : delta % 256 < 256 := Int.emod_lt_of_pos delta (by norm_num)
  have hc : ((c : Int) + delta) % 256 = ((c : Int) + delta % 256) % 256 := by
    omega
  rw [hc]
  unfold add_offset_8
  split_ifs <;> omega

/-- Witness for C10 at `c = 200`, `delta = -300` (outside `[-128, 127]`). -/
theorem c10_modify_mod256_witness :
    add_offset_8 200 (toI8 (-300)) = (((200 : Int) + (-300)) % 256).toNat :=
  c10_modify_mod256 200 (-300) (by decide)

/-! ## C8: the duplicated filter in HirGen::gen equals BfParser::parse -/

theorem HirGen.filter_eq_parse : ∀ p : List Nat, HirGen.filter p = BfParser.parse p := by
  intro p
  induction p with
  | nil => rfl
  | cons b rest ih =>
    unfold HirGen.filter BfParser.parse
    split <;> simp_all [BfParser.parse]

/-- C8: `HirGen::new(p).gen()` equals `HirGen::lower(BfParser::parse(p))`
for every byte slice `p` — the filtering loop duplicated inside
`HirGen::gen` recognises exactly the same eight bytes as the standalone
parser. -/
theorem c8_gen_eq_lower_parse (p : List Nat) :
    HirGen.gen p = HirGen.lower (BfParser.parse p) := by
  unfold HirGen.gen
  rw [HirGen.filter_eq_parse]

/-! ## C7: no adjacent Modify / adjacent Move in lowered HIR -/

theorem head?_dropWhile_not (p : α → Bool) :
    ∀ (l : List α) (x : α), ((l.dropWhile p).head? = some x) → p x = false := by
  intro l
  induction l with
  | nil => intro x hx; simp at hx
  | cons a as ih =>
    intro x hx
    rw [List.dropWhile_cons] at hx
    split at hx
    · exact ih x hx
    · next h =>
      simp only [List.head?_cons, Option.some.injEq] at hx
      subst hx
      exact Bool.eq_false_iff.mpr h

theorem lowerF_head_class (fuel : Nat) (bf : List BfOp) (h : HirOp) (t : List HirOp)
    (he : HirGen.lowerF fuel bf = h :: t) :
    (h.isModify = true → ∃ b bs, bf = b :: bs ∧ b.isAdd = true) ∧
      (h.isMove = true → ∃ b bs, bf = b :: bs ∧ b.isMv = true) := by
  match fuel, bf with
  | _, [] => simp [HirGen.lowerF] at he
  | 0, _ :: _ => simp [HirGen.lowerF] at he
  | fuel + 1, op :: rest =>
    cases op <;>
      simp only [HirGen.lowerF, List.cons.injEq] at he <;>
      obtain ⟨he1, -⟩ := he <;>
      subst he1 <;>
      constructor <;>
      intro hcl <;>
      first
        | exact ⟨_, _, rfl, rfl⟩
        | simp [HirOp.isModify, HirOp.isMove] at hcl

theorem lowerF_head_no_modify (fuel : Nat) (l : List BfOp)
    (h : ∀ b, l.head? = some b → BfOp.isAdd b = false) :
    ∀ y ∈ (HirGen.lowerF fuel l).head?, y.isModify = false := by
  intro y hy
  cases hl : HirGen.lowerF fuel l with
  | nil => rw [hl] at hy; simp at hy
  | cons z zs =>
    rw [hl] at hy
    simp only [List.head?_cons, Option.mem_def, Option.some.injEq] at hy
    subst hy
    by_cases hz : z.isModify = true
    · obtain ⟨b, bs, hbs, hb⟩ := (lowerF_head_class fuel l z zs hl).1 hz
      have hfalse : BfOp.isAdd b = false := h b (by rw [hbs]; rfl)
      rw [hfalse] at hb
      exact absurd hb (by simp)
    · simpa using hz

theorem lowerF_head_no_move (fuel : Nat) (l : List BfOp)
    (h : ∀ b, l.head? = some b → BfOp.isMv b = false) :
    ∀ y ∈ (HirGen.lowerF fuel l).head?, y.isMove = false := by
  intro y hy
  cases hl : HirGen.lowerF fuel l with
  | nil => rw [hl] at hy; simp at hy
  | cons z zs =>
    rw [hl] at hy
    simp only [List.head?_cons, Option.mem_def, Option.some.injEq] at hy
    subst hy
    by_cases hz : z.isMove = true
    · obtain ⟨b, bs, hbs, hb⟩ := (lowerF_head_class fuel l z zs hl).2 hz
      have hfalse : BfOp.isMv b = false := h b (by rw [hbs]; rfl)
      rw [hfalse] at hb
      exact absurd hb (by simp)
    · simpa using hz

theorem lowerF_chain : ∀ (fuel : Nat) (bf : List BfOp),
    List.Chain'
      (fun a b => (a.isModify && b.isModify) = false ∧ (a.isMove && b.isMove) = false)
      (HirGen.lowerF fuel bf) := by
  intro fuel
  induction fuel with
  | zero =>
    intro bf
    cases bf <;> simp [HirGen.lowerF]
  | succ fuel ih =>
    intro bf
    match bf with
    | [] => simp [HirGen.lowerF]
    | op :: rest =>
      cases op
      case Inc | Dec =>
        simp only [HirGen.lowerF]
        rw [List.chain'_cons']
        refine ⟨?_, ih _⟩
        intro y hy
        have hnm := lowerF_head_no_modify fuel _
          (fun b hb => head?_dropWhile_not BfOp.isAdd _ b hb) y hy
        exact ⟨by simp [hnm], by simp [HirOp.isMove]⟩
      case MvRight | MvLeft =>
        simp only [HirGen.lowerF]
        rw [List.chain'_cons']
        refine ⟨?_, ih _⟩
        intro y hy
        have hnm := lowerF_head_no_move fuel _
          (fun b hb => head?_dropWhile_not BfOp.isMv _ b hb) y hy
        exact ⟨by simp [HirOp.isModify], by simp [hnm]⟩
      case In | Out | BrFor | BrBack =>
        simp only [HirGen.lowerF]
        rw [List.chain'_cons']
        exact ⟨fun y _ => ⟨by simp [HirOp.isModify], by simp [HirOp.isMove]⟩, ih rest⟩

/-- C7: for every input byte sequence the lowered HIR contains no two
adjacent `Modify`s and no two adjacent `Move`s. -/
theorem c7_no_adjacent (p : List Nat) :
    List.Chain'
      (fun a b => (a.isModify && b.isModify) = false ∧ (a.isMove && b.isMove) = false)
      (HirGen.gen p) :=
  lowerF_chain _ _


/-! ## firstIdx lemmas -/

theorem firstIdx_lt_length (p : α → Bool) :
    ∀ (l : List α) (v : Nat), firstIdx p l = some v → v < l.length := by
  intro l
  induction l with
  | nil => intro v hv; simp [firstIdx] at hv
  | cons x xs ih =>
    intro v hv
    rw [show firstIdx p (x :: xs) =
      if p x then some 0 else (firstIdx p xs).map (· + 1) from rfl] at hv
    split at hv
    · simp only [Option.some.injEq] at hv
      simp only [List.length_cons]
      omega
    · obtain ⟨w, hw, hwv⟩ := Option.map_eq_some'.mp hv
      have := ih w hw
      simp only [List.length_cons]
      omega

theorem firstIdx_found (p : α → Bool) :
    ∀ (l : List α) (v : Nat), firstIdx p l = some v →
      ∃ x, l[v]? = some x ∧ p x = true := by
  intro l
  induction l with
  | nil => intro v hv; simp [firstIdx] at hv
  | cons x xs ih =>
    intro v hv
    rw [show firstIdx p (x :: xs) =
      if p x then some 0 else (firstIdx p xs).map (· + 1) from rfl] at hv
    split at hv
    · next hp =>
      simp only [Option.some.injEq] at hv
      subst hv
      exact ⟨x, by simp, hp⟩
    · obtain ⟨w, hw, hwv⟩ := Option.map_eq_some'.mp hv
      subst hwv
      obtain ⟨y, hy, hpy⟩ := ih w hw
      exact ⟨y, by simpa using hy, hpy⟩

theorem c3_fwd (hir : List HirOp) (hhead : hir.head? = some HirOp.BrFor)
    (d : Int) (k : Nat)
    (hres : LirGen.try_opt_simple_hir_loop hir = some (LirOp.MoveCell d, k)) :
      k = 5 ∧ ∃ rest, hir = HirOp.BrFor :: HirOp.Modify (-1) :: HirOp.Move d ::
        HirOp.Modify 1 :: HirOp.Move (-d) :: HirOp.BrBack :: rest := by
  cases hfi : firstIdx HirOp.isBr (hir.drop 1) with
  | none =>
    simp only [LirGen.try_opt_simple_hir_loop, hfi] at hres
    exact absurd hres (by simp)
  | some v =>
    simp only [LirGen.try_opt_simple_hir_loop, hfi] at hres
    split at hres
    · exact absurd hres (by simp)
    · next hne =>
      split at hres
      case h_1 => exact absurd hres (by simp)
      case h_2 => exact absurd hres (by simp)
      case h_4 => exact absurd hres (by simp)
      case h_3 a d0 b nd heq =>
        split at hres
        case isFalse => exact absurd hres (by simp)
        case isTrue hguard =>
          obtain ⟨ha, hb, hd⟩ := hguard
          simp only [Option.some.injEq, Prod.mk.injEq, LirOp.MoveCell.injEq] at hres
          obtain ⟨hdd, hk⟩ := hres
          refine ⟨hk.symm, ?_⟩
          have hnd : nd = -d := by omega
          rw [ha, hb, hdd, hnd] at heq
          have hvlt := firstIdx_lt_length _ _ _ hfi
          have hv4 : v = 4 := by
            have hlen : (List.take v (List.drop 1 hir)).length = 4 := by rw [heq]; rfl
            rw [List.length_take] at hlen
            omega
          subst hv4
          obtain ⟨x, hx, hbrx⟩ := firstIdx_found _ _ _ hfi
          have hxback : x = HirOp.BrBack := by
            have hgd : (List.drop 1 hir).getD 4 HirOp.BrBack = x := by
              rw [List.getD_eq_getElem?_getD, hx]; rfl
            rw [hgd] at hne
            cases x <;> simp [HirOp.isBr, HirOp.isOpen, HirOp.isClose] at hbrx hne ⊢
          subst hxback
          refine ⟨List.drop 5 (List.drop 1 hir), ?_⟩
          have hhir : hir = HirOp.BrFor :: List.drop 1 hir := by
            cases hir with
            | nil => simp at hhead
            | cons h t =>
              simp only [List.head?_cons, Option.some.injEq] at hhead
              subst hhead
              rfl
          conv_lhs => rw [hhir]
          congr 1
          conv_lhs => rw [← List.take_append_drop 4 (List.drop 1 hir)]
          rw [heq, List.drop_eq_getElem_cons hvlt]
          have hgetx : (List.drop 1 hir)[4] = HirOp.BrBack := List.getElem_eq_iff.mpr hx
          rw [hgetx]
          simp

theorem c3_bwd (hir : List HirOp) (d : Int) (rest : List HirOp)
    (hhir : hir = HirOp.BrFor :: HirOp.Modify (-1) :: HirOp.Move d ::
      HirOp.Modify 1 :: HirOp.Move (-d) :: HirOp.BrBack :: rest) :
    LirGen.try_opt_simple_hir_loop hir = some (LirOp.MoveCell d, 5) := by
  subst hhir
  have hfi : firstIdx HirOp.isBr
      ((HirOp.BrFor :: HirOp.Modify (-1) :: HirOp.Move d :: HirOp.Modify 1 ::
        HirOp.Move (-d) :: HirOp.BrBack :: rest).drop 1) = some 4 := by
    rfl
  simp only [LirGen.try_opt_simple_hir_loop, hfi]
  norm_num
  intro h
  exact absurd h (by simp)

/-! ## C3: the MoveCell pattern in Pass A (claim refuted for delta = 0) -/

/-- C3 counterexample: the HIR of `[-><+><]` is the four-instruction body
`Modify(−1), Move(0), Modify(+1), Move(0)` (the `><` runs coalesce to
`Move 0`), and Pass A *does* emit `MoveCell(0)` and consume the loop — it
is not kept as `BrFor` as the claim requires for δ = 0. -/
theorem c3_counterexample :
    HirGen.gen [91, 45, 62, 60, 43, 62, 60, 93] =
      [HirOp.BrFor, HirOp.Modify (-1), HirOp.Move 0, HirOp.Modify 1,
        HirOp.Move 0, HirOp.BrBack] ∧
      LirGen.try_opt_simple_hir_loop
        [HirOp.BrFor, HirOp.Modify (-1), HirOp.Move 0, HirOp.Modify 1,
          HirOp.Move 0, HirOp.BrBack] = some (LirOp.MoveCell 0, 5) ∧
      LirGen.gen_ir (HirGen.gen [91, 45, 62, 60, 43, 62, 60, 93]) =
        [LirOp.MoveCell 0] := by
  refine ⟨?_, ?_, ?_⟩ <;> rfl

/-- C3 amended: in Pass A, `try_opt_simple_hir_loop` emits a
`MoveCell(δ)` (consuming 5 ops) *exactly* when the window starting at the
`BrFor` is `BrFor, Modify(−1), Move(δ), Modify(+1), Move(−δ), BrBack` — for
every δ *including δ = 0*: the code has no δ ≠ 0 side condition, so the HIR
of `[-><+><]` is rewritten to `MoveCell(0)`, not kept as `BrFor`. -/
theorem c3_movecell_iff (hir : List HirOp) (hhead : hir.head? = some HirOp.BrFor)
    (d : Int) (k : Nat) :
    LirGen.try_opt_simple_hir_loop hir = some (LirOp.MoveCell d, k) ↔
      k = 5 ∧ ∃ rest, hir = HirOp.BrFor :: HirOp.Modify (-1) :: HirOp.Move d ::
        HirOp.Modify 1 :: HirOp.Move (-d) :: HirOp.BrBack :: rest := by
  constructor
  · exact c3_fwd hir hhead d k
  · rintro ⟨hk, rest, hhir⟩
    subst hk
    exact c3_bwd hir d rest hhir

/-- Witness for C3's amended theorem at the concrete loop `[->+<]`. -/
theorem c3_movecell_iff_witness :
    LirGen.try_opt_simple_hir_loop
      [HirOp.BrFor, HirOp.Modify (-1), HirOp.Move 1, HirOp.Modify 1,
        HirOp.Move (-1), HirOp.BrBack] = some (LirOp.MoveCell 1, 5) :=
  (c3_movecell_iff
    [HirOp.BrFor, HirOp.Modify (-1), HirOp.Move 1, HirOp.Modify 1,
      HirOp.Move (-1), HirOp.BrBack] rfl 1 5).mpr ⟨rfl, [], rfl⟩

theorem firstIdx_append_not (p : α → Bool) :
    ∀ (l l' : List α), (∀ x ∈ l, p x = false) →
      firstIdx p (l ++ l') = (firstIdx p l').map (· + l.length) := by
  intro l
  induction l with
  | nil =>
    intro l' h
    simp only [List.nil_append, List.length_nil]
    cases firstIdx p l' <;> simp
  | cons x xs ih =>
    intro l' h
    rw [List.cons_append]
    rw [show firstIdx p (x :: (xs ++ l')) =
      if p x then some 0 else (firstIdx p (xs ++ l')).map (· + 1) from rfl]
    rw [h x (by simp), ih l' (fun y hy => h y (by simp [hy]))]
    cases firstIdx p l' with
    | none => simp
    | some w =>
      rw [if_neg (by simp)]
      simp only [Option.map_some', Option.some.injEq, List.length_cons]
      omega

/-- C5 amended: pass B rewrites every simple loop whose body is all plain
modifies and moves into `BrFor`, a single `CnstMovSet` holding the
(offset, delta) pairs in visit order, an *unconditional* fixup `Move(drift)`
(a `Move 0` is emitted when the drift is zero), and `BrBack`. -/
theorem c5_balanced_block (body rest : List LirOp)
    (hbody : body.all LirOp.isModMov = true) :
    LirGen.try_opt_simple_lir_loop (LirOp.BrFor :: body ++ LirOp.BrBack :: rest) =
      some ([LirOp.BrFor, LirOp.CnstMovSet (LirGen.simBody body 0 []).2,
        LirOp.Move (LirGen.simBody body 0 []).1, LirOp.BrBack], body.length + 1) := by
  rw [List.cons_append]
  have hnobr : ∀ x ∈ body, LirOp.isBr x = false := by
    intro x hx
    have := List.all_eq_true.mp hbody x hx
    cases x <;> simp_all [LirOp.isModMov, LirOp.isBr, LirOp.isOpen, LirOp.isClose]
  have hfi : firstIdx LirOp.isBr
      ((LirOp.BrFor :: (body ++ LirOp.BrBack :: rest)).drop 1) = some body.length := by
    simp only [List.drop_succ_cons, List.drop_zero]
    rw [firstIdx_append_not LirOp.isBr body (LirOp.BrBack :: rest) hnobr]
    rw [show firstIdx LirOp.isBr (LirOp.BrBack :: rest) = some 0 from rfl]
    simp
  simp only [LirGen.try_opt_simple_lir_loop, hfi]
  have hgd : (List.drop 1 (LirOp.BrFor :: (body ++ LirOp.BrBack :: rest))).getD
      body.length LirOp.BrBack = LirOp.BrBack := by
    simp only [List.drop_succ_cons, List.drop_zero, List.getD_eq_getElem?_getD]
    rw [List.getElem?_append_right (Nat.le_refl _)]
    simp
  rw [hgd]
  have htake : List.take body.length
      (List.drop 1 (LirOp.BrFor :: (body ++ LirOp.BrBack :: rest))) = body := by
    simp only [List.drop_succ_cons, List.drop_zero]
    exact List.take_left body _
  rw [htake]
  simp only [hbody, if_true, if_false]
  rcases hsb : LirGen.simBody body 0 [] with ⟨off, set⟩
  simp

/-- C5 counterexample: for `[->++<]` (net drift 0) pass B emits the fixup
`Move 0` anyway — the rewritten loop is
`BrFor, CnstMovSet [(0,−1),(1,2)], Move 0, BrBack`, contradicting "no fixup
`Move` when drift = 0" (and the per-offset deltas are carried by a single
`CnstMovSet` node). -/
theorem c5_counterexample :
    HirGen.gen [91, 45, 62, 43, 43, 60, 93] =
      [HirOp.BrFor, HirOp.Modify (-1), HirOp.Move 1, HirOp.Modify 2,
        HirOp.Move (-1), HirOp.BrBack] ∧
      LirGen.gen_ir (HirGen.gen [91, 45, 62, 43, 43, 60, 93]) =
        [LirOp.BrFor, LirOp.CnstMovSet [(0, -1), (1, 2)], LirOp.Move 0,
          LirOp.BrBack] := by
  exact ⟨rfl, rfl⟩

/-- Witness for C5's amended theorem at the body of `[->++<]`. -/
theorem c5_balanced_block_witness :
    LirGen.try_opt_simple_lir_loop
      (LirOp.BrFor :: [LirOp.Modify (-1), LirOp.Move 1, LirOp.Modify 2,
        LirOp.Move (-1)] ++ LirOp.BrBack :: []) =
      some ([LirOp.BrFor,
        LirOp.CnstMovSet (LirGen.simBody [LirOp.Modify (-1), LirOp.Move 1,
          LirOp.Modify 2, LirOp.Move (-1)] 0 []).2,
        LirOp.Move (LirGen.simBody [LirOp.Modify (-1), LirOp.Move 1,
          LirOp.Modify 2, LirOp.Move (-1)] 0 []).1,
        LirOp.BrBack], 5) :=
  c5_balanced_block
    [LirOp.Modify (-1), LirOp.Move 1, LirOp.Modify 2, LirOp.Move (-1)] [] rfl

/-! ## C4: the zero idiom program `+++++[-].` and the JIT flush -/

/-- C4 (code-bug evidence): on `+++++[-].` the BF, HIR and LIR interpreters
each write exactly one byte of value 0, but the JIT backend's flush — the
output buffer up to the *first zero byte* — writes nothing, because the one
byte the program produced is itself 0 (the flush protocol cannot represent a
zero output byte). -/
theorem c4_zero_idiom_outputs :
    BfInterpreter.execute (BfParser.parse [43, 43, 43, 43, 43, 91, 45, 93, 46]) [] 50 =
      some [0] ∧
    HirInterpreter.execute (HirGen.gen [43, 43, 43, 43, 43, 91, 45, 93, 46]) [] 50 =
      some [0] ∧
    LirInterpreter.execute
      (LirGen.gen_ir (HirGen.gen [43, 43, 43, 43, 43, 91, 45, 93, 46])) [] 50 =
      some [0] ∧
    Jit.output (LirGen.gen_ir (HirGen.gen [43, 43, 43, 43, 43, 91, 45, 93, 46])) 50 =
      some [] := by
  refine ⟨rfl, rfl, rfl, rfl⟩

theorem btAux_none (isOp isCl : α → Bool) (prog : List α) :
    ∀ (fuel ip : Nat) (table : List Nat),
      (∃ i op, ip ≤ i ∧ prog[i]? = some op ∧ isOp op = true ∧
        scanMatch isOp isCl prog i = none) →
      btAux isOp isCl prog fuel ip table = none := by
  intro fuel
  induction fuel with
  | zero =>
    intro ip table ⟨i, op, hip, hi, hop, hscan⟩
    cases hp : prog[ip]? with
    | none =>
      exfalso
      have : prog[i]? = none := by
        rw [List.getElem?_eq_none]
        have := List.getElem?_eq_none_iff.mp hp
        omega
      rw [this] at hi
      exact Option.noConfusion hi
    | some op' => simp only [btAux, hp]
  | succ fuel ih =>
    intro ip table ⟨i, op, hip, hi, hop, hscan⟩
    cases hp : prog[ip]? with
    | none =>
      exfalso
      have : prog[i]? = none := by
        rw [List.getElem?_eq_none]
        have := List.getElem?_eq_none_iff.mp hp
        omega
      rw [this] at hi
      exact Option.noConfusion hi
    | some op' =>
      simp only [btAux, hp]
      by_cases hisop : isOp op' = true
      · rw [if_pos hisop]
        cases hsm : scanMatch isOp isCl prog ip with
        | none => rfl
        | some m =>
          show btAux isOp isCl prog fuel (ip + 1) ((table.set ip m).set m ip) = none
          have hne : i ≠ ip := by
            intro hEq
            subst hEq
            rw [hp] at hi
            obtain rfl := Option.some.injEq .. |>.mp hi
            rw [hsm] at hscan
            exact Option.noConfusion hscan
          exact ih (ip + 1) _ ⟨i, op, by omega, hi, hop, hscan⟩
      · rw [if_neg hisop]
        have hne : i ≠ ip := by
          intro hEq
          subst hEq
          rw [hp] at hi
          obtain rfl := Option.some.injEq .. |>.mp hi
          exact hisop hop
        exact ih (ip + 1) table ⟨i, op, by omega, hi, hop, hscan⟩

theorem branchTableG_none (isOp isCl : α → Bool) (prog : List α)
    (h : ∃ i op, prog[i]? = some op ∧ isOp op = true ∧
      scanMatch isOp isCl prog i = none) :
    branchTableG isOp isCl prog = none := by
  obtain ⟨i, op, hi, hop, hscan⟩ := h
  exact btAux_none isOp isCl prog _ 0 _ ⟨i, op, Nat.zero_le i, hi, hop, hscan⟩

/-! ## C2: unmatched-bracket detection in gen_branch_table -/

/-- C2 counterexample: a program consisting of a single stray `BrBack` is
*not* rejected at branch-table construction — `gen_branch_table` only scans
from `BrFor`s, so it returns the all-zero table — and the program is then
executed (terminating immediately, the cell being 0).  Likewise for the LIR
builder. -/
theorem c2_counterexample :
    HirInterpreter.gen_branch_table [HirOp.BrBack] = some [0] ∧
      HirInterpreter.execute [HirOp.BrBack] [] 5 = some [] ∧
      LirInterpreter.gen_branch_table [LirOp.BrBack] = some [0] := by
  refine ⟨rfl, rfl, rfl⟩

/-- C2 amended: branch-table construction (HIR and LIR) fails fatally for
every program containing an *unmatched `BrFor`* (the forward scan runs off
the end); an unmatched `BrBack` is not detected there — a single stray
`BrBack` yields the table `[0]` and the program is executed. -/
theorem c2_unmatched_detection :
    (∀ prog : List HirOp,
      (∃ i op, prog[i]? = some op ∧ HirOp.isOpen op = true ∧
        scanMatch HirOp.isOpen HirOp.isClose prog i = none) →
      HirInterpreter.gen_branch_table prog = none) ∧
    (∀ prog : List LirOp,
      (∃ i op, prog[i]? = some op ∧ LirOp.isOpen op = true ∧
        scanMatch LirOp.isOpen LirOp.isClose prog i = none) →
      LirInterpreter.gen_branch_table prog = none) ∧
    HirInterpreter.gen_branch_table [HirOp.BrBack] = some [0] ∧
    HirInterpreter.execute [HirOp.BrBack] [] 5 = some [] :=
  ⟨fun prog h => branchTableG_none _ _ prog h,
   fun prog h => branchTableG_none _ _ prog h,
   rfl, rfl⟩

/-- Witness for C2's amended theorem: the single-`BrFor` program is
rejected. -/
theorem c2_unmatched_detection_witness :
    HirInterpreter.gen_branch_table [HirOp.BrFor] = none :=
  c2_unmatched_detection.1 [HirOp.BrFor] ⟨0, HirOp.BrFor, rfl, rfl, rfl⟩

/-! ## Bracket-scan characterisation and the branch table (C6) -/
theorem brBal_nil (isOp isCl : α → Bool) : brBal isOp isCl [] = 0 := rfl

theorem brBal_cons (isOp isCl : α → Bool) (x : α) (l : List α) :
    brBal isOp isCl (x :: l) =
      (if isCl x then (-1 : Int) else if isOp x then 1 else 0) + brBal isOp isCl l := by
  simp [brBal]

theorem scanAux_some_iff (isOp isCl : α → Bool) :
    ∀ (l : List α) (d : Nat) (r : Nat),
      scanAux isOp isCl d l = some r ↔
        (∃ x, l[r]? = some x ∧ isCl x = true) ∧
          (d : Int) + brBal isOp isCl (l.take r) = 0 ∧
          (∀ r', r' < r → ∀ x, l[r']? = some x → isCl x = true →
            (d : Int) + brBal isOp isCl (l.take r') ≠ 0) := by
  intro l
  induction l with
  | nil =>
    intro d r
    simp [scanAux]
  | cons x xs ih =>
    intro d r
    by_cases hcl : isCl x = true
    · rcases d with _ | s
      · -- depth 0, close here: match at 0
        rw [show scanAux isOp isCl 0 (x :: xs) = some 0 by simp [scanAux, hcl]]
        constructor
        · intro h
          obtain rfl : r = 0 := by simpa using h.symm
          exact ⟨⟨x, by simp, hcl⟩, by simp [brBal], by omega⟩
        · rintro ⟨hfound, hbal, hmin⟩
          rcases r with _ | r0
          · rfl
          · exfalso
            exact hmin 0 (by omega) x (by simp) hcl (by simp [List.take, brBal])
      · -- positive depth, close: decrement and continue
        rw [show scanAux isOp isCl (s + 1) (x :: xs) =
          (scanAux isOp isCl s xs).map (· + 1) by simp [scanAux, hcl]]
        have hw : (if isCl x then (-1 : Int) else if isOp x then 1 else 0) = -1 := by
          simp [hcl]
        constructor
        · intro h
          obtain ⟨r0, hr0, rfl⟩ := Option.map_eq_some'.mp h
          obtain ⟨hfound, hbal, hmin⟩ := (ih s r0).mp hr0
          refine ⟨by simpa using hfound, ?_, ?_⟩
          · rw [show (x :: xs).take (r0 + 1) = x :: xs.take r0 from rfl, brBal_cons, hw]
            push_cast
            omega
          · intro r' hr' y hy hcy
            rcases r' with _ | r''
            · simp [List.take, brBal]
              omega
            · rw [show (x :: xs).take (r'' + 1) = x :: xs.take r'' from rfl, brBal_cons, hw]
              have := hmin r'' (by omega) y (by simpa using hy) hcy
              push_cast
              push_cast at this
              omega
        · rintro ⟨hfound, hbal, hmin⟩
          rcases r with _ | r0
          · exfalso
            simp only [List.take_zero, brBal_nil] at hbal
            omega
          · have hxs : scanAux isOp isCl s xs = some r0 := by
              rw [ih s r0]
              obtain ⟨y, hy, hcy⟩ := hfound
              refine ⟨⟨y, by simpa using hy, hcy⟩, ?_, ?_⟩
              · rw [show (x :: xs).take (r0 + 1) = x :: xs.take r0 from rfl,
                  brBal_cons, hw] at hbal
                push_cast at hbal ⊢
                omega
              · intro r' hr' z hz hcz
                have := hmin (r' + 1) (by omega) z (by simpa using hz) hcz
                rw [show (x :: xs).take (r' + 1) = x :: xs.take r' from rfl,
                  brBal_cons, hw] at this
                push_cast at this ⊢
                omega
            rw [hxs]
            rfl
    · -- not a close here
      have hcons : scanAux isOp isCl d (x :: xs) =
          (scanAux isOp isCl (if isOp x then d + 1 else d) xs).map (· + 1) := by
        by_cases hop : isOp x = true <;> simp [scanAux, hcl, hop]
      rw [hcons]
      have hw : (if isCl x then (-1 : Int) else if isOp x then 1 else 0) =
          if isOp x then 1 else 0 := by simp [hcl]
      constructor
      · intro h
        obtain ⟨r0, hr0, rfl⟩ := Option.map_eq_some'.mp h
        obtain ⟨hfound, hbal, hmin⟩ := (ih _ r0).mp hr0
        refine ⟨by simpa using hfound, ?_, ?_⟩
        · rw [show (x :: xs).take (r0 + 1) = x :: xs.take r0 from rfl, brBal_cons, hw]
          by_cases hop : isOp x = true <;> simp only [hop, if_true, if_false] at hbal ⊢ <;>
            push_cast at hbal ⊢ <;> omega
        · intro r' hr' y hy hcy
          rcases r' with _ | r''
          · simp only [List.getElem?_cons_zero, Option.some.injEq] at hy
            subst hy
            rw [hcy] at hcl
            exact absurd rfl hcl
          · rw [show (x :: xs).take (r'' + 1) = x :: xs.take r'' from rfl, brBal_cons, hw]
            have := hmin r'' (by omega) y (by simpa using hy) hcy
            by_cases hop : isOp x = true <;> simp only [hop, if_true, if_false] at this ⊢ <;>
              push_cast at this ⊢ <;> omega
      · rintro ⟨hfound, hbal, hmin⟩
        rcases r with _ | r0
        · exfalso
          obtain ⟨y, hy, hcy⟩ := hfound
          simp only [List.getElem?_cons_zero, Option.some.injEq] at hy
          subst hy
          rw [hcy] at hcl
          exact absurd rfl hcl
        · have hxs : scanAux isOp isCl (if isOp x then d + 1 else d) xs = some r0 := by
            rw [ih _ r0]
            obtain ⟨y, hy, hcy⟩ := hfound
            refine ⟨⟨y, by simpa using hy, hcy⟩, ?_, ?_⟩
            · rw [show (x :: xs).take (r0 + 1) = x :: xs.take r0 from rfl,
                brBal_cons, hw] at hbal
              by_cases hop : isOp x = true <;> simp only [hop, if_true, if_false] at hbal ⊢ <;>
                push_cast at hbal ⊢ <;> omega
            · intro r' hr' z hz hcz
              have := hmin (r' + 1) (by omega) z (by simpa using hz) hcz
              rw [show (x :: xs).take (r' + 1) = x :: xs.take r' from rfl,
                brBal_cons, hw] at this
              by_cases hop : isOp x = true <;> simp only [hop, if_true, if_false] at this ⊢ <;>
                push_cast at this ⊢ <;> omega
          rw [hxs]
          rfl

theorem scanAux_none_iff (isOp isCl : α → Bool) (l : List α) (d : Nat) :
    scanAux isOp isCl d l = none ↔
      ∀ r x, l[r]? = some x → isCl x = true →
        (d : Int) + brBal isOp isCl (l.take r) ≠ 0 := by
  constructor
  · intro hnone r x hx hcx hbal
    have hex : ∃ r, (∃ x, l[r]? = some x ∧ isCl x = true) ∧
        (d : Int) + brBal isOp isCl (l.take r) = 0 := ⟨r, ⟨x, hx, hcx⟩, hbal⟩
    classical
    have hspec := Nat.find_spec hex
    have hmin : ∀ m, m < Nat.find hex →
        ¬((∃ x, l[m]? = some x ∧ isCl x = true) ∧
          (d : Int) + brBal isOp isCl (l.take m) = 0) :=
      fun m hm => Nat.find_min hex hm
    have hsome : scanAux isOp isCl d l = some (Nat.find hex) := by
      rw [scanAux_some_iff]
      refine ⟨hspec.1, hspec.2, ?_⟩
      intro r' hr' y hy hcy hbal'
      exact hmin r' hr' ⟨⟨y, hy, hcy⟩, hbal'⟩
    rw [hsome] at hnone
    exact Option.noConfusion hnone
  · intro h
    cases hs : scanAux isOp isCl d l with
    | none => rfl
    | some r =>
      obtain ⟨⟨x, hx, hcx⟩, hbal, -⟩ := (scanAux_some_iff isOp isCl l d r).mp hs
      exact absurd hbal (h r x hx hcx)

theorem brBal_append (isOp isCl : α → Bool) (l l' : List α) :
    brBal isOp isCl (l ++ l') = brBal isOp isCl l + brBal isOp isCl l' := by
  simp [brBal]


theorem Bal_split (isOp isCl : α → Bool) (prog : List α) (a b c : Nat)
    (hab : a ≤ b) (hbc : b ≤ c) :
    Bal isOp isCl prog a c = Bal isOp isCl prog a b + Bal isOp isCl prog b c :=
  (Finset.sum_Ico_consecutive _ hab hbc).symm

theorem Bal_succ_top (isOp isCl : α → Bool) (prog : List α) (a b : Nat) (hab : a ≤ b) :
    Bal isOp isCl prog a (b + 1) = Bal isOp isCl prog a b + balAt isOp isCl prog b :=
  Finset.sum_Ico_succ_top hab _

theorem Bal_self (isOp isCl : α → Bool) (prog : List α) (a : Nat) :
    Bal isOp isCl prog a a = 0 := by
  simp [Bal]

theorem brBal_take_drop (isOp isCl : α → Bool) (prog : List α) (a : Nat) :
    ∀ k, brBal isOp isCl ((prog.drop a).take k) = Bal isOp isCl prog a (a + k) := by
  intro k
  induction k with
  | zero => simp [Bal, brBal]
  | succ k ih =>
    rw [List.take_succ, brBal_append, ih]
    rw [show a + (k + 1) = (a + k) + 1 from rfl,
      Bal_succ_top isOp isCl prog a (a + k) (by omega)]
    congr 1
    rw [List.getElem?_drop]
    unfold balAt
    cases hx : prog[a + k]? with
    | none => simp [brBal]
    | some x => simp [brBal]

theorem scanMatch_some_iff (isOp isCl : α → Bool) (prog : List α) (i m : Nat) :
    scanMatch isOp isCl prog i = some m ↔
      i < m ∧ (∃ op, prog[m]? = some op ∧ isCl op = true) ∧
        Bal isOp isCl prog (i + 1) m = 0 ∧
        ∀ m', i < m' → m' < m → ∀ op, prog[m']? = some op → isCl op = true →
          Bal isOp isCl prog (i + 1) m' ≠ 0 := by
  unfold scanMatch
  constructor
  · intro h
    obtain ⟨r, hr, rfl⟩ := Option.map_eq_some'.mp h
    obtain ⟨⟨x, hx, hcx⟩, hbal, hmin⟩ := (scanAux_some_iff isOp isCl _ 0 r).mp hr
    rw [List.getElem?_drop] at hx
    rw [brBal_take_drop] at hbal
    refine ⟨by omega, ⟨x, hx, hcx⟩, by simpa using hbal, ?_⟩
    intro m' him hm' op hop hcop
    have hr' : m' = (i + 1) + (m' - (i + 1)) := by omega
    have := hmin (m' - (i + 1)) (by omega) op
      (by rw [List.getElem?_drop, ← hr']; exact hop) hcop
    rw [brBal_take_drop, ← hr'] at this
    simpa using this
  · rintro ⟨him, ⟨x, hx, hcx⟩, hbal, hmin⟩
    have hr : scanAux isOp isCl 0 (prog.drop (i + 1)) = some (m - (i + 1)) := by
      rw [scanAux_some_iff]
      refine ⟨⟨x, ?_, hcx⟩, ?_, ?_⟩
      · rw [List.getElem?_drop, show i + 1 + (m - (i + 1)) = m by omega]
        exact hx
      · rw [brBal_take_drop, show i + 1 + (m - (i + 1)) = m by omega]
        simpa using hbal
      · intro r' hr' y hy hcy
        rw [List.getElem?_drop] at hy
        have := hmin (i + 1 + r') (by omega) (by omega) y hy hcy
        rw [brBal_take_drop]
        simpa using this
    rw [hr]
    simp only [Option.map_some', Option.some.injEq]
    omega

theorem scanMatch_none_iff (isOp isCl : α → Bool) (prog : List α) (i : Nat) :
    scanMatch isOp isCl prog i = none ↔
      ∀ m op, i < m → prog[m]? = some op → isCl op = true →
        Bal isOp isCl prog (i + 1) m ≠ 0 := by
  unfold scanMatch
  rw [Option.map_eq_none', scanAux_none_iff]
  constructor
  · intro h m op him hm hcm
    have := h (m - (i + 1)) op
      (by rw [List.getElem?_drop, show i + 1 + (m - (i + 1)) = m by omega]; exact hm) hcm
    rw [brBal_take_drop, show i + 1 + (m - (i + 1)) = m by omega] at this
    simpa using this
  · intro h r op hr hcr
    rw [List.getElem?_drop] at hr
    have := h (i + 1 + r) op (by omega) hr hcr
    rw [brBal_take_drop]
    simpa using this

theorem balAt_range (isOp isCl : α → Bool) (prog : List α) (q : Nat) :
    balAt isOp isCl prog q = -1 ∨ balAt isOp isCl prog q = 0 ∨
      balAt isOp isCl prog q = 1 := by
  unfold balAt
  cases prog[q]? with
  | none => simp
  | some op =>
    by_cases h1 : isCl op = true <;> by_cases h2 : isOp op = true <;> simp [h1, h2]

theorem balAt_eq_neg_one (isOp isCl : α → Bool) (prog : List α) (q : Nat)
    (h : balAt isOp isCl prog q = -1) :
    ∃ op, prog[q]? = some op ∧ isCl op = true := by
  unfold balAt at h
  cases hq : prog[q]? with
  | none => rw [hq] at h; simp at h
  | some op =>
    rw [hq] at h
    refine ⟨op, rfl, ?_⟩
    by_cases h1 : isCl op = true
    · exact h1
    · by_cases h2 : isOp op = true <;> simp [h1, h2] at h

theorem bal_neg_exists_close (isOp isCl : α → Bool) (prog : List α) (a : Nat) :
    ∀ b, a ≤ b → Bal isOp isCl prog a b < 0 →
      ∃ q, a ≤ q ∧ q < b ∧ (∃ op, prog[q]? = some op ∧ isCl op = true) ∧
        Bal isOp isCl prog a q = 0 := by
  intro b
  induction b with
  | zero =>
    intro hab h
    have : a = 0 := by omega
    subst this
    simp [Bal] at h
  | succ b ih =>
    intro hab h
    by_cases hb : a ≤ b
    · rw [Bal_succ_top isOp isCl prog a b hb] at h
      by_cases hneg : Bal isOp isCl prog a b < 0
      · obtain ⟨q, h1, h2, h3, h4⟩ := ih hb hneg
        exact ⟨q, h1, by omega, h3, h4⟩
      · have hbal0 : Bal isOp isCl prog a b = 0 ∧ balAt isOp isCl prog b = -1 := by
          rcases balAt_range isOp isCl prog b with h' | h' | h' <;> omega
        exact ⟨b, hb, by omega, balAt_eq_neg_one isOp isCl prog b hbal0.2, hbal0.1⟩
    · have : a = b + 1 := by omega
      subst this
      simp [Bal] at h

theorem match_unique (isOp isCl : α → Bool) (prog : List α) (i1 i2 m : Nat)
    (hb1 : balAt isOp isCl prog i1 = 1) (hb2 : balAt isOp isCl prog i2 = 1)
    (h1 : scanMatch isOp isCl prog i1 = some m)
    (h2 : scanMatch isOp isCl prog i2 = some m) : i1 = i2 := by
  rcases Nat.lt_trichotomy i1 i2 with hlt | hEq | hgt
  · exfalso
    obtain ⟨him1, -, hbal1, hmin1⟩ := (scanMatch_some_iff isOp isCl prog i1 m).mp h1
    obtain ⟨him2, -, hbal2, -⟩ := (scanMatch_some_iff isOp isCl prog i2 m).mp h2
    have hsplit : Bal isOp isCl prog (i1 + 1) m =
        Bal isOp isCl prog (i1 + 1) i2 + balAt isOp isCl prog i2 +
          Bal isOp isCl prog (i2 + 1) m := by
      rw [Bal_split isOp isCl prog (i1 + 1) i2 m (by omega) (by omega),
        Bal_split isOp isCl prog i2 (i2 + 1) m (by omega) (by omega)]
      rw [show Bal isOp isCl prog i2 (i2 + 1) = balAt isOp isCl prog i2 by
        rw [Bal_succ_top isOp isCl prog i2 i2 (le_refl _)]; simp [Bal]]
      ring
    rw [hbal1, hbal2, hb2] at hsplit
    have hneg : Bal isOp isCl prog (i1 + 1) i2 < 0 := by omega
    obtain ⟨q, hq1, hq2, ⟨op, hop, hcop⟩, hq4⟩ :=
      bal_neg_exists_close isOp isCl prog (i1 + 1) i2 (by omega) hneg
    exact hmin1 q (by omega) (by omega) op hop hcop hq4
  · exact hEq
  · exfalso
    obtain ⟨him2, -, hbal2, hmin2⟩ := (scanMatch_some_iff isOp isCl prog i2 m).mp h2
    obtain ⟨him1, -, hbal1, -⟩ := (scanMatch_some_iff isOp isCl prog i1 m).mp h1
    have hsplit : Bal isOp isCl prog (i2 + 1) m =
        Bal isOp isCl prog (i2 + 1) i1 + balAt isOp isCl prog i1 +
          Bal isOp isCl prog (i1 + 1) m := by
      rw [Bal_split isOp isCl prog (i2 + 1) i1 m (by omega) (by omega),
        Bal_split isOp isCl prog i1 (i1 + 1) m (by omega) (by omega)]
      rw [show Bal isOp isCl prog i1 (i1 + 1) = balAt isOp isCl prog i1 by
        rw [Bal_succ_top isOp isCl prog i1 i1 (le_refl _)]; simp [Bal]]
      ring
    rw [hbal1, hbal2, hb1] at hsplit
    have hneg : Bal isOp isCl prog (i2 + 1) i1 < 0 := by omega
    obtain ⟨q, hq1, hq2, ⟨op, hop, hcop⟩, hq4⟩ :=
      bal_neg_exists_close isOp isCl prog (i2 + 1) i1 (by omega) hneg
    exact hmin2 q (by omega) (by omega) op hop hcop hq4

theorem getD_set_self (l : List Nat) (i v : Nat) (h : i < l.length) :
    (l.set i v).getD i 0 = v := by
  rw [List.getD_eq_getElem?_getD, List.getElem?_set_self h]
  rfl

theorem getD_set_ne (l : List Nat) (i v j : Nat) (h : i ≠ j) :
    (l.set i v).getD j 0 = l.getD j 0 := by
  rw [List.getD_eq_getElem?_getD, List.getElem?_set_ne h, ← List.getD_eq_getElem?_getD]

theorem btAux_values (isOp isCl : α → Bool) (prog : List α)
    (hdisj : ∀ x, isOp x = true → isCl x = false) :
    ∀ (fuel ip : Nat) (table : List Nat),
      prog.length ≤ fuel + ip →
      table.length = prog.length →
      (∀ i op, ip ≤ i → prog[i]? = some op → isOp op = true →
        (scanMatch isOp isCl prog i).isSome) →
      ∃ t, btAux isOp isCl prog fuel ip table = some t ∧
        t.length = prog.length ∧
        (∀ x op m, ip ≤ x → prog[x]? = some op → isOp op = true →
          scanMatch isOp isCl prog x = some m → t.getD x 0 = m) ∧
        (∀ x i0 op, ip ≤ i0 → prog[i0]? = some op → isOp op = true →
          scanMatch isOp isCl prog i0 = some x → t.getD x 0 = i0) ∧
        (∀ x, (¬∃ i op, ip ≤ i ∧ prog[i]? = some op ∧ isOp op = true ∧
          (x = i ∨ scanMatch isOp isCl prog i = some x)) →
          t.getD x 0 = table.getD x 0) := by
  intro fuel
  induction fuel with
  | zero =>
    intro ip table hfuel hlen hmatch
    have hnone : prog[ip]? = none := by
      rw [List.getElem?_eq_none]
      omega
    refine ⟨table, by simp [btAux, hnone], hlen, ?_, ?_, ?_⟩
    · intro x op m hx hpx hox hsm
      exfalso
      have := (List.getElem?_eq_some_iff.mp hpx).1
      omega
    · intro x i0 op h0 hp0 ho0 hsm
      exfalso
      have := (List.getElem?_eq_some_iff.mp hp0).1
      omega
    · intro x h
      rfl
  | succ fuel ih =>
    intro ip table hfuel hlen hmatch
    cases hp : prog[ip]? with
    | none =>
      have hiplen : prog.length ≤ ip := by
        rw [← List.getElem?_eq_none_iff]
        exact hp
      refine ⟨table, by simp [btAux, hp], hlen, ?_, ?_, ?_⟩
      · intro x op m hx hpx hox hsm
        exfalso
        have := (List.getElem?_eq_some_iff.mp hpx).1
        omega
      · intro x i0 op h0 hp0 ho0 hsm
        exfalso
        have := (List.getElem?_eq_some_iff.mp hp0).1
        omega
      · intro x h
        rfl
    | some op =>
      have hiplt : ip < prog.length := (List.getElem?_eq_some_iff.mp hp).1
      by_cases hisop : isOp op = true
      · -- open bracket: scan must succeed
        have hsm := hmatch ip op (le_refl ip) hp hisop
        cases hm : scanMatch isOp isCl prog ip with
        | none => rw [hm] at hsm; exact absurd hsm (by simp)
        | some m =>
          obtain ⟨him, ⟨opm, hpm, hcm⟩, -, -⟩ := (scanMatch_some_iff isOp isCl prog ip m).mp hm
          have hmlt : m < prog.length := (List.getElem?_eq_some_iff.mp hpm).1
          have hmne : m ≠ ip := by omega
          have hlen' : ((table.set ip m).set m ip).length = prog.length := by
            simp [hlen]
          obtain ⟨t, ht, htlen, hopen, hclose, huntouched⟩ :=
            ih (ip + 1) ((table.set ip m).set m ip) (by omega) hlen'
              (fun i o hi hpi hoi => hmatch i o (by omega) hpi hoi)
          refine ⟨t, ?_, htlen, ?_, ?_, ?_⟩
          · simp only [btAux, hp, hisop, if_true, hm]
            exact ht
          · -- open clause
            intro x opx mx hx hpx hox hsmx
            rcases Nat.eq_or_lt_of_le hx with hEq | hlt
            · -- hEq : ip = x
              have hsmx' : scanMatch isOp isCl prog ip = some mx := by
                rw [hEq]; exact hsmx
              rw [hm] at hsmx'
              have hmx : m = mx := Option.some.injEq .. |>.mp hsmx'
              rw [← hEq, ← hmx]
              rw [huntouched ip ?hne]
              case hne =>
                rintro ⟨i, opi, hi, hpi, hoi, hx_or⟩
                rcases hx_or with rfl | hmi
                · omega
                · obtain ⟨-, ⟨opx', hpx', hcx'⟩, -, -⟩ :=
                    (scanMatch_some_iff isOp isCl prog i ip).mp hmi
                  rw [hp] at hpx'
                  obtain rfl := (Option.some.injEq .. |>.mp hpx')
                  rw [hdisj _ hisop] at hcx'
                  exact Bool.noConfusion hcx'
              rw [getD_set_ne _ _ _ _ hmne, getD_set_self _ _ _ (by omega)]
            · exact hopen x opx mx hlt hpx hox hsmx
          · -- close clause
            intro x i0 op0 h0 hp0 ho0 hsm0
            rcases Nat.eq_or_lt_of_le h0 with hEq | hlt
            · -- hEq : ip = i0
              have hsm0' : scanMatch isOp isCl prog ip = some x := by
                rw [hEq]; exact hsm0
              rw [hm] at hsm0'
              have hx : m = x := Option.some.injEq .. |>.mp hsm0'
              rw [← hEq, ← hx]
              rw [huntouched m ?hnem]
              case hnem =>
                rintro ⟨i, opi, hi, hpi, hoi, hm_or⟩
                rcases hm_or with rfl | hmi
                · rw [hpm] at hpi
                  obtain rfl := (Option.some.injEq .. |>.mp hpi)
                  rw [hdisj _ hoi] at hcm
                  exact Bool.noConfusion hcm
                · have hb1 : balAt isOp isCl prog ip = 1 := by
                    simp only [balAt, hp, hdisj _ hisop, hisop]
                    simp
                  have hb2 : balAt isOp isCl prog i = 1 := by
                    simp only [balAt, hpi, hdisj _ hoi, hoi]
                    simp
                  have := match_unique isOp isCl prog ip i m hb1 hb2 hm hmi
                  omega
              rw [getD_set_self _ _ _ (by simp [hlen]; omega)]
            · exact hclose x i0 op0 hlt hp0 ho0 hsm0
          · -- untouched clause
            intro x hnex
            have hxne_ip : x ≠ ip := by
              intro hEq
              exact hnex ⟨ip, op, le_refl ip, hp, hisop, Or.inl hEq⟩
            have hxne_m : x ≠ m := by
              intro hEq
              exact hnex ⟨ip, op, le_refl ip, hp, hisop, Or.inr (by rw [hm, hEq])⟩
            rw [huntouched x ?hne2]
            case hne2 =>
              rintro ⟨i, opi, hi, hpi, hoi, hx_or⟩
              exact hnex ⟨i, opi, by omega, hpi, hoi, hx_or⟩
            rw [getD_set_ne _ _ _ _ (Ne.symm hxne_m), getD_set_ne _ _ _ _ (Ne.symm hxne_ip)]
      · -- not an open bracket: copy through
        obtain ⟨t, ht, htlen, hopen, hclose, huntouched⟩ :=
          ih (ip + 1) table (by omega) hlen
            (fun i o hi hpi hoi => hmatch i o (by omega) hpi hoi)
        refine ⟨t, ?_, htlen, ?_, ?_, ?_⟩
        · simp only [btAux, hp, hisop, if_false]
          exact ht
        · intro x opx mx hx hpx hox hsmx
          rcases Nat.eq_or_lt_of_le hx with hEq | hlt
          · subst hEq
            rw [hp] at hpx
            obtain rfl := (Option.some.injEq .. |>.mp hpx).symm
            exact absurd hox hisop
          · exact hopen x opx mx hlt hpx hox hsmx
        · intro x i0 op0 h0 hp0 ho0 hsm0
          rcases Nat.eq_or_lt_of_le h0 with hEq | hlt
          · subst hEq
            rw [hp] at hp0
            obtain rfl := (Option.some.injEq .. |>.mp hp0).symm
            exact absurd ho0 hisop
          · exact hclose x i0 op0 hlt hp0 ho0 hsm0
        · intro x hnex
          rw [huntouched x ?hne3]
          case hne3 =>
            rintro ⟨i, opi, hi, hpi, hoi, hx_or⟩
            exact hnex ⟨i, opi, by omega, hpi, hoi, hx_or⟩

theorem branchTable_spec (isOp isCl : α → Bool) (prog : List α)
    (hdisj : ∀ x, isOp x = true → isCl x = false)
    (hopens : OpensMatched isOp isCl prog) :
    ∃ T, branchTableG isOp isCl prog = some T ∧
      ∀ i op, prog[i]? = some op → isOp op = true →
        ∃ m, scanMatch isOp isCl prog i = some m ∧ T.getD i 0 = m ∧ T.getD m 0 = i := by
  obtain ⟨t, ht, htlen, hopen, hclose, -⟩ :=
    btAux_values isOp isCl prog hdisj prog.length 0 (List.replicate prog.length 0)
      (by omega) (by simp)
      (fun i op hi hpi hoi => hopens i op hpi hoi)
  refine ⟨t, ht, ?_⟩
  intro i op hp hop
  have hsm := hopens i op hp hop
  cases hm : scanMatch isOp isCl prog i with
  | none => rw [hm] at hsm; exact absurd hsm (by simp)
  | some m =>
    exact ⟨m, rfl, hopen i op m (Nat.zero_le i) hp hop hm,
      hclose m i op (Nat.zero_le i) hp hop hm⟩

theorem scanMatch_isFirstClose (isOp isCl : α → Bool) (prog : List α) (i m : Nat)
    (h : scanMatch isOp isCl prog i = some m) :
    IsFirstClose isOp isCl prog i m := by
  obtain ⟨him, hfound, hbal, hmin⟩ := (scanMatch_some_iff isOp isCl prog i m).mp h
  exact ⟨him, hfound, hbal, fun j' h1 h2 op hop hcop => hmin j' h1 h2 op hop hcop⟩

/-- C6: for every program in which every bracket has a match, the branch
table built by `gen_branch_table` (HIR and LIR alike) is an involution on
the bracket indices — `table[i] = j` implies `table[j] = i` for every
`BrFor` index `i` — and `table[i]` is the index of the first `BrBack` to the
right of `i` at the same nesting depth (a close with bracket balance 0
strictly between, and no earlier such close). -/
theorem c6_branch_table_involution :
    (∀ prog : List HirOp,
      OpensMatched HirOp.isOpen HirOp.isClose prog →
      ClosesMatched HirOp.isOpen HirOp.isClose prog →
      ∃ T, HirInterpreter.gen_branch_table prog = some T ∧
        ∀ i op, prog[i]? = some op → op = HirOp.BrFor →
          (∀ j, T.getD i 0 = j → T.getD j 0 = i) ∧
          IsFirstClose HirOp.isOpen HirOp.isClose prog i (T.getD i 0)) ∧
    (∀ prog : List LirOp,
      OpensMatched LirOp.isOpen LirOp.isClose prog →
      ClosesMatched LirOp.isOpen LirOp.isClose prog →
      ∃ T, LirInterpreter.gen_branch_table prog = some T ∧
        ∀ i op, prog[i]? = some op → op = LirOp.BrFor →
          (∀ j, T.getD i 0 = j → T.getD j 0 = i) ∧
          IsFirstClose LirOp.isOpen LirOp.isClose prog i (T.getD i 0)) := by
  constructor
  · intro prog hopens hcloses
    obtain ⟨T, hT, hspec⟩ := branchTable_spec HirOp.isOpen HirOp.isClose prog
      (fun x hx => by cases x <;> simp_all [HirOp.isOpen, HirOp.isClose]) hopens
    refine ⟨T, hT, ?_⟩
    intro i op hp hop
    subst hop
    obtain ⟨m, hm, hTi, hTm⟩ := hspec i HirOp.BrFor hp rfl
    constructor
    · intro j hj
      rw [← hj, hTi]
      exact hTm
    · rw [hTi]
      exact scanMatch_isFirstClose HirOp.isOpen HirOp.isClose prog i m hm
  · intro prog hopens hcloses
    obtain ⟨T, hT, hspec⟩ := branchTable_spec LirOp.isOpen LirOp.isClose prog
      (fun x hx => by cases x <;> simp_all [LirOp.isOpen, LirOp.isClose]) hopens
    refine ⟨T, hT, ?_⟩
    intro i op hp hop
    subst hop
    obtain ⟨m, hm, hTi, hTm⟩ := hspec i LirOp.BrFor hp rfl
    constructor
    · intro j hj
      rw [← hj, hTi]
      exact hTm
    · rw [hTi]
      exact scanMatch_isFirstClose LirOp.isOpen LirOp.isClose prog i m hm

/-- Witness for C6 at the concrete program `[]` (one matched pair). -/
theorem c6_branch_table_involution_witness :
    ∃ T, HirInterpreter.gen_branch_table [HirOp.BrFor, HirOp.BrBack] = some T ∧
      ∀ i op, [HirOp.BrFor, HirOp.BrBack][i]? = some op → op = HirOp.BrFor →
        (∀ j, T.getD i 0 = j → T.getD j 0 = i) ∧
        IsFirstClose HirOp.isOpen HirOp.isClose [HirOp.BrFor, HirOp.BrBack] i
          (T.getD i 0) := by
  apply c6_branch_table_involution.1
  · intro i op hp hop
    have hi : i < 2 := by
      have := (List.getElem?_eq_some_iff.mp hp).1
      simpa using this
    interval_cases i
    · exact (by rfl : (scanMatch HirOp.isOpen HirOp.isClose
        [HirOp.BrFor, HirOp.BrBack] 0).isSome = true)
    · exfalso
      simp only [List.getElem?_cons_succ, List.getElem?_cons_zero,
        Option.some.injEq] at hp
      subst hp
      simp [HirOp.isOpen] at hop
  · intro j op hp hcl
    have hj : j < 2 := by
      have := (List.getElem?_eq_some_iff.mp hp).1
      simpa using this
    interval_cases j
    · exfalso
      simp only [List.getElem?_cons_zero, Option.some.injEq] at hp
      subst hp
      simp [HirOp.isClose] at hcl
    · exact ⟨0, HirOp.BrFor, rfl, rfl, rfl⟩

/-! ## C1: BF / HIR / LIR interpreter output equivalence -/

theorem length_dropWhile_le (p : α → Bool) (l : List α) :
    (l.dropWhile p).length ≤ l.length := by
  induction l with
  | nil => simp
  | cons x xs ih =>
    rw [List.dropWhile_cons]
    split
    · simp only [List.length_cons]
      omega
    · simp

theorem lowerF_nil (f : Nat) : HirGen.lowerF f [] = [] := by
  cases f <;> rfl

theorem lowerF_congr : ∀ (f1 : Nat) (bf : List BfOp) (f2 : Nat),
    bf.length ≤ f1 → bf.length ≤ f2 →
    HirGen.lowerF f1 bf = HirGen.lowerF f2 bf := by
  intro f1
  induction f1 with
  | zero =>
    intro bf f2 h1 h2
    match bf with
    | [] => rw [lowerF_nil, lowerF_nil]
    | op :: rest => simp at h1
  | succ f1 ih =>
    intro bf f2 h1 h2
    match bf, f2 with
    | [], f2 => rw [lowerF_nil, lowerF_nil]
    | op :: rest, 0 => simp at h2
    | op :: rest, f2 + 1 =>
      cases op
      case Inc | Dec =>
        simp only [HirGen.lowerF]
        congr 1
        have hdw : (List.dropWhile BfOp.isAdd rest).length ≤ rest.length :=
          length_dropWhile_le BfOp.isAdd rest
        simp only [List.length_cons] at h1 h2
        apply ih <;> simp [List.dropWhile_cons, BfOp.isAdd] <;> omega
      case MvRight | MvLeft =>
        simp only [HirGen.lowerF]
        congr 1
        have hdw : (List.dropWhile BfOp.isMv rest).length ≤ rest.length :=
          length_dropWhile_le BfOp.isMv rest
        simp only [List.length_cons] at h1 h2
        apply ih <;> simp [List.dropWhile_cons, BfOp.isMv] <;> omega
      case In | Out | BrFor | BrBack =>
        simp only [HirGen.lowerF]
        congr 1
        apply ih <;> simp_all

theorem segLen_pos (bf : List BfOp) (h : bf ≠ []) : 0 < segLen bf := by
  match bf with
  | op :: rest =>
    cases op <;> simp [segLen, List.takeWhile_cons, BfOp.isAdd, BfOp.isMv]

theorem takeWhile_length_le (p : α → Bool) (l : List α) :
    (l.takeWhile p).length ≤ l.length := by
  induction l with
  | nil => simp
  | cons x xs ih =>
    rw [List.takeWhile_cons]
    split
    · simp only [List.length_cons]
      omega
    · simp

theorem drop_takeWhile_length (p : α → Bool) (l : List α) :
    l.drop (l.takeWhile p).length = l.dropWhile p := by
  have h : l = l.takeWhile p ++ l.dropWhile p := (List.takeWhile_append_dropWhile p l).symm
  nth_rewrite 2 [h]
  exact List.drop_left _ _

theorem segLen_le (bf : List BfOp) : segLen bf ≤ bf.length := by
  match bf with
  | [] => simp [segLen]
  | op :: rest =>
    have h1 := takeWhile_length_le BfOp.isAdd (op :: rest)
    have h2 := takeWhile_length_le BfOp.isMv (op :: rest)
    cases op <;> simp only [segLen] <;> simp_all

theorem lower_cons_add (op : BfOp) (rest : List BfOp) (hop : BfOp.isAdd op = true) :
    HirGen.lower (op :: rest) =
      HirOp.Modify
        (((op :: rest).takeWhile BfOp.isAdd).foldl (fun a o => a + o.addDelta) 0) ::
        HirGen.lower ((op :: rest).dropWhile BfOp.isAdd) := by
  unfold HirGen.lower
  have hlen : ((op :: rest).dropWhile BfOp.isAdd).length ≤ rest.length := by
    cases op <;> simp only [BfOp.isAdd] at hop <;> first
      | exact Bool.noConfusion hop
      | · simp only [List.dropWhile_cons, BfOp.isAdd, if_true]
          exact length_dropWhile_le BfOp.isAdd rest
  cases op <;> simp only [BfOp.isAdd] at hop <;> first
    | exact Bool.noConfusion hop
    | · simp only [List.length_cons, HirGen.lowerF]
        congr 1
        exact lowerF_congr rest.length _ _ hlen (le_refl _)

theorem lower_cons_mv (op : BfOp) (rest : List BfOp) (hop : BfOp.isMv op = true) :
    HirGen.lower (op :: rest) =
      HirOp.Move
        (((op :: rest).takeWhile BfOp.isMv).foldl (fun a o => a + o.mvDelta) 0) ::
        HirGen.lower ((op :: rest).dropWhile BfOp.isMv) := by
  unfold HirGen.lower
  have hlen : ((op :: rest).dropWhile BfOp.isMv).length ≤ rest.length := by
    cases op <;> simp only [BfOp.isMv] at hop <;> first
      | exact Bool.noConfusion hop
      | · simp only [List.dropWhile_cons, BfOp.isMv, if_true]
          exact length_dropWhile_le BfOp.isMv rest
  cases op <;> simp only [BfOp.isMv] at hop <;> first
    | exact Bool.noConfusion hop
    | · simp only [List.length_cons, HirGen.lowerF]
        congr 1
        exact lowerF_congr rest.length _ _ hlen (le_refl _)

theorem lower_cons_in (rest : List BfOp) :
    HirGen.lower (BfOp.In :: rest) = HirOp.In :: HirGen.lower rest := by
  unfold HirGen.lower
  simp only [List.length_cons, HirGen.lowerF]

theorem lower_cons_out (rest : List BfOp) :
    HirGen.lower (BfOp.Out :: rest) = HirOp.Out :: HirGen.lower rest := by
  unfold HirGen.lower
  simp only [List.length_cons, HirGen.lowerF]

theorem lower_cons_brfor (rest : List BfOp) :
    HirGen.lower (BfOp.BrFor :: rest) = HirOp.BrFor :: HirGen.lower rest := by
  unfold HirGen.lower
  simp only [List.length_cons, HirGen.lowerF]

theorem lower_cons_brback (rest : List BfOp) :
    HirGen.lower (BfOp.BrBack :: rest) = HirOp.BrBack :: HirGen.lower rest := by
  unfold HirGen.lower
  simp only [List.length_cons, HirGen.lowerF]

theorem drop_segLen_add (op : BfOp) (rest : List BfOp) (hop : BfOp.isAdd op = true) :
    (op :: rest).drop (segLen (op :: rest)) = (op :: rest).dropWhile BfOp.isAdd := by
  have : segLen (op :: rest) = ((op :: rest).takeWhile BfOp.isAdd).length := by
    cases op <;> simp only [BfOp.isAdd] at hop <;> first
      | exact Bool.noConfusion hop
      | rfl
  rw [this, drop_takeWhile_length]

theorem drop_segLen_mv (op : BfOp) (rest : List BfOp) (hop : BfOp.isMv op = true) :
    (op :: rest).drop (segLen (op :: rest)) = (op :: rest).dropWhile BfOp.isMv := by
  have : segLen (op :: rest) = ((op :: rest).takeWhile BfOp.isMv).length := by
    cases op <;> simp only [BfOp.isMv] at hop <;> first
      | exact Bool.noConfusion hop
      | rfl
  rw [this, drop_takeWhile_length]

theorem lower_seg (bf : List BfOp) (h : bf ≠ []) :
    ∃ hop : HirOp, HirGen.lower bf = hop :: HirGen.lower (bf.drop (segLen bf)) := by
  match bf with
  | op :: rest =>
    cases op
    case Inc =>
      rw [drop_segLen_add BfOp.Inc rest rfl, lower_cons_add BfOp.Inc rest rfl]
      exact ⟨_, rfl⟩
    case Dec =>
      rw [drop_segLen_add BfOp.Dec rest rfl, lower_cons_add BfOp.Dec rest rfl]
      exact ⟨_, rfl⟩
    case MvRight =>
      rw [drop_segLen_mv BfOp.MvRight rest rfl, lower_cons_mv BfOp.MvRight rest rfl]
      exact ⟨_, rfl⟩
    case MvLeft =>
      rw [drop_segLen_mv BfOp.MvLeft rest rfl, lower_cons_mv BfOp.MvLeft rest rfl]
      exact ⟨_, rfl⟩
    case In =>
      rw [show segLen (BfOp.In :: rest) = 1 from rfl, List.drop_one, lower_cons_in]
      exact ⟨_, rfl⟩
    case Out =>
      rw [show segLen (BfOp.Out :: rest) = 1 from rfl, List.drop_one, lower_cons_out]
      exact ⟨_, rfl⟩
    case BrFor =>
      rw [show segLen (BfOp.BrFor :: rest) = 1 from rfl, List.drop_one, lower_cons_brfor]
      exact ⟨_, rfl⟩
    case BrBack =>
      rw [show segLen (BfOp.BrBack :: rest) = 1 from rfl, List.drop_one, lower_cons_brback]
      exact ⟨_, rfl⟩

theorem bIdx_succ (bf : List BfOp) :
    ∀ j, bIdx (j + 1) bf = bIdx j bf + segLen (bf.drop (bIdx j bf)) := by
  intro j
  induction j generalizing bf with
  | zero => simp [bIdx]
  | succ j ih =>
    rw [show bIdx (j + 1 + 1) bf = segLen bf + bIdx (j + 1) (bf.drop (segLen bf)) from rfl]
    rw [ih (bf.drop (segLen bf))]
    rw [show bIdx (j + 1) bf = segLen bf + bIdx j (bf.drop (segLen bf)) from rfl]
    rw [List.drop_drop]
    ring_nf

theorem lower_drop_bIdx (bf : List BfOp) :
    ∀ j, HirGen.lower (bf.drop (bIdx j bf)) = (HirGen.lower bf).drop j := by
  intro j
  induction j generalizing bf with
  | zero => simp [bIdx]
  | succ j ih =>
    by_cases hbf : bf = []
    · subst hbf
      have hnil : ∀ k, bIdx k ([] : List BfOp) = 0 := by
        intro k
        induction k with
        | zero => rfl
        | succ k ihk => simp [bIdx, segLen, ihk]
      rw [hnil]
      simp [HirGen.lower, HirGen.lowerF]
    · obtain ⟨hop, hlo⟩ := lower_seg bf hbf
      rw [show bIdx (j + 1) bf = segLen bf + bIdx j (bf.drop (segLen bf)) from rfl]
      rw [← List.drop_drop]
      rw [ih (bf.drop (segLen bf))]
      rw [hlo]
      simp

theorem bIdx_add (bf : List BfOp) (j k : Nat) :
    bIdx (j + k) bf = bIdx j bf + bIdx k (bf.drop (bIdx j bf)) := by
  induction k with
  | zero => simp [bIdx]
  | succ k ih =>
    rw [show j + (k + 1) = (j + k) + 1 from rfl, bIdx_succ, ih, bIdx_succ]
    have hdd : List.drop (bIdx j bf + bIdx k (List.drop (bIdx j bf) bf)) bf =
        List.drop (bIdx k (List.drop (bIdx j bf) bf)) (List.drop (bIdx j bf) bf) := by
      rw [List.drop_drop, Nat.add_comm]
    rw [hdd]
    omega


theorem scanAux_append_nobr (isOp isCl : α → Bool) :
    ∀ (w u : List α) (d : Nat), (∀ x ∈ w, isOp x = false ∧ isCl x = false) →
      scanAux isOp isCl d (w ++ u) = (scanAux isOp isCl d u).map (· + w.length) := by
  intro w
  induction w with
  | nil =>
    intro u d h
    simp only [List.nil_append, List.length_nil]
    cases scanAux isOp isCl d u <;> simp
  | cons x xs ih =>
    intro u d h
    obtain ⟨hox, hcx⟩ := h x (by simp)
    rw [List.cons_append]
    rw [show scanAux isOp isCl d (x :: (xs ++ u)) =
      if isCl x then (if d = 0 then some 0 else
        (scanAux isOp isCl (d - 1) (xs ++ u)).map (· + 1))
      else if isOp x then (scanAux isOp isCl (d + 1) (xs ++ u)).map (· + 1)
      else (scanAux isOp isCl d (xs ++ u)).map (· + 1) from rfl]
    rw [hox, hcx]
    simp only [Bool.false_eq_true, if_false]
    rw [ih u d (fun y hy => h y (by simp [hy]))]
    cases scanAux isOp isCl d u with
    | none => simp
    | some r =>
      simp only [Option.map_some', Option.some.injEq, List.length_cons]
      omega

theorem bIdx_cons (j : Nat) (bf : List BfOp) :
    bIdx (j + 1) bf = segLen bf + bIdx j (bf.drop (segLen bf)) := rfl

theorem scanAux_cons_open (isOp isCl : α → Bool) (x : α) (xs : List α) (d : Nat)
    (hc : isCl x = false) (ho : isOp x = true) :
    scanAux isOp isCl d (x :: xs) = (scanAux isOp isCl (d + 1) xs).map (· + 1) := by
  simp [scanAux, hc, ho]

theorem scanAux_cons_close_zero (isOp isCl : α → Bool) (x : α) (xs : List α)
    (hc : isCl x = true) :
    scanAux isOp isCl 0 (x :: xs) = some 0 := by
  simp [scanAux, hc]

theorem scanAux_cons_close_succ (isOp isCl : α → Bool) (x : α) (xs : List α) (d : Nat)
    (hc : isCl x = true) :
    scanAux isOp isCl (d + 1) (x :: xs) = (scanAux isOp isCl d xs).map (· + 1) := by
  simp [scanAux, hc]

theorem scanAux_cons_other (isOp isCl : α → Bool) (x : α) (xs : List α) (d : Nat)
    (hc : isCl x = false) (ho : isOp x = false) :
    scanAux isOp isCl d (x :: xs) = (scanAux isOp isCl d xs).map (· + 1) := by
  simp [scanAux, hc, ho]

theorem scan_commute_lower :
    ∀ (n : Nat) (u : List BfOp), u.length ≤ n → ∀ (d r : Nat),
      scanAux BfOp.isOpen BfOp.isClose d u = some r →
      ∃ r', scanAux HirOp.isOpen HirOp.isClose d (HirGen.lower u) = some r' ∧
        r + 1 = bIdx (r' + 1) u := by
  intro n
  induction n with
  | zero =>
    intro u hu d r hscan
    match u with
    | [] => simp [scanAux] at hscan
  | succ n ih =>
    intro u hu d r hscan
    match u with
    | [] => simp [scanAux] at hscan
    | op :: rest =>
      cases op
      case BrFor =>
        rw [scanAux_cons_open _ _ _ _ _ rfl rfl] at hscan
        obtain ⟨r0, hr0, rfl⟩ := Option.map_eq_some'.mp hscan
        obtain ⟨r0', hr0', hidx⟩ := ih rest (by simpa using hu) (d + 1) r0 hr0
        refine ⟨r0' + 1, ?_, ?_⟩
        · rw [lower_cons_brfor, scanAux_cons_open _ _ _ _ _ rfl rfl, hr0']
          rfl
        · rw [show bIdx (r0' + 1 + 1) (BfOp.BrFor :: rest) =
            1 + bIdx (r0' + 1) rest from rfl]
          omega
      case BrBack =>
        rcases d with _ | s
        · rw [scanAux_cons_close_zero _ _ _ _ rfl] at hscan
          obtain rfl : r = 0 := by simpa using hscan.symm
          exact ⟨0, by rw [lower_cons_brback, scanAux_cons_close_zero _ _ _ _ rfl], rfl⟩
        · rw [scanAux_cons_close_succ _ _ _ _ _ rfl] at hscan
          obtain ⟨r0, hr0, rfl⟩ := Option.map_eq_some'.mp hscan
          obtain ⟨r0', hr0', hidx⟩ := ih rest (by simpa using hu) s r0 hr0
          refine ⟨r0' + 1, ?_, ?_⟩
          · rw [lower_cons_brback, scanAux_cons_close_succ _ _ _ _ _ rfl, hr0']
            rfl
          · rw [show bIdx (r0' + 1 + 1) (BfOp.BrBack :: rest) =
              1 + bIdx (r0' + 1) rest from rfl]
            omega
      case In =>
        rw [scanAux_cons_other _ _ _ _ _ rfl rfl] at hscan
        obtain ⟨r0, hr0, rfl⟩ := Option.map_eq_some'.mp hscan
        obtain ⟨r0', hr0', hidx⟩ := ih rest (by simpa using hu) d r0 hr0
        refine ⟨r0' + 1, ?_, ?_⟩
        · rw [lower_cons_in, scanAux_cons_other _ _ _ _ _ rfl rfl, hr0']
          rfl
        · rw [show bIdx (r0' + 1 + 1) (BfOp.In :: rest) =
            1 + bIdx (r0' + 1) rest from rfl]
          omega
      case Out =>
        rw [scanAux_cons_other _ _ _ _ _ rfl rfl] at hscan
        obtain ⟨r0, hr0, rfl⟩ := Option.map_eq_some'.mp hscan
        obtain ⟨r0', hr0', hidx⟩ := ih rest (by simpa using hu) d r0 hr0
        refine ⟨r0' + 1, ?_, ?_⟩
        · rw [lower_cons_out, scanAux_cons_other _ _ _ _ _ rfl rfl, hr0']
          rfl
        · rw [show bIdx (r0' + 1 + 1) (BfOp.Out :: rest) =
            1 + bIdx (r0' + 1) rest from rfl]
          omega
      case Inc =>
        have hnobr : ∀ x ∈ (BfOp.Inc :: rest).takeWhile BfOp.isAdd,
            BfOp.isOpen x = false ∧ BfOp.isClose x = false := by
          intro x hx
          have := List.mem_takeWhile_imp hx
          cases x <;> simp_all [BfOp.isAdd, BfOp.isOpen, BfOp.isClose]
        rw [show (BfOp.Inc :: rest) =
            ((BfOp.Inc :: rest).takeWhile BfOp.isAdd) ++
              ((BfOp.Inc :: rest).dropWhile BfOp.isAdd)
          from (List.takeWhile_append_dropWhile _ _).symm] at hscan
        rw [scanAux_append_nobr _ _ _ _ _ hnobr] at hscan
        obtain ⟨r0, hr0, rfl⟩ := Option.map_eq_some'.mp hscan
        have hlen : ((BfOp.Inc :: rest).dropWhile BfOp.isAdd).length ≤ n := by
          have h1 : ((BfOp.Inc :: rest).dropWhile BfOp.isAdd) =
              rest.dropWhile BfOp.isAdd := by
            rw [List.dropWhile_cons]
            simp [BfOp.isAdd]
          rw [h1]
          have := length_dropWhile_le BfOp.isAdd rest
          simp only [List.length_cons] at hu
          omega
        obtain ⟨r0', hr0', hidx⟩ := ih _ hlen d r0 hr0
        refine ⟨r0' + 1, ?_, ?_⟩
        · rw [lower_cons_add BfOp.Inc rest rfl,
            scanAux_cons_other _ _ _ _ _ rfl rfl, hr0']
          rfl
        · rw [bIdx_cons, drop_segLen_add BfOp.Inc rest rfl,
            show segLen (BfOp.Inc :: rest) =
              ((BfOp.Inc :: rest).takeWhile BfOp.isAdd).length from rfl]
          omega
      case Dec =>
        have hnobr : ∀ x ∈ (BfOp.Dec :: rest).takeWhile BfOp.isAdd,
            BfOp.isOpen x = false ∧ BfOp.isClose x = false := by
          intro x hx
          have := List.mem_takeWhile_imp hx
          cases x <;> simp_all [BfOp.isAdd, BfOp.isOpen, BfOp.isClose]
        rw [show (BfOp.Dec :: rest) =
            ((BfOp.Dec :: rest).takeWhile BfOp.isAdd) ++
              ((BfOp.Dec :: rest).dropWhile BfOp.isAdd)
          from (List.takeWhile_append_dropWhile _ _).symm] at hscan
        rw [scanAux_append_nobr _ _ _ _ _ hnobr] at hscan
        obtain ⟨r0, hr0, rfl⟩ := Option.map_eq_some'.mp hscan
        have hlen : ((BfOp.Dec :: rest).dropWhile BfOp.isAdd).length ≤ n := by
          have h1 : ((BfOp.Dec :: rest).dropWhile BfOp.isAdd) =
              rest.dropWhile BfOp.isAdd := by
            rw [List.dropWhile_cons]
            simp [BfOp.isAdd]
          rw [h1]
          have := length_dropWhile_le BfOp.isAdd rest
          simp only [List.length_cons] at hu
          omega
        obtain ⟨r0', hr0', hidx⟩ := ih _ hlen d r0 hr0
        refine ⟨r0' + 1, ?_, ?_⟩
        · rw [lower_cons_add BfOp.Dec rest rfl,
            scanAux_cons_other _ _ _ _ _ rfl rfl, hr0']
          rfl
        · rw [bIdx_cons, drop_segLen_add BfOp.Dec rest rfl,
            show segLen (BfOp.Dec :: rest) =
              ((BfOp.Dec :: rest).takeWhile BfOp.isAdd).length from rfl]
          omega
      case MvRight =>
        have hnobr : ∀ x ∈ (BfOp.MvRight :: rest).takeWhile BfOp.isMv,
            BfOp.isOpen x = false ∧ BfOp.isClose x = false := by
          intro x hx
          have := List.mem_takeWhile_imp hx
          cases x <;> simp_all [BfOp.isMv, BfOp.isOpen, BfOp.isClose]
        rw [show (BfOp.MvRight :: rest) =
            ((BfOp.MvRight :: rest).takeWhile BfOp.isMv) ++
              ((BfOp.MvRight :: rest).dropWhile BfOp.isMv)
          from (List.takeWhile_append_dropWhile _ _).symm] at hscan
        rw [scanAux_append_nobr _ _ _ _ _ hnobr] at hscan
        obtain ⟨r0, hr0, rfl⟩ := Option.map_eq_some'.mp hscan
        have hlen : ((BfOp.MvRight :: rest).dropWhile BfOp.isMv).length ≤ n := by
          have h1 : ((BfOp.MvRight :: rest).dropWhile BfOp.isMv) =
              rest.dropWhile BfOp.isMv := by
            rw [List.dropWhile_cons]
            simp [BfOp.isMv]
          rw [h1]
          have := length_dropWhile_le BfOp.isMv rest
          simp only [List.length_cons] at hu
          omega
        obtain ⟨r0', hr0', hidx⟩ := ih _ hlen d r0 hr0
        refine ⟨r0' + 1, ?_, ?_⟩
        · rw [lower_cons_mv BfOp.MvRight rest rfl,
            scanAux_cons_other _ _ _ _ _ rfl rfl, hr0']
          rfl
        · rw [bIdx_cons, drop_segLen_mv BfOp.MvRight rest rfl,
            show segLen (BfOp.MvRight :: rest) =
              ((BfOp.MvRight :: rest).takeWhile BfOp.isMv).length from rfl]
          omega
      case MvLeft =>
        have hnobr : ∀ x ∈ (BfOp.MvLeft :: rest).takeWhile BfOp.isMv,
            BfOp.isOpen x = false ∧ BfOp.isClose x = false := by
          intro x hx
          have := List.mem_takeWhile_imp hx
          cases x <;> simp_all [BfOp.isMv, BfOp.isOpen, BfOp.isClose]
        rw [show (BfOp.MvLeft :: rest) =
            ((BfOp.MvLeft :: rest).takeWhile BfOp.isMv) ++
              ((BfOp.MvLeft :: rest).dropWhile BfOp.isMv)
          from (List.takeWhile_append_dropWhile _ _).symm] at hscan
        rw [scanAux_append_nobr _ _ _ _ _ hnobr] at hscan
        obtain ⟨r0, hr0, rfl⟩ := Option.map_eq_some'.mp hscan
        have hlen : ((BfOp.MvLeft :: rest).dropWhile BfOp.isMv).length ≤ n := by
          have h1 : ((BfOp.MvLeft :: rest).dropWhile BfOp.isMv) =
              rest.dropWhile BfOp.isMv := by
            rw [List.dropWhile_cons]
            simp [BfOp.isMv]
          rw [h1]
          have := length_dropWhile_le BfOp.isMv rest
          simp only [List.length_cons] at hu
          omega
        obtain ⟨r0', hr0', hidx⟩ := ih _ hlen d r0 hr0
        refine ⟨r0' + 1, ?_, ?_⟩
        · rw [lower_cons_mv BfOp.MvLeft rest rfl,
            scanAux_cons_other _ _ _ _ _ rfl rfl, hr0']
          rfl
        · rw [bIdx_cons, drop_segLen_mv BfOp.MvLeft rest rfl,
            show segLen (BfOp.MvLeft :: rest) =
              ((BfOp.MvLeft :: rest).takeWhile BfOp.isMv).length from rfl]
          omega

theorem bfIsOpen_eq : (fun o => decide (o = BfOp.BrFor)) = BfOp.isOpen := by
  funext o
  cases o <;> rfl

theorem bfIsClose_eq : (fun o => decide (o = BfOp.BrBack)) = BfOp.isClose := by
  funext o
  cases o <;> rfl

theorem balAt_eq_one (isOp isCl : α → Bool) (prog : List α) (q : Nat)
    (h : balAt isOp isCl prog q = 1) :
    ∃ op, prog[q]? = some op ∧ isOp op = true ∧ isCl op = false := by
  unfold balAt at h
  cases hq : prog[q]? with
  | none => rw [hq] at h; simp at h
  | some op =>
    rw [hq] at h
    by_cases h1 : isCl op = true
    · simp [h1] at h
    · by_cases h2 : isOp op = true
      · exact ⟨op, rfl, h2, by simpa using h1⟩
      · simp [h1, h2] at h

theorem Bal_succ_bot (isOp isCl : α → Bool) (prog : List α) (a b : Nat)
    (hab : a < b) :
    Bal isOp isCl prog a b = balAt isOp isCl prog a + Bal isOp isCl prog (a + 1) b := by
  rw [Bal_split isOp isCl prog a (a + 1) b (by omega) (by omega)]
  congr 1
  rw [Bal_succ_top isOp isCl prog a a (le_refl _), Bal_self]
  ring

theorem scanBackAux_step (isOp isCl : α → Bool) (prog : List α) (d pos : Nat) (x : α)
    (hx : prog[pos]? = some x) :
    scanBackAux isOp isCl prog d (pos + 1) =
      if isCl x then scanBackAux isOp isCl prog (d + 1) pos
      else if isOp x then
        if 0 < d then scanBackAux isOp isCl prog (d - 1) pos else some pos
      else scanBackAux isOp isCl prog d pos := by
  simp [scanBackAux, hx]

theorem scanBackAux_steps (isOp isCl : α → Bool) (prog : List α) (o i : Nat)
    (hilen : i ≤ prog.length)
    (hb : balAt isOp isCl prog o = 1)
    (hbal : Bal isOp isCl prog (o + 1) i = 0)
    (hmin : ∀ q, o < q → q < i → ∀ op, prog[q]? = some op → isCl op = true →
      Bal isOp isCl prog (o + 1) q ≠ 0) :
    ∀ n, o + 1 + n ≤ i →
      scanBackAux isOp isCl prog (-(Bal isOp isCl prog (o + 1 + n) i)).toNat (o + 1 + n)
        = some o := by
  have hpre : ∀ x, o + 1 ≤ x → x ≤ i → 0 ≤ Bal isOp isCl prog (o + 1) x := by
    intro x h1 h2
    by_contra hneg
    push_neg at hneg
    obtain ⟨q, hq1, hq2, ⟨op, hop, hcop⟩, hq4⟩ :=
      bal_neg_exists_close isOp isCl prog (o + 1) x h1 hneg
    exact hmin q (by omega) (by omega) op hop hcop hq4
  intro n
  induction n with
  | zero =>
    intro hle
    obtain ⟨x, hx, hox, hcx⟩ := balAt_eq_one isOp isCl prog o hb
    rw [show o + 1 + 0 = o + 1 by ring, hbal]
    rw [scanBackAux_step isOp isCl prog _ o x hx, hcx, hox]
    simp
  | succ n ih =>
    intro hle
    have hqi : o + 1 + n < i := by omega
    have hoq : o < o + 1 + n := by omega
    have hsplit : Bal isOp isCl prog (o + 1) i =
        Bal isOp isCl prog (o + 1) (o + 1 + n + 1) +
          Bal isOp isCl prog (o + 1 + n + 1) i :=
      Bal_split isOp isCl prog (o + 1) (o + 1 + n + 1) i (by omega) (by omega)
    have hsplit2 : Bal isOp isCl prog (o + 1) (o + 1 + n + 1) =
        Bal isOp isCl prog (o + 1) (o + 1 + n) + balAt isOp isCl prog (o + 1 + n) :=
      Bal_succ_top isOp isCl prog (o + 1) (o + 1 + n) (by omega)
    have hq1 : Bal isOp isCl prog (o + 1 + n) i =
        balAt isOp isCl prog (o + 1 + n) + Bal isOp isCl prog (o + 1 + n + 1) i :=
      Bal_succ_bot isOp isCl prog (o + 1 + n) i hqi
    have hnn1 : 0 ≤ Bal isOp isCl prog (o + 1) (o + 1 + n) := hpre _ (by omega) (by omega)
    have hnn2 : 0 ≤ Bal isOp isCl prog (o + 1) (o + 1 + n + 1) :=
      hpre _ (by omega) (by omega)
    have hqlen : o + 1 + n < prog.length := by omega
    obtain ⟨x, hx⟩ : ∃ x, prog[o + 1 + n]? = some x := by
      rw [List.getElem?_eq_getElem hqlen]
      exact ⟨_, rfl⟩
    rw [show o + 1 + (n + 1) = (o + 1 + n) + 1 by ring,
      scanBackAux_step isOp isCl prog _ (o + 1 + n) x hx]
    by_cases hcx : isCl x = true
    · rw [if_pos hcx]
      have hbx : balAt isOp isCl prog (o + 1 + n) = -1 := by
        simp [balAt, hx, hcx]
      have : (-(Bal isOp isCl prog (o + 1 + n + 1) i)).toNat + 1 =
          (-(Bal isOp isCl prog (o + 1 + n) i)).toNat := by
        omega
      rw [this]
      exact ih (by omega)
    · rw [if_neg (by simpa using hcx)]
      by_cases hox : isOp x = true
      · rw [if_pos hox]
        have hbx : balAt isOp isCl prog (o + 1 + n) = 1 := by
          simp [balAt, hx, hcx, hox]
        have hdpos : 0 < (-(Bal isOp isCl prog (o + 1 + n + 1) i)).toNat := by
          omega
        rw [if_pos hdpos]
        have : (-(Bal isOp isCl prog (o + 1 + n + 1) i)).toNat - 1 =
            (-(Bal isOp isCl prog (o + 1 + n) i)).toNat := by
          omega
        rw [this]
        exact ih (by omega)
      · rw [if_neg (by simpa using hox)]
        have hbx : balAt isOp isCl prog (o + 1 + n) = 0 := by
          simp [balAt, hx, hcx, hox]
        have : (-(Bal isOp isCl prog (o + 1 + n + 1) i)).toNat =
            (-(Bal isOp isCl prog (o + 1 + n) i)).toNat := by
          omega
        rw [this]
        exact ih (by omega)

theorem scanMatch_imp_scanBack (isOp isCl : α → Bool) (prog : List α) (o i : Nat)
    (hb : balAt isOp isCl prog o = 1)
    (h : scanMatch isOp isCl prog o = some i) :
    scanBack isOp isCl prog i = some o := by
  obtain ⟨hoi, ⟨x, hx, hcx⟩, hbal, hmin⟩ := (scanMatch_some_iff isOp isCl prog o i).mp h
  have hilen : i < prog.length := (List.getElem?_eq_some_iff.mp hx).1
  have hsteps := scanBackAux_steps isOp isCl prog o i (by omega) hb hbal hmin
    (i - o - 1) (by omega)
  rw [show o + 1 + (i - o - 1) = i by omega] at hsteps
  rw [Bal_self] at hsteps
  unfold scanBack
  simpa using hsteps

theorem lower_ne_nil (bf : List BfOp) (h : bf ≠ []) : HirGen.lower bf ≠ [] := by
  obtain ⟨hop, hlo⟩ := lower_seg bf h
  rw [hlo]
  exact List.cons_ne_nil _ _

theorem drop_bIdx_ne_nil (bf : List BfOp) (j : Nat) (h : j < (HirGen.lower bf).length) :
    bf.drop (bIdx j bf) ≠ [] := by
  intro hcon
  have hld := lower_drop_bIdx bf j
  rw [hcon] at hld
  have hnil : (HirGen.lower bf).drop j = [] := by
    rw [← hld]
    rfl
  rw [List.drop_eq_nil_iff] at hnil
  omega

theorem bIdx_succ_gt (bf : List BfOp) (j : Nat) (h : j < (HirGen.lower bf).length) :
    bIdx j bf < bIdx (j + 1) bf := by
  rw [bIdx_succ]
  have := segLen_pos (bf.drop (bIdx j bf)) (drop_bIdx_ne_nil bf j h)
  omega

theorem bIdx_strictMono (bf : List BfOp) :
    ∀ j k, j < k → k ≤ (HirGen.lower bf).length → bIdx j bf < bIdx k bf := by
  intro j k
  induction k with
  | zero => omega
  | succ k ih =>
    intro hjk hk
    rcases Nat.lt_or_ge j k with hlt | hge
    · have h1 := ih hlt (by omega)
      have h2 := bIdx_succ_gt bf k (by omega)
      omega
    · have hEq : j = k := by omega
      subst hEq
      exact bIdx_succ_gt bf j (by omega)

theorem bIdx_inj (bf : List BfOp) (j k : Nat) (hj : j ≤ (HirGen.lower bf).length)
    (hk : k ≤ (HirGen.lower bf).length) (h : bIdx j bf = bIdx k bf) : j = k := by
  rcases Nat.lt_trichotomy j k with hlt | hEq | hgt
  · have := bIdx_strictMono bf j k hlt hk
    omega
  · exact hEq
  · have := bIdx_strictMono bf k j hgt hj
    omega

theorem take_takeWhile_length (p : α → Bool) (l : List α) :
    l.take ((l.takeWhile p).length) = l.takeWhile p := by
  nth_rewrite 2 [show l = l.takeWhile p ++ l.dropWhile p from
    (List.takeWhile_append_dropWhile _ _).symm]
  exact List.take_left _ _

theorem seg_run (q : BfOp → Bool) (bf : List BfOp) (p : Nat) (y : BfOp)
    (hseg : segLen bf = (bf.takeWhile q).length)
    (hps : p < segLen bf) (hy : bf[p]? = some y) : q y = true := by
  rw [hseg] at hps
  have h1 : (bf.takeWhile q)[p]? = some y := by
    rw [← take_takeWhile_length q bf, List.getElem?_take_of_lt hps]
    exact hy
  exact List.mem_takeWhile_imp (List.getElem?_mem h1)

theorem seg_interior (bf : List BfOp) (p : Nat) (y : BfOp) (hp0 : 0 < p)
    (hps : p < segLen bf) (hy : bf[p]? = some y) :
    BfOp.isAdd y = true ∨ BfOp.isMv y = true := by
  match bf with
  | [] => simp [segLen] at hps
  | op :: rest =>
    cases op
    case Inc => exact Or.inl (seg_run BfOp.isAdd (BfOp.Inc :: rest) p y rfl hps hy)
    case Dec => exact Or.inl (seg_run BfOp.isAdd (BfOp.Dec :: rest) p y rfl hps hy)
    case MvRight => exact Or.inr (seg_run BfOp.isMv (BfOp.MvRight :: rest) p y rfl hps hy)
    case MvLeft => exact Or.inr (seg_run BfOp.isMv (BfOp.MvLeft :: rest) p y rfl hps hy)
    case In => rw [show segLen (BfOp.In :: rest) = 1 from rfl] at hps; omega
    case Out => rw [show segLen (BfOp.Out :: rest) = 1 from rfl] at hps; omega
    case BrFor => rw [show segLen (BfOp.BrFor :: rest) = 1 from rfl] at hps; omega
    case BrBack => rw [show segLen (BfOp.BrBack :: rest) = 1 from rfl] at hps; omega

theorem bracket_boundary :
    ∀ (n : Nat) (bf : List BfOp), bf.length ≤ n → ∀ (p : Nat) (x : BfOp),
      bf[p]? = some x → (x = BfOp.BrFor ∨ x = BfOp.BrBack) →
      ∃ j, j < (HirGen.lower bf).length ∧ p = bIdx j bf := by
  intro n
  induction n with
  | zero =>
    intro bf hbf p x hx hbr
    have := (List.getElem?_eq_some_iff.mp hx).1
    omega
  | succ n ih =>
    intro bf hbf p x hx hbr
    have hplen : p < bf.length := (List.getElem?_eq_some_iff.mp hx).1
    have hbfne : bf ≠ [] := by
      intro h
      subst h
      simp at hplen
    by_cases hp : p < segLen bf
    · rcases Nat.eq_zero_or_pos p with rfl | hp0
      · refine ⟨0, ?_, rfl⟩
        have hne := lower_ne_nil bf hbfne
        cases hl : HirGen.lower bf with
        | nil => exact absurd hl hne
        | cons a l => simp
      · rcases seg_interior bf p x hp0 hp hx with h | h <;>
          rcases hbr with rfl | rfl <;> simp [BfOp.isAdd, BfOp.isMv] at h
    · push_neg at hp
      have hpos := segLen_pos bf hbfne
      have hx' : (bf.drop (segLen bf))[p - segLen bf]? = some x := by
        rw [List.getElem?_drop, show segLen bf + (p - segLen bf) = p by omega]
        exact hx
      have hlen' : (bf.drop (segLen bf)).length ≤ n := by
        rw [List.length_drop]
        omega
      obtain ⟨j, hj1, hj2⟩ := ih (bf.drop (segLen bf)) hlen' (p - segLen bf) x hx' hbr
      refine ⟨j + 1, ?_, ?_⟩
      · obtain ⟨hop, hlo⟩ := lower_seg bf hbfne
        rw [hlo]
        simpa using hj1
      · rw [bIdx_cons]
        omega

theorem lower_zero_brfor (u : List BfOp) (h : (HirGen.lower u)[0]? = some HirOp.BrFor) :
    u[0]? = some BfOp.BrFor := by
  match u with
  | [] => simp [HirGen.lower, HirGen.lowerF] at h
  | op :: rest =>
    cases op
    case BrFor => simp
    case Inc => rw [lower_cons_add BfOp.Inc rest rfl] at h; simp at h
    case Dec => rw [lower_cons_add BfOp.Dec rest rfl] at h; simp at h
    case MvRight => rw [lower_cons_mv BfOp.MvRight rest rfl] at h; simp at h
    case MvLeft => rw [lower_cons_mv BfOp.MvLeft rest rfl] at h; simp at h
    case In => rw [lower_cons_in rest] at h; simp at h
    case Out => rw [lower_cons_out rest] at h; simp at h
    case BrBack => rw [lower_cons_brback rest] at h; simp at h

theorem lower_zero_brback (u : List BfOp) (h : (HirGen.lower u)[0]? = some HirOp.BrBack) :
    u[0]? = some BfOp.BrBack := by
  match u with
  | [] => simp [HirGen.lower, HirGen.lowerF] at h
  | op :: rest =>
    cases op
    case BrBack => simp
    case Inc => rw [lower_cons_add BfOp.Inc rest rfl] at h; simp at h
    case Dec => rw [lower_cons_add BfOp.Dec rest rfl] at h; simp at h
    case MvRight => rw [lower_cons_mv BfOp.MvRight rest rfl] at h; simp at h
    case MvLeft => rw [lower_cons_mv BfOp.MvLeft rest rfl] at h; simp at h
    case In => rw [lower_cons_in rest] at h; simp at h
    case Out => rw [lower_cons_out rest] at h; simp at h
    case BrFor => rw [lower_cons_brfor rest] at h; simp at h

theorem scanMatch_commute (bf : List BfOp) (j m : Nat) (x : BfOp)
    (hx : bf[bIdx j bf]? = some x) (hbr : x = BfOp.BrFor ∨ x = BfOp.BrBack)
    (h : scanMatch BfOp.isOpen BfOp.isClose bf (bIdx j bf) = some m) :
    ∃ mh, scanMatch HirOp.isOpen HirOp.isClose (HirGen.lower bf) j = some mh ∧
      m + 1 = bIdx (mh + 1) bf := by
  have hu0 : (bf.drop (bIdx j bf))[0]? = some x := by
    rw [List.getElem?_drop]
    simpa using hx
  obtain ⟨rest, hrest⟩ : ∃ rest, bf.drop (bIdx j bf) = x :: rest := by
    cases hu2 : bf.drop (bIdx j bf) with
    | nil => rw [hu2] at hu0; simp at hu0
    | cons y t =>
      rw [hu2] at hu0
      simp only [List.getElem?_cons_zero, Option.some.injEq] at hu0
      exact ⟨t, by rw [hu0]⟩
  unfold scanMatch at h
  obtain ⟨r, hr, hmr⟩ := Option.map_eq_some'.mp h
  have hdrop1 : bf.drop (bIdx j bf + 1) = rest := by
    rw [← List.drop_drop, hrest]
    rfl
  rw [hdrop1] at hr
  obtain ⟨r', hr', hbr'⟩ := scan_commute_lower rest.length rest (le_refl _) 0 r hr
  have hlow : (HirGen.lower bf).drop (j + 1) = HirGen.lower rest := by
    have h1 : HirGen.lower (bf.drop (bIdx j bf)) = (HirGen.lower bf).drop j :=
      lower_drop_bIdx bf j
    rw [hrest] at h1
    rw [← List.drop_drop, ← h1]
    rcases hbr with rfl | rfl
    · rw [lower_cons_brfor]
      rfl
    · rw [lower_cons_brback]
      rfl
  have hsm : scanMatch HirOp.isOpen HirOp.isClose (HirGen.lower bf) j = some (j + 1 + r') := by
    unfold scanMatch
    rw [hlow, hr']
    rfl
  refine ⟨j + 1 + r', hsm, ?_⟩
  have hadd : bIdx (j + (r' + 2)) bf = bIdx j bf + bIdx (r' + 2) (bf.drop (bIdx j bf)) :=
    bIdx_add bf j (r' + 2)
  have hu2 : bIdx (r' + 2) (bf.drop (bIdx j bf)) = 1 + bIdx (r' + 1) rest := by
    rw [hrest, show r' + 2 = (r' + 1) + 1 by ring, bIdx_cons]
    rcases hbr with rfl | rfl
    · rw [show segLen (BfOp.BrFor :: rest) = 1 from rfl]
      rfl
    · rw [show segLen (BfOp.BrBack :: rest) = 1 from rfl]
      rfl
  rw [show j + 1 + r' + 1 = j + (r' + 2) by ring, hadd, hu2]
  omega

theorem lower_opensMatched (bf : List BfOp)
    (h : OpensMatched BfOp.isOpen BfOp.isClose bf) :
    OpensMatched HirOp.isOpen HirOp.isClose (HirGen.lower bf) := by
  intro j op hj hop
  have hopf : op = HirOp.BrFor := by
    cases op <;> simp [HirOp.isOpen] at hop <;> rfl
  subst hopf
  have hu : (HirGen.lower (bf.drop (bIdx j bf)))[0]? = some HirOp.BrFor := by
    rw [lower_drop_bIdx, List.getElem?_drop]
    simpa using hj
  have hbf0 : (bf.drop (bIdx j bf))[0]? = some BfOp.BrFor := lower_zero_brfor _ hu
  have hbfj : bf[bIdx j bf]? = some BfOp.BrFor := by
    rw [List.getElem?_drop] at hbf0
    simpa using hbf0
  have hsm := h (bIdx j bf) BfOp.BrFor hbfj rfl
  cases hm : scanMatch BfOp.isOpen BfOp.isClose bf (bIdx j bf) with
  | none => rw [hm] at hsm; exact absurd hsm (by simp)
  | some m =>
    obtain ⟨mh, hmh, -⟩ := scanMatch_commute bf j m BfOp.BrFor hbfj (Or.inl rfl) hm
    rw [hmh]
    rfl

theorem set_cell_pos (s : BrainfuckState) (v i : Nat) : (s.set_cell v i).pos = s.pos := rfl

theorem set_cell_set_cell (s : BrainfuckState) (v v' i : Nat) :
    (s.set_cell v i).set_cell v' i = s.set_cell v' i := by
  unfold BrainfuckState.set_cell
  simp only
  by_cases h : s.cells.length ≤ i
  · rw [if_pos h]
    have hlen : ((s.cells ++ List.replicate (i + 1 - s.cells.length) 0).set i v).length = i + 1 := by
      simp
      omega
    rw [if_neg (by omega)]
    rw [List.set_set]
  · rw [if_neg h]
    have hlen : (s.cells.set i v).length = s.cells.length := by simp
    rw [if_neg (by omega)]
    rw [List.set_set]

theorem add_offset_8_toI8 (c : Nat) (D : Int) :
    add_offset_8 c (toI8 D) = (((c : Int) + D) % 256).toNat := by
  unfold add_offset_8 toI8
  simp only
  have hconv : ∀ x : Int, x.emod 256 = x % 256 := fun x => rfl
  simp only [hconv]
  by_cases h1 : D % 256 < 128
  · rw [if_pos h1]
    by_cases h2 : 0 < D % 256
    · rw [if_pos h2]
      omega
    · rw [if_neg h2]
      omega
  · rw [if_neg h1]
    rw [if_neg (by omega)]
    omega

theorem foldl_delta_shift (f : BfOp → Int) :
    ∀ (w : List BfOp) (a : Int),
      w.foldl (fun a o => a + f o) a = a + w.foldl (fun a o => a + f o) 0 := by
  intro w
  induction w with
  | nil => simp
  | cons x xs ih =>
    intro a
    simp only [List.foldl_cons]
    rw [ih (a + f x), ih (0 + f x)]
    ring

theorem modify_by_eq_set (s : BrainfuckState) (arg : Int) :
    s.modify_cur_cell_by arg =
      s.set_cell (((s.read_cur_cell : Int) + arg) % 256).toNat s.pos := rfl

theorem foldAdd_set :
    ∀ (w : List BfOp) (st : BrainfuckState) (v : Nat), v < 256 →
      w.foldl (fun s o => s.modify_cur_cell_by o.addDelta) (st.set_cell v st.pos) =
        st.set_cell (((v : Int) +
          w.foldl (fun a o => a + o.addDelta) 0) % 256).toNat st.pos := by
  intro w
  induction w with
  | nil =>
    intro st v hv
    simp only [List.foldl_nil]
    have : (((v : Int) + 0) % 256).toNat = v := by omega
    rw [this]
  | cons x xs ih =>
    intro st v hv
    simp only [List.foldl_cons]
    have hread : (st.set_cell v st.pos).read_cur_cell = v := by
      unfold BrainfuckState.read_cur_cell
      rw [set_cell_pos]
      exact read_cell_set_cell_self st v st.pos
    have hstep : (st.set_cell v st.pos).modify_cur_cell_by x.addDelta =
        st.set_cell (((v : Int) + x.addDelta) % 256).toNat st.pos := by
      rw [modify_by_eq_set, hread, set_cell_pos, set_cell_set_cell]
    rw [hstep]
    rw [ih st ((((v : Int) + x.addDelta) % 256).toNat) (by omega)]
    have hval : ((((((v : Int) + x.addDelta) % 256).toNat : Int) +
        xs.foldl (fun a o => a + o.addDelta) 0) % 256).toNat =
        (((v : Int) + (x :: xs).foldl (fun a o => a + o.addDelta) 0) % 256).toNat := by
      simp only [List.foldl_cons]
      rw [foldl_delta_shift BfOp.addDelta xs (0 + x.addDelta)]
      omega
    rw [hval]
    rw [List.foldl_cons]

theorem foldAdd_eq (w : List BfOp) (st : BrainfuckState) (hne : w ≠ []) :
    w.foldl (fun s o => s.modify_cur_cell_by o.addDelta) st =
      st.set_cell (((st.read_cur_cell : Int) +
        w.foldl (fun a o => a + o.addDelta) 0) % 256).toNat st.pos := by
  match w with
  | [] => exact absurd rfl hne
  | x :: xs =>
    simp only [List.foldl_cons]
    rw [modify_by_eq_set]
    have hfold := foldAdd_set xs st
      ((((st.read_cur_cell : Int) + x.addDelta) % 256).toNat) (by omega)
    rw [hfold]
    have hval : ((((((st.read_cur_cell : Int) + x.addDelta) % 256).toNat : Int) +
        xs.foldl (fun a o => a + o.addDelta) 0) % 256).toNat =
        (((st.read_cur_cell : Int) +
          (x :: xs).foldl (fun a o => a + o.addDelta) 0) % 256).toNat := by
      simp only [List.foldl_cons]
      rw [foldl_delta_shift BfOp.addDelta xs (0 + x.addDelta)]
      omega
    rw [hval]
    rw [List.foldl_cons]

theorem bfRun_add_run :
    ∀ (w t prog : List BfOp) (fuel ip : Nat) (es res : ExecSt),
      prog.drop ip = w ++ t → (∀ y ∈ w, BfOp.isAdd y = true) →
      bfRun prog fuel ip es = some res →
      ∃ fuel', fuel = fuel' + w.length ∧
        bfRun prog fuel' (ip + w.length)
          { es with st := w.foldl (fun s o => s.modify_cur_cell_by o.addDelta) es.st }
          = some res := by
  intro w
  induction w with
  | nil =>
    intro t prog fuel ip es res hdrop hall hrun
    exact ⟨fuel, rfl, hrun⟩
  | cons x xs ih =>
    intro t prog fuel ip es res hdrop hall hrun
    have hip : prog[ip]? = some x := by
      have h0 : (prog.drop ip)[0]? = some x := by
        rw [hdrop]
        simp
      rw [List.getElem?_drop] at h0
      simpa using h0
    have hdrop' : prog.drop (ip + 1) = xs ++ t := by
      rw [← List.drop_drop, hdrop]
      rfl
    cases fuel with
    | zero => simp [bfRun] at hrun
    | succ fuel =>
      have hx := hall x (by simp)
      cases x
      case Inc =>
        rw [show bfRun prog (fuel + 1) ip es =
            bfRun prog fuel (ip + 1) { es with st := es.st.modify_cur_cell_by 1 }
          from by simp [bfRun, hip]] at hrun
        obtain ⟨fuel', hfe, hcont⟩ := ih t prog fuel (ip + 1)
          { es with st := es.st.modify_cur_cell_by 1 } res hdrop'
          (fun y hy => hall y (by simp [hy])) hrun
        refine ⟨fuel', by simp only [List.length_cons]; omega, ?_⟩
        rw [show ip + (BfOp.Inc :: xs).length = ip + 1 + xs.length by
          simp only [List.length_cons]; omega]
        exact hcont
      case Dec =>
        rw [show bfRun prog (fuel + 1) ip es =
            bfRun prog fuel (ip + 1) { es with st := es.st.modify_cur_cell_by (-1) }
          from by simp [bfRun, hip]] at hrun
        obtain ⟨fuel', hfe, hcont⟩ := ih t prog fuel (ip + 1)
          { es with st := es.st.modify_cur_cell_by (-1) } res hdrop'
          (fun y hy => hall y (by simp [hy])) hrun
        refine ⟨fuel', by simp only [List.length_cons]; omega, ?_⟩
        rw [show ip + (BfOp.Dec :: xs).length = ip + 1 + xs.length by
          simp only [List.length_cons]; omega]
        exact hcont
      all_goals simp [BfOp.isAdd] at hx

theorem bfRun_mv_run :
    ∀ (w t prog : List BfOp) (fuel ip : Nat) (es res : ExecSt),
      prog.drop ip = w ++ t → (∀ y ∈ w, BfOp.isMv y = true) →
      bfRun prog fuel ip es = some res →
      ∃ (fuel' q : Nat), fuel = fuel' + w.length ∧
        (q : Int) = (es.st.pos : Int) + w.foldl (fun a o => a + o.mvDelta) 0 ∧
        bfRun prog fuel' (ip + w.length)
          { es with st := { es.st with pos := q } } = some res := by
  intro w
  induction w with
  | nil =>
    intro t prog fuel ip es res hdrop hall hrun
    exact ⟨fuel, es.st.pos, rfl, by simp, hrun⟩
  | cons x xs ih =>
    intro t prog fuel ip es res hdrop hall hrun
    have hip : prog[ip]? = some x := by
      have h0 : (prog.drop ip)[0]? = some x := by
        rw [hdrop]
        simp
      rw [List.getElem?_drop] at h0
      simpa using h0
    have hdrop' : prog.drop (ip + 1) = xs ++ t := by
      rw [← List.drop_drop, hdrop]
      rfl
    cases fuel with
    | zero => simp [bfRun] at hrun
    | succ fuel =>
      have hx := hall x (by simp)
      cases x
      case MvRight =>
        rw [show bfRun prog (fuel + 1) ip es =
            bfRun prog fuel (ip + 1) { es with st := { es.st with pos := es.st.pos + 1 } }
          from by simp [bfRun, hip]] at hrun
        obtain ⟨fuel', q, hfe, hq, hcont⟩ := ih t prog fuel (ip + 1)
          { es with st := { es.st with pos := es.st.pos + 1 } } res hdrop'
          (fun y hy => hall y (by simp [hy])) hrun
        refine ⟨fuel', q, by simp only [List.length_cons]; omega, ?_, ?_⟩
        · simp only [List.foldl_cons]
          rw [foldl_delta_shift BfOp.mvDelta xs (0 + BfOp.mvDelta BfOp.MvRight)]
          simp only at hq
          push_cast at hq ⊢
          rw [show BfOp.mvDelta BfOp.MvRight = 1 from rfl]
          omega
        · rw [show ip + (BfOp.MvRight :: xs).length = ip + 1 + xs.length by
            simp only [List.length_cons]; omega]
          exact hcont
      case MvLeft =>
        by_cases hpos : es.st.pos = 0
        · rw [show bfRun prog (fuel + 1) ip es = none from by
            simp [bfRun, hip, hpos]] at hrun
          exact absurd hrun (by simp)
        · rw [show bfRun prog (fuel + 1) ip es =
              bfRun prog fuel (ip + 1) { es with st := { es.st with pos := es.st.pos - 1 } }
            from by simp [bfRun, hip, hpos]] at hrun
          obtain ⟨fuel', q, hfe, hq, hcont⟩ := ih t prog fuel (ip + 1)
            { es with st := { es.st with pos := es.st.pos - 1 } } res hdrop'
            (fun y hy => hall y (by simp [hy])) hrun
          refine ⟨fuel', q, by simp only [List.length_cons]; omega, ?_, ?_⟩
          · simp only [List.foldl_cons]
            rw [foldl_delta_shift BfOp.mvDelta xs (0 + BfOp.mvDelta BfOp.MvLeft)]
            simp only at hq
            rw [show BfOp.mvDelta BfOp.MvLeft = -1 from rfl]
            omega
          · rw [show ip + (BfOp.MvLeft :: xs).length = ip + 1 + xs.length by
              simp only [List.length_cons]; omega]
            exact hcont
      all_goals simp [BfOp.isMv] at hx

theorem runG_stop (classify : α → OpClass) (readC : σ → Nat)
    (eff : Nat → α → σ → Option σ) (prog : List α) (table : List Nat)
    (fuel ip : Nat) (s : σ) (h : prog[ip]? = none) :
    runG classify readC eff prog table (fuel + 1) ip s = some s := by
  simp [runG, h]

theorem runG_plain_step (classify : α → OpClass) (readC : σ → Nat)
    (eff : Nat → α → σ → Option σ) (prog : List α) (table : List Nat)
    (fuel ip : Nat) (s s' : σ) (op : α) (hip : prog[ip]? = some op)
    (hcl : classify op = OpClass.plain) (heff : eff fuel op s = some s') :
    runG classify readC eff prog table (fuel + 1) ip s =
      runG classify readC eff prog table fuel (ip + 1) s' := by
  simp [runG, hip, hcl, heff]

theorem runG_open_zero (classify : α → OpClass) (readC : σ → Nat)
    (eff : Nat → α → σ → Option σ) (prog : List α) (table : List Nat)
    (fuel ip : Nat) (s : σ) (op : α) (hip : prog[ip]? = some op)
    (hcl : classify op = OpClass.openBr) (hr : readC s = 0) :
    runG classify readC eff prog table (fuel + 1) ip s =
      runG classify readC eff prog table fuel (table.getD ip 0 + 1) s := by
  simp [runG, hip, hcl, hr]

theorem runG_open_pos (classify : α → OpClass) (readC : σ → Nat)
    (eff : Nat → α → σ → Option σ) (prog : List α) (table : List Nat)
    (fuel ip : Nat) (s : σ) (op : α) (hip : prog[ip]? = some op)
    (hcl : classify op = OpClass.openBr) (hr : readC s ≠ 0) :
    runG classify readC eff prog table (fuel + 1) ip s =
      runG classify readC eff prog table fuel (ip + 1) s := by
  simp [runG, hip, hcl, hr]

theorem runG_close_pos (classify : α → OpClass) (readC : σ → Nat)
    (eff : Nat → α → σ → Option σ) (prog : List α) (table : List Nat)
    (fuel ip : Nat) (s : σ) (op : α) (hip : prog[ip]? = some op)
    (hcl : classify op = OpClass.closeBr) (hr : readC s ≠ 0) :
    runG classify readC eff prog table (fuel + 1) ip s =
      runG classify readC eff prog table fuel (table.getD ip 0 + 1) s := by
  simp [runG, hip, hcl, hr]

theorem runG_close_zero (classify : α → OpClass) (readC : σ → Nat)
    (eff : Nat → α → σ → Option σ) (prog : List α) (table : List Nat)
    (fuel ip : Nat) (s : σ) (op : α) (hip : prog[ip]? = some op)
    (hcl : classify op = OpClass.closeBr) (hr : readC s = 0) :
    runG classify readC eff prog table (fuel + 1) ip s =
      runG classify readC eff prog table fuel (ip + 1) s := by
  simp [runG, hip, hcl, hr]

theorem add_offset_size_of_int (p : Nat) (D : Int) (q : Nat)
    (hq : (q : Int) = (p : Int) + D) : add_offset_size p D = some q := by
  unfold add_offset_size
  by_cases h1 : 0 < D
  · rw [if_pos h1]
    congr 1
    omega
  · rw [if_neg h1, if_pos (by omega)]
    congr 1
    omega

theorem hirEff_modify (n : Nat) (D : Int) (es : ExecSt) :
    hirEff n (HirOp.Modify D) es =
      some { es with
        st := es.st.set_cell ((((es.st.read_cur_cell : Int) + D) % 256)).toNat es.st.pos } := by
  have hmw : es.st.modify_cur_cell_with (fun c => add_offset_8 c (toI8 D)) =
      es.st.set_cell ((((es.st.read_cur_cell : Int) + D) % 256)).toNat es.st.pos := by
    unfold BrainfuckState.modify_cur_cell_with
    simp only
    rw [add_offset_8_toI8]
  simp [hirEff, hmw]

theorem hirEff_move (n : Nat) (D : Int) (es : ExecSt) (q : Nat)
    (hq : (q : Int) = (es.st.pos : Int) + D) :
    hirEff n (HirOp.Move D) es = some { es with st := { es.st with pos := q } } := by
  have h := add_offset_size_of_int es.st.pos D q hq
  simp [hirEff, h]

theorem drop_cons_of_getElem (bf : List BfOp) (p : Nat) (x : BfOp)
    (h : bf[p]? = some x) : bf.drop p = x :: (bf.drop (p + 1)) := by
  have h0 : (bf.drop p)[0]? = some x := by
    rw [List.getElem?_drop]
    simpa using h
  cases hu : bf.drop p with
  | nil => rw [hu] at h0; simp at h0
  | cons y t =>
    rw [hu] at h0
    simp only [List.getElem?_cons_zero, Option.some.injEq] at h0
    subst h0
    congr 1
    rw [← List.drop_drop, hu]
    rfl

theorem bf_to_hir_sim (bf : List BfOp) (table : List Nat)
    (hwfO : OpensMatched BfOp.isOpen BfOp.isClose bf)
    (hwfC : ClosesMatched BfOp.isOpen BfOp.isClose bf)
    (htable : ∀ i op, (HirGen.lower bf)[i]? = some op → HirOp.isOpen op = true →
      ∃ m, scanMatch HirOp.isOpen HirOp.isClose (HirGen.lower bf) i = some m ∧
        table.getD i 0 = m ∧ table.getD m 0 = i) :
    ∀ fuel j es res, bfRun bf fuel (bIdx j bf) es = some res →
      ∃ n, runG HirOp.classify ExecSt.readCur hirEff (HirGen.lower bf) table n j es
        = some res := by
  intro fuel
  induction fuel using Nat.strong_induction_on with
  | _ fuel ih =>
    intro j es res hrun
    match hfuel : fuel with
    | 0 => simp [bfRun] at hrun
    | fuel0 + 1 =>
    cases hu : bf[bIdx j bf]? with
    | none =>
      have hend : bf.length ≤ bIdx j bf := List.getElem?_eq_none_iff.mp hu
      have hlow_none : (HirGen.lower bf)[j]? = none := by
        rw [List.getElem?_eq_none_iff]
        have hdn : bf.drop (bIdx j bf) = [] := by
          rw [List.drop_eq_nil_iff]
          omega
        have := lower_drop_bIdx bf j
        rw [hdn] at this
        have hnil : (HirGen.lower bf).drop j = [] := by
          rw [← this]
          rfl
        rw [List.drop_eq_nil_iff] at hnil
        omega
      have hres : es = res := by
        simp [bfRun, hu] at hrun
        exact hrun
      subst hres
      exact ⟨1, runG_stop _ _ _ _ _ 0 j es hlow_none⟩
    | some x =>
      have hrest := drop_cons_of_getElem bf (bIdx j bf) x hu
      have hlowdrop : (HirGen.lower bf).drop j = HirGen.lower (bf.drop (bIdx j bf)) :=
        (lower_drop_bIdx bf j).symm
      cases x
      case Inc =>
        have hw : bf.drop (bIdx j bf) =
            ((BfOp.Inc :: bf.drop (bIdx j bf + 1)).takeWhile BfOp.isAdd) ++
              ((BfOp.Inc :: bf.drop (bIdx j bf + 1)).dropWhile BfOp.isAdd) := by
          rw [hrest, List.takeWhile_append_dropWhile]
        obtain ⟨fuel', hfe, hcont⟩ := bfRun_add_run _ _ bf (fuel0 + 1) (bIdx j bf) es res
          hw (fun y hy => List.mem_takeWhile_imp hy) hrun
        have htw : (BfOp.Inc :: bf.drop (bIdx j bf + 1)).takeWhile BfOp.isAdd =
            BfOp.Inc :: ((bf.drop (bIdx j bf + 1)).takeWhile BfOp.isAdd) := rfl
        have hfuel' : fuel' < fuel := by
          rw [htw] at hfe
          simp only [List.length_cons] at hfe
          omega
        have hidx : bIdx j bf +
            ((BfOp.Inc :: bf.drop (bIdx j bf + 1)).takeWhile BfOp.isAdd).length =
            bIdx (j + 1) bf := by
          rw [bIdx_succ, hrest]
          rfl
        rw [hidx] at hcont
        have hstEq : ((BfOp.Inc :: bf.drop (bIdx j bf + 1)).takeWhile BfOp.isAdd).foldl
            (fun s o => s.modify_cur_cell_by o.addDelta) es.st =
            es.st.set_cell ((((es.st.read_cur_cell : Int) +
              ((BfOp.Inc :: bf.drop (bIdx j bf + 1)).takeWhile BfOp.isAdd).foldl
                (fun a o => a + o.addDelta) 0) % 256)).toNat es.st.pos :=
          foldAdd_eq _ _ (by rw [htw]; exact List.cons_ne_nil _ _)
        rw [hstEq] at hcont
        obtain ⟨n, hn⟩ := ih fuel' (by omega) (j + 1) _ res hcont
        refine ⟨n + 1, ?_⟩
        have hlj : (HirGen.lower bf)[j]? = some (HirOp.Modify
            (((BfOp.Inc :: bf.drop (bIdx j bf + 1)).takeWhile BfOp.isAdd).foldl
              (fun a o => a + o.addDelta) 0)) := by
          have h0 : ((HirGen.lower bf).drop j)[0]? = some (HirOp.Modify
              (((BfOp.Inc :: bf.drop (bIdx j bf + 1)).takeWhile BfOp.isAdd).foldl
                (fun a o => a + o.addDelta) 0)) := by
            rw [hlowdrop, hrest, lower_cons_add BfOp.Inc _ rfl]
            simp
          rw [List.getElem?_drop] at h0
          simpa using h0
        rw [runG_plain_step HirOp.classify ExecSt.readCur hirEff (HirGen.lower bf) table
          n j es _ _ hlj rfl (hirEff_modify n _ es)]
        exact hn
      case Dec =>
        have hw : bf.drop (bIdx j bf) =
            ((BfOp.Dec :: bf.drop (bIdx j bf + 1)).takeWhile BfOp.isAdd) ++
              ((BfOp.Dec :: bf.drop (bIdx j bf + 1)).dropWhile BfOp.isAdd) := by
          rw [hrest, List.takeWhile_append_dropWhile]
        obtain ⟨fuel', hfe, hcont⟩ := bfRun_add_run _ _ bf (fuel0 + 1) (bIdx j bf) es res
          hw (fun y hy => List.mem_takeWhile_imp hy) hrun
        have htw : (BfOp.Dec :: bf.drop (bIdx j bf + 1)).takeWhile BfOp.isAdd =
            BfOp.Dec :: ((bf.drop (bIdx j bf + 1)).takeWhile BfOp.isAdd) := rfl
        have hfuel' : fuel' < fuel := by
          rw [htw] at hfe
          simp only [List.length_cons] at hfe
          omega
        have hidx : bIdx j bf +
            ((BfOp.Dec :: bf.drop (bIdx j bf + 1)).takeWhile BfOp.isAdd).length =
            bIdx (j + 1) bf := by
          rw [bIdx_succ, hrest]
          rfl
        rw [hidx] at hcont
        have hstEq : ((BfOp.Dec :: bf.drop (bIdx j bf + 1)).takeWhile BfOp.isAdd).foldl
            (fun s o => s.modify_cur_cell_by o.addDelta) es.st =
            es.st.set_cell ((((es.st.read_cur_cell : Int) +
              ((BfOp.Dec :: bf.drop (bIdx j bf + 1)).takeWhile BfOp.isAdd).foldl
                (fun a o => a + o.addDelta) 0) % 256)).toNat es.st.pos :=
          foldAdd_eq _ _ (by rw [htw]; exact List.cons_ne_nil _ _)
        rw [hstEq] at hcont
        obtain ⟨n, hn⟩ := ih fuel' (by omega) (j + 1) _ res hcont
        refine ⟨n + 1, ?_⟩
        have hlj : (HirGen.lower bf)[j]? = some (HirOp.Modify
            (((BfOp.Dec :: bf.drop (bIdx j bf + 1)).takeWhile BfOp.isAdd).foldl
              (fun a o => a + o.addDelta) 0)) := by
          have h0 : ((HirGen.lower bf).drop j)[0]? = some (HirOp.Modify
              (((BfOp.Dec :: bf.drop (bIdx j bf + 1)).takeWhile BfOp.isAdd).foldl
                (fun a o => a + o.addDelta) 0)) := by
            rw [hlowdrop, hrest, lower_cons_add BfOp.Dec _ rfl]
            simp
          rw [List.getElem?_drop] at h0
          simpa using h0
        rw [runG_plain_step HirOp.classify ExecSt.readCur hirEff (HirGen.lower bf) table
          n j es _ _ hlj rfl (hirEff_modify n _ es)]
        exact hn
      case MvRight =>
        have hw : bf.drop (bIdx j bf) =
            ((BfOp.MvRight :: bf.drop (bIdx j bf + 1)).takeWhile BfOp.isMv) ++
              ((BfOp.MvRight :: bf.drop (bIdx j bf + 1)).dropWhile BfOp.isMv) := by
          rw [hrest, List.takeWhile_append_dropWhile]
        obtain ⟨fuel', q, hfe, hq, hcont⟩ := bfRun_mv_run _ _ bf (fuel0 + 1) (bIdx j bf)
          es res hw (fun y hy => List.mem_takeWhile_imp hy) hrun
        have htw : (BfOp.MvRight :: bf.drop (bIdx j bf + 1)).takeWhile BfOp.isMv =
            BfOp.MvRight :: ((bf.drop (bIdx j bf + 1)).takeWhile BfOp.isMv) := rfl
        have hfuel' : fuel' < fuel := by
          rw [htw] at hfe
          simp only [List.length_cons] at hfe
          omega
        have hidx : bIdx j bf +
            ((BfOp.MvRight :: bf.drop (bIdx j bf + 1)).takeWhile BfOp.isMv).length =
            bIdx (j + 1) bf := by
          rw [bIdx_succ, hrest]
          rfl
        rw [hidx] at hcont
        obtain ⟨n, hn⟩ := ih fuel' (by omega) (j + 1) _ res hcont
        refine ⟨n + 1, ?_⟩
        have hlj : (HirGen.lower bf)[j]? = some (HirOp.Move
            (((BfOp.MvRight :: bf.drop (bIdx j bf + 1)).takeWhile BfOp.isMv).foldl
              (fun a o => a + o.mvDelta) 0)) := by
          have h0 : ((HirGen.lower bf).drop j)[0]? = some (HirOp.Move
              (((BfOp.MvRight :: bf.drop (bIdx j bf + 1)).takeWhile BfOp.isMv).foldl
                (fun a o => a + o.mvDelta) 0)) := by
            rw [hlowdrop, hrest, lower_cons_mv BfOp.MvRight _ rfl]
            simp
          rw [List.getElem?_drop] at h0
          simpa using h0
        rw [runG_plain_step HirOp.classify ExecSt.readCur hirEff (HirGen.lower bf) table
          n j es _ _ hlj rfl (hirEff_move n _ es q hq)]
        exact hn
      case MvLeft =>
        have hw : bf.drop (bIdx j bf) =
            ((BfOp.MvLeft :: bf.drop (bIdx j bf + 1)).takeWhile BfOp.isMv) ++
              ((BfOp.MvLeft :: bf.drop (bIdx j bf + 1)).dropWhile BfOp.isMv) := by
          rw [hrest, List.takeWhile_append_dropWhile]
        obtain ⟨fuel', q, hfe, hq, hcont⟩ := bfRun_mv_run _ _ bf (fuel0 + 1) (bIdx j bf)
          es res hw (fun y hy => List.mem_takeWhile_imp hy) hrun
        have htw : (BfOp.MvLeft :: bf.drop (bIdx j bf + 1)).takeWhile BfOp.isMv =
            BfOp.MvLeft :: ((bf.drop (bIdx j bf + 1)).takeWhile BfOp.isMv) := rfl
        have hfuel' : fuel' < fuel := by
          rw [htw] at hfe
          simp only [List.length_cons] at hfe
          omega
        have hidx : bIdx j bf +
            ((BfOp.MvLeft :: bf.drop (bIdx j bf + 1)).takeWhile BfOp.isMv).length =
            bIdx (j + 1) bf := by
          rw [bIdx_succ, hrest]
          rfl
        rw [hidx] at hcont
        obtain ⟨n, hn⟩ := ih fuel' (by omega) (j + 1) _ res hcont
        refine ⟨n + 1, ?_⟩
        have hlj : (HirGen.lower bf)[j]? = some (HirOp.Move
            (((BfOp.MvLeft :: bf.drop (bIdx j bf + 1)).takeWhile BfOp.isMv).foldl
              (fun a o => a + o.mvDelta) 0)) := by
          have h0 : ((HirGen.lower bf).drop j)[0]? = some (HirOp.Move
              (((BfOp.MvLeft :: bf.drop (bIdx j bf + 1)).takeWhile BfOp.isMv).foldl
                (fun a o => a + o.mvDelta) 0)) := by
            rw [hlowdrop, hrest, lower_cons_mv BfOp.MvLeft _ rfl]
            simp
          rw [List.getElem?_drop] at h0
          simpa using h0
        rw [runG_plain_step HirOp.classify ExecSt.readCur hirEff (HirGen.lower bf) table
          n j es _ _ hlj rfl (hirEff_move n _ es q hq)]
        exact hn
      case Out =>
        rw [show bfRun bf (fuel0 + 1) (bIdx j bf) es =
            bfRun bf fuel0 (bIdx j bf + 1)
              { es with output := es.output ++ [es.st.read_cur_cell] }
          from by simp [bfRun, hu]] at hrun
        have hidx : bIdx j bf + 1 = bIdx (j + 1) bf := by
          rw [bIdx_succ, hrest]
          rfl
        rw [hidx] at hrun
        obtain ⟨n, hn⟩ := ih fuel0 (by omega) (j + 1) _ res hrun
        refine ⟨n + 1, ?_⟩
        have hlj : (HirGen.lower bf)[j]? = some HirOp.Out := by
          have h0 : ((HirGen.lower bf).drop j)[0]? = some HirOp.Out := by
            rw [hlowdrop, hrest, lower_cons_out]
            simp
          rw [List.getElem?_drop] at h0
          simpa using h0
        rw [runG_plain_step HirOp.classify ExecSt.readCur hirEff (HirGen.lower bf) table
          n j es { es with output := es.output ++ [es.st.read_cur_cell] } HirOp.Out hlj rfl
          (by simp [hirEff])]
        exact hn
      case In =>
        cases hin : es.input with
        | nil =>
          rw [show bfRun bf (fuel0 + 1) (bIdx j bf) es = none from by
            simp [bfRun, hu, hin]] at hrun
          exact absurd hrun (by simp)
        | cons b ins =>
          rw [show bfRun bf (fuel0 + 1) (bIdx j bf) es =
              bfRun bf fuel0 (bIdx j bf + 1)
                { es with st := es.st.set_cur_cell (b % 256), input := ins }
            from by simp [bfRun, hu, hin]] at hrun
          have hidx : bIdx j bf + 1 = bIdx (j + 1) bf := by
            rw [bIdx_succ, hrest]
            rfl
          rw [hidx] at hrun
          obtain ⟨n, hn⟩ := ih fuel0 (by omega) (j + 1) _ res hrun
          refine ⟨n + 1, ?_⟩
          have hlj : (HirGen.lower bf)[j]? = some HirOp.In := by
            have h0 : ((HirGen.lower bf).drop j)[0]? = some HirOp.In := by
              rw [hlowdrop, hrest, lower_cons_in]
              simp
            rw [List.getElem?_drop] at h0
            simpa using h0
          rw [runG_plain_step HirOp.classify ExecSt.readCur hirEff (HirGen.lower bf) table
            n j es { es with st := es.st.set_cur_cell (b % 256), input := ins } HirOp.In hlj
            rfl (by simp [hirEff, hin])]
          exact hn
      case BrFor =>
        have hlj : (HirGen.lower bf)[j]? = some HirOp.BrFor := by
          have h0 : ((HirGen.lower bf).drop j)[0]? = some HirOp.BrFor := by
            rw [hlowdrop, hrest, lower_cons_brfor]
            simp
          rw [List.getElem?_drop] at h0
          simpa using h0
        by_cases hread : es.st.read_cur_cell = 0
        · cases hscanL : scanMatch (fun o => o = BfOp.BrFor) (fun o => o = BfOp.BrBack) bf
              (bIdx j bf) with
          | none =>
            rw [show bfRun bf (fuel0 + 1) (bIdx j bf) es = none from by
              simp [bfRun, hu, hread, hscanL]] at hrun
            exact absurd hrun (by simp)
          | some m =>
            rw [show bfRun bf (fuel0 + 1) (bIdx j bf) es = bfRun bf fuel0 (m + 1) es from by
              simp [bfRun, hu, hread, hscanL]] at hrun
            have hscanI : scanMatch BfOp.isOpen BfOp.isClose bf (bIdx j bf) = some m := by
              rw [← bfIsOpen_eq, ← bfIsClose_eq]
              exact hscanL
            obtain ⟨mh, hsmh, hm1⟩ := scanMatch_commute bf j m BfOp.BrFor hu (Or.inl rfl)
              hscanI
            obtain ⟨m', hsm', hTj, hTm⟩ := htable j HirOp.BrFor hlj rfl
            have hmm : m' = mh := by
              rw [hsmh] at hsm'
              exact (Option.some.injEq .. |>.mp hsm').symm
            rw [hm1] at hrun
            obtain ⟨n, hn⟩ := ih fuel0 (by omega) (mh + 1) es res hrun
            refine ⟨n + 1, ?_⟩
            rw [runG_open_zero HirOp.classify ExecSt.readCur hirEff (HirGen.lower bf) table
              n j es HirOp.BrFor hlj rfl hread]
            rw [hTj, hmm]
            exact hn
        · rw [show bfRun bf (fuel0 + 1) (bIdx j bf) es =
              bfRun bf fuel0 (bIdx j bf + 1) es from by simp [bfRun, hu, hread]] at hrun
          have hidx : bIdx j bf + 1 = bIdx (j + 1) bf := by
            rw [bIdx_succ, hrest]
            rfl
          rw [hidx] at hrun
          obtain ⟨n, hn⟩ := ih fuel0 (by omega) (j + 1) es res hrun
          refine ⟨n + 1, ?_⟩
          rw [runG_open_pos HirOp.classify ExecSt.readCur hirEff (HirGen.lower bf) table
            n j es HirOp.BrFor hlj rfl hread]
          exact hn
      case BrBack =>
        have hlj : (HirGen.lower bf)[j]? = some HirOp.BrBack := by
          have h0 : ((HirGen.lower bf).drop j)[0]? = some HirOp.BrBack := by
            rw [hlowdrop, hrest, lower_cons_brback]
            simp
          rw [List.getElem?_drop] at h0
          simpa using h0
        by_cases hread : es.st.read_cur_cell = 0
        · rw [show bfRun bf (fuel0 + 1) (bIdx j bf) es =
              bfRun bf fuel0 (bIdx j bf + 1) es from by simp [bfRun, hu, hread]] at hrun
          have hidx : bIdx j bf + 1 = bIdx (j + 1) bf := by
            rw [bIdx_succ, hrest]
            rfl
          rw [hidx] at hrun
          obtain ⟨n, hn⟩ := ih fuel0 (by omega) (j + 1) es res hrun
          refine ⟨n + 1, ?_⟩
          rw [runG_close_zero HirOp.classify ExecSt.readCur hirEff (HirGen.lower bf) table
            n j es HirOp.BrBack hlj rfl hread]
          exact hn
        · cases hscanL : scanBack (fun o => o = BfOp.BrFor) (fun o => o = BfOp.BrBack) bf
              (bIdx j bf) with
          | none =>
            rw [show bfRun bf (fuel0 + 1) (bIdx j bf) es = none from by
              simp [bfRun, hu, hread, hscanL]] at hrun
            exact absurd hrun (by simp)
          | some b =>
            rw [show bfRun bf (fuel0 + 1) (bIdx j bf) es = bfRun bf fuel0 (b + 1) es from by
              simp [bfRun, hu, hread, hscanL]] at hrun
            have hscanI : scanBack BfOp.isOpen BfOp.isClose bf (bIdx j bf) = some b := by
              rw [← bfIsOpen_eq, ← bfIsClose_eq]
              exact hscanL
            obtain ⟨o, op', hpo, hop', hsm_o⟩ := hwfC (bIdx j bf) BfOp.BrBack hu rfl
            have hop'f : op' = BfOp.BrFor := by
              cases op' <;> simp_all [BfOp.isOpen]
            subst hop'f
            have hbal1 : balAt BfOp.isOpen BfOp.isClose bf o = 1 := by
              simp [balAt, hpo, BfOp.isOpen, BfOp.isClose]
            have hsb := scanMatch_imp_scanBack BfOp.isOpen BfOp.isClose bf o (bIdx j bf)
              hbal1 hsm_o
            have hbo : b = o := by
              rw [hscanI] at hsb
              exact Option.some.injEq .. |>.mp hsb
            subst hbo
            obtain ⟨jo, hjolen, hjo⟩ := bracket_boundary bf.length bf (le_refl _) b
              BfOp.BrFor hpo (Or.inl rfl)
            have hpo' : bf[bIdx jo bf]? = some BfOp.BrFor := by
              rw [← hjo]
              exact hpo
            have hsm_o' : scanMatch BfOp.isOpen BfOp.isClose bf (bIdx jo bf) =
                some (bIdx j bf) := by
              rw [← hjo]
              exact hsm_o
            obtain ⟨mh, hsmh, hm1⟩ := scanMatch_commute bf jo (bIdx j bf) BfOp.BrFor hpo'
              (Or.inl rfl) hsm_o'
            have hjlt : j < (HirGen.lower bf).length := (List.getElem?_eq_some_iff.mp hlj).1
            have hmhlt : mh < (HirGen.lower bf).length := by
              obtain ⟨-, ⟨opm, hm_, -⟩, -, -⟩ :=
                (scanMatch_some_iff HirOp.isOpen HirOp.isClose (HirGen.lower bf) jo mh).mp
                  hsmh
              exact (List.getElem?_eq_some_iff.mp hm_).1
            have hseg1 : bIdx (j + 1) bf = bIdx j bf + 1 := by
              rw [bIdx_succ, hrest]
              rfl
            have hmhj : mh = j := by
              have hbe : bIdx (mh + 1) bf = bIdx (j + 1) bf := by
                rw [← hm1, hseg1]
              have := bIdx_inj bf (mh + 1) (j + 1) (by omega) (by omega) hbe
              omega
            rw [hmhj] at hsmh
            have hrest_o := drop_cons_of_getElem bf (bIdx jo bf) BfOp.BrFor hpo'
            have hljo : (HirGen.lower bf)[jo]? = some HirOp.BrFor := by
              have h0 : ((HirGen.lower bf).drop jo)[0]? = some HirOp.BrFor := by
                rw [← lower_drop_bIdx bf jo, hrest_o, lower_cons_brfor]
                simp
              rw [List.getElem?_drop] at h0
              simpa using h0
            obtain ⟨m', hsm', hTjo, hTm⟩ := htable jo HirOp.BrFor hljo rfl
            have hmj : m' = j := by
              rw [hsmh] at hsm'
              exact (Option.some.injEq .. |>.mp hsm').symm
            rw [hmj] at hTm
            have hsegjo : bIdx (jo + 1) bf = bIdx jo bf + 1 := by
              rw [bIdx_succ, hrest_o]
              rfl
            have hrun' : bfRun bf fuel0 (bIdx (jo + 1) bf) es = some res := by
              rw [hsegjo, ← hjo]
              exact hrun
            obtain ⟨n, hn⟩ := ih fuel0 (by omega) (jo + 1) es res hrun'
            refine ⟨n + 1, ?_⟩
            rw [runG_close_pos HirOp.classify ExecSt.readCur hirEff (HirGen.lower bf) table
              n j es HirOp.BrBack hlj rfl hread]
            rw [hTm]
            exact hn

theorem bf_hir_outputs (bf : List BfOp) (input : List Nat) (out : List Nat)
    (hwf : BfWellFormed bf)
    (hterm : ∃ fuel, BfInterpreter.execute bf input fuel = some out) :
    ∃ fuel, HirInterpreter.execute (HirGen.lower bf) input fuel = some out := by
  obtain ⟨fuel, hex⟩ := hterm
  unfold BfInterpreter.execute at hex
  obtain ⟨res, hres, hout⟩ := Option.map_eq_some'.mp hex
  obtain ⟨hwfO, hwfC⟩ := hwf
  rw [bfIsOpen_eq, bfIsClose_eq] at hwfO hwfC
  have hopens := lower_opensMatched bf hwfO
  obtain ⟨T, hT, hspec⟩ := branchTable_spec HirOp.isOpen HirOp.isClose (HirGen.lower bf)
    (fun x hx => by cases x <;> simp_all [HirOp.isOpen, HirOp.isClose]) hopens
  obtain ⟨n, hn⟩ := bf_to_hir_sim bf T hwfO hwfC hspec fuel 0 ⟨⟨[], 0⟩, input, []⟩ res hres
  refine ⟨n, ?_⟩
  unfold HirInterpreter.execute
  rw [show HirInterpreter.gen_branch_table (HirGen.lower bf) = some T from hT]
  show (runG HirOp.classify ExecSt.readCur hirEff (HirGen.lower bf) T n 0
    ⟨⟨[], 0⟩, input, []⟩).map ExecSt.output = some out
  rw [hn, Option.map_some', hout]

theorem cStep_pos (h : List HirOp) : 0 < cStep h := by
  match h with
  | [] => exact Nat.one_pos
  | op :: rest =>
    cases op <;> simp only [cStep] <;> try exact Nat.one_pos
    rcases LirGen.try_opt_simple_hir_loop (HirOp.BrFor :: rest) with - | ⟨-, skip⟩
    · rcases firstIdx HirOp.isBr rest with - | v
      · exact Nat.one_pos
      · simp only
        split
        · exact Nat.one_pos
        · split
          · omega
          · exact Nat.one_pos
    · simp only
      omega

theorem cOut_ne_nil (h : List HirOp) (hne : h ≠ []) : cOut h ≠ [] := by
  match h with
  | op :: rest =>
    cases op <;> simp only [cOut] <;> try exact List.cons_ne_nil _ _
    rcases LirGen.try_opt_simple_hir_loop (HirOp.BrFor :: rest) with - | ⟨opt, skip⟩
    · rcases firstIdx HirOp.isBr rest with - | v
      · exact List.cons_ne_nil _ _
      · simp only
        split
        · exact List.cons_ne_nil _ _
        · split
          · exact List.cons_ne_nil _ _
          · exact List.cons_ne_nil _ _
    · simp only
      exact List.cons_ne_nil _ _

theorem cIdx_cons (j : Nat) (h : List HirOp) :
    cIdx (j + 1) h = cStep h + cIdx j (h.drop (cStep h)) := rfl

theorem oIdx_cons (j : Nat) (h : List HirOp) :
    oIdx (j + 1) h = (cOut h).length + oIdx j (h.drop (cStep h)) := rfl

theorem firstIdx_min (p : α → Bool) :
    ∀ (l : List α) (v : Nat), firstIdx p l = some v →
      ∀ k, k < v → ∀ x, l[k]? = some x → p x = false := by
  intro l
  induction l with
  | nil => intro v hv; simp [firstIdx] at hv
  | cons x xs ih =>
    intro v hv k hk y hy
    rw [show firstIdx p (x :: xs) =
      if p x then some 0 else (firstIdx p xs).map (· + 1) from rfl] at hv
    split at hv
    · simp only [Option.some.injEq] at hv
      omega
    · next hpx =>
      obtain ⟨w, hw, hwv⟩ := Option.map_eq_some'.mp hv
      cases k with
      | zero =>
        simp only [List.getElem?_cons_zero, Option.some.injEq] at hy
        subst hy
        simpa using hpx
      | succ k =>
        simp only [List.getElem?_cons_succ] at hy
        exact ih w hw k (by omega) y hy

theorem firstIdx_none (p : α → Bool) :
    ∀ (l : List α), firstIdx p l = none → ∀ x ∈ l, p x = false := by
  intro l
  induction l with
  | nil => intro h x hx; simp at hx
  | cons y ys ih =>
    intro h x hx
    rw [show firstIdx p (y :: ys) =
      if p y then some 0 else (firstIdx p ys).map (· + 1) from rfl] at h
    split at h
    · exact absurd h (by simp)
    · next hpy =>
      rcases List.mem_cons.mp hx with rfl | hxs
      · simpa using hpy
      · exact ih (by simpa using h) x hxs

theorem drop_eq_cons_of_getElem (l : List α) (p : Nat) (x : α)
    (h : l[p]? = some x) : l.drop p = x :: l.drop (p + 1) := by
  have h0 : (l.drop p)[0]? = some x := by
    rw [List.getElem?_drop]
    simpa using h
  cases hu : l.drop p with
  | nil => rw [hu] at h0; simp at h0
  | cons y t =>
    rw [hu] at h0
    simp only [List.getElem?_cons_zero, Option.some.injEq] at h0
    subst h0
    congr 1
    rw [← List.drop_drop, hu]
    rfl

theorem try_opt_cases (hir : List HirOp) (opt : LirOp) (skip : Nat)
    (h : LirGen.try_opt_simple_hir_loop hir = some (opt, skip)) :
    ∃ v, firstIdx HirOp.isBr (hir.drop 1) = some v ∧
      ¬((hir.drop 1).getD v HirOp.BrBack = HirOp.BrFor) ∧ skip = v + 1 ∧
      ((∃ d, (hir.drop 1).take v = [HirOp.Modify d] ∧ opt = LirOp.WriteZero) ∨
       (∃ d, (hir.drop 1).take v = [HirOp.Move d] ∧ opt = LirOp.Hop d) ∨
       (∃ d, (hir.drop 1).take v = [HirOp.Modify (-1), HirOp.Move d, HirOp.Modify 1,
          HirOp.Move (-d)] ∧ opt = LirOp.MoveCell d)) := by
  unfold LirGen.try_opt_simple_hir_loop at h
  cases hfi : firstIdx HirOp.isBr (hir.drop 1) with
  | none => rw [hfi] at h; exact absurd h (by simp)
  | some v =>
    rw [hfi] at h
    simp only at h
    split at h
    · exact absurd h (by simp)
    · next hne =>
      have hvlen : v < (hir.drop 1).length := firstIdx_lt_length _ _ _ hfi
      have hlentake : ((hir.drop 1).take v).length = v := by
        rw [List.length_take]
        omega
      refine ⟨v, rfl, hne, ?_⟩
      split at h
      · next d htake =>
        simp only [Option.some.injEq, Prod.mk.injEq] at h
        refine ⟨?_, Or.inl ⟨d, htake, h.1.symm⟩⟩
        rw [htake] at hlentake
        simp at hlentake
        omega
      · next d htake =>
        simp only [Option.some.injEq, Prod.mk.injEq] at h
        refine ⟨?_, Or.inr (Or.inl ⟨d, htake, h.1.symm⟩)⟩
        rw [htake] at hlentake
        simp at hlentake
        omega
      · next a d b nd htake =>
        split at h
        · next hcond =>
          obtain ⟨ha, hb, hdnd⟩ := hcond
          simp only [Option.some.injEq, Prod.mk.injEq] at h
          subst ha hb
          refine ⟨?_, Or.inr (Or.inr ⟨d, ?_, ?_⟩)⟩
          · rw [htake] at hlentake
            simp at hlentake
            omega
          · rw [htake, hdnd]
            simp
          · rw [← h.1]
        · exact absurd h (by simp)
      · exact absurd h (by simp)

theorem passA_nil (f : Nat) : LirGen.passA f [] = [] := by
  cases f <;> rfl

theorem passB_nil (f : Nat) : LirGen.passB f [] = [] := by
  cases f <;> rfl

theorem passA_congr :
    ∀ (n : Nat) (h : List HirOp), h.length ≤ n → ∀ f1 f2, h.length ≤ f1 → h.length ≤ f2 →
      LirGen.passA f1 h = LirGen.passA f2 h := by
  intro n
  induction n with
  | zero =>
    intro h hn f1 f2 h1 h2
    have : h = [] := by
      cases h with
      | nil => rfl
      | cons a t => simp at hn
    subst this
    rw [passA_nil, passA_nil]
  | succ n ih =>
    intro h hn f1 f2 h1 h2
    cases h with
    | nil => rw [passA_nil, passA_nil]
    | cons op rest =>
      simp only [List.length_cons] at hn h1 h2
      cases f1 with
      | zero => omega
      | succ f1 =>
        cases f2 with
        | zero => omega
        | succ f2 =>
          cases op
          case Modify d =>
            simp only [LirGen.passA]
            rw [ih rest (by omega) f1 f2 (by omega) (by omega)]
          case Move d =>
            simp only [LirGen.passA]
            rw [ih rest (by omega) f1 f2 (by omega) (by omega)]
          case In =>
            simp only [LirGen.passA]
            rw [ih rest (by omega) f1 f2 (by omega) (by omega)]
          case Out =>
            simp only [LirGen.passA]
            rw [ih rest (by omega) f1 f2 (by omega) (by omega)]
          case BrBack =>
            simp only [LirGen.passA]
            rw [ih rest (by omega) f1 f2 (by omega) (by omega)]
          case BrFor =>
            simp only [LirGen.passA]
            cases hopt : LirGen.try_opt_simple_hir_loop (HirOp.BrFor :: rest) with
            | none =>
              simp only
              rw [ih rest (by omega) f1 f2 (by omega) (by omega)]
            | some os =>
              obtain ⟨opt, skip⟩ := os
              simp only
              have hd : ((HirOp.BrFor :: rest).drop (skip + 1)).length ≤ rest.length := by
                rw [List.length_drop]
                simp only [List.length_cons]
                omega
              rw [ih ((HirOp.BrFor :: rest).drop (skip + 1)) (by omega) f1 f2
                (by omega) (by omega)]

theorem passB_congr :
    ∀ (n : Nat) (l : List LirOp), l.length ≤ n → ∀ f1 f2, l.length ≤ f1 → l.length ≤ f2 →
      LirGen.passB f1 l = LirGen.passB f2 l := by
  intro n
  induction n with
  | zero =>
    intro l hn f1 f2 h1 h2
    have : l = [] := by
      cases l with
      | nil => rfl
      | cons a t => simp at hn
    subst this
    rw [passB_nil, passB_nil]
  | succ n ih =>
    intro l hn f1 f2 h1 h2
    cases l with
    | nil => rw [passB_nil, passB_nil]
    | cons op rest =>
      simp only [List.length_cons] at hn h1 h2
      cases f1 with
      | zero => omega
      | succ f1 =>
        cases f2 with
        | zero => omega
        | succ f2 =>
          cases op
          case BrFor =>
            simp only [LirGen.passB]
            cases hopt : LirGen.try_opt_simple_lir_loop (LirOp.BrFor :: rest) with
            | none =>
              simp only
              rw [ih rest (by omega) f1 f2 (by omega) (by omega)]
            | some os =>
              obtain ⟨opts, skip⟩ := os
              simp only
              have hd : ((LirOp.BrFor :: rest).drop (skip + 1)).length ≤ rest.length := by
                rw [List.length_drop]
                simp only [List.length_cons]
                omega
              rw [ih ((LirOp.BrFor :: rest).drop (skip + 1)) (by omega) f1 f2
                (by omega) (by omega)]
          all_goals
            simp only [LirGen.passB]
            rw [ih rest (by omega) f1 f2 (by omega) (by omega)]

theorem passA_nonopen_prefix :
    ∀ (w l : List HirOp), (∀ y ∈ w, HirOp.isOpen y = false) →
      ∀ f, w.length + l.length ≤ f →
        LirGen.passA f (w ++ l) = w.map HirOp.toLir ++ LirGen.passA (f - w.length) l := by
  intro w
  induction w with
  | nil =>
    intro l hw f hf
    simp
  | cons x xs ih =>
    intro l hw f hf
    cases f with
    | zero => simp at hf
    | succ f =>
      rw [List.cons_append]
      have hxs : ∀ y ∈ xs, HirOp.isOpen y = false := fun y hy => hw y (List.mem_cons_of_mem _ hy)
      have hx := hw x (by simp)
      cases x
      case BrFor => simp [HirOp.isOpen] at hx
      all_goals
        simp only [LirGen.passA, List.map_cons, HirOp.toLir]
        rw [ih l hxs f (by simp only [List.length_cons] at hf; omega)]
        simp only [List.length_cons, List.cons_append]
        rw [show f + 1 - (xs.length + 1) = f - xs.length from by omega]

theorem toLir_isBr (y : HirOp) : LirOp.isBr (HirOp.toLir y) = HirOp.isBr y := by
  cases y <;> rfl

theorem toLir_isModMov (y : HirOp) : LirOp.isModMov (HirOp.toLir y) = HirOp.isModMov y := by
  cases y <;> rfl

theorem getD_of_getElem (l : List α) (v : Nat) (x d : α) (h : l[v]? = some x) :
    l.getD v d = x := by
  rw [List.getD_eq_getElem?_getD, h]
  rfl

theorem getElem_append_length (l m : List α) :
    (l ++ m)[l.length]? = m[0]? := by
  rw [List.getElem?_append_right (le_refl _)]
  simp

theorem try_opt_lir_chunk (bodyL L' : List LirOp)
    (hmm : ∀ y ∈ bodyL, LirOp.isModMov y = true) :
    LirGen.try_opt_simple_lir_loop (LirOp.BrFor :: (bodyL ++ LirOp.BrBack :: L')) =
      some ([LirOp.BrFor, LirOp.CnstMovSet (LirGen.simBody bodyL 0 []).2,
        LirOp.Move (LirGen.simBody bodyL 0 []).1, LirOp.BrBack], bodyL.length + 1) := by
  have hnb : ∀ y ∈ bodyL, LirOp.isBr y = false := by
    intro y hy
    have := hmm y hy
    cases y <;> simp_all [LirOp.isModMov, LirOp.isBr, LirOp.isOpen, LirOp.isClose]
  have hfi : firstIdx LirOp.isBr (bodyL ++ LirOp.BrBack :: L') = some bodyL.length := by
    rw [firstIdx_append_not _ _ _ hnb]
    rw [show firstIdx LirOp.isBr (LirOp.BrBack :: L') = some 0 from by
      simp [firstIdx, LirOp.isBr, LirOp.isClose, LirOp.isOpen]]
    simp
  have hdrop : (LirOp.BrFor :: (bodyL ++ LirOp.BrBack :: L')).drop 1 =
      bodyL ++ LirOp.BrBack :: L' := rfl
  have hgetD : (bodyL ++ LirOp.BrBack :: L').getD bodyL.length LirOp.BrBack =
      LirOp.BrBack := by
    apply getD_of_getElem
    rw [getElem_append_length]
    simp
  have htake : (bodyL ++ LirOp.BrBack :: L').take bodyL.length = bodyL :=
    List.take_left _ _
  have hall : bodyL.all LirOp.isModMov = true := by
    rw [List.all_eq_true]
    intro y hy
    exact hmm y hy
  have h1 : (bodyL ++ LirOp.BrBack :: L')[bodyL.length]? = some LirOp.BrBack := by
    rw [getElem_append_length]
    simp
  obtain ⟨hb, hEq⟩ := List.getElem?_eq_some_iff.mp h1
  unfold LirGen.try_opt_simple_lir_loop
  rw [hdrop, hfi]
  simp [hgetD, htake, hall, hEq]

theorem try_opt_lir_none_of_content (L : List LirOp)
    (hcontent : ∀ v, firstIdx LirOp.isBr L = some v →
      (L.getD v LirOp.BrBack = LirOp.BrFor ∨ ∃ y ∈ L.take v, LirOp.isModMov y = false)) :
    LirGen.try_opt_simple_lir_loop (LirOp.BrFor :: L) = none := by
  unfold LirGen.try_opt_simple_lir_loop
  rw [show (LirOp.BrFor :: L).drop 1 = L from rfl]
  cases hfi : firstIdx LirOp.isBr L with
  | none => rfl
  | some v =>
    rcases hcontent v hfi with hc | ⟨y, hy, hymm⟩
    · rw [List.getD_eq_getElem?_getD] at hc
      simp [hc]
    · have hallf : (L.take v).all LirOp.isModMov = false :=
        List.all_eq_false.mpr ⟨y, hy, by simp [hymm]⟩
      simp only [hallf]
      split
      · rfl
      · simp

theorem gen_ir_cons_plain (op : HirOp) (rest : List HirOp)
    (hop : HirOp.isOpen op = false) :
    LirGen.gen_ir (op :: rest) = HirOp.toLir op :: LirGen.gen_ir rest := by
  cases op
  case BrFor => simp [HirOp.isOpen] at hop
  all_goals rfl

theorem gen_ir_seg (h : List HirOp) (hne : h ≠ []) :
    LirGen.gen_ir h = cOut h ++ LirGen.gen_ir (h.drop (cStep h)) := by
  match h with
  | op :: rest =>
    cases op
    case Modify d => exact gen_ir_cons_plain (HirOp.Modify d) rest rfl
    case Move d => exact gen_ir_cons_plain (HirOp.Move d) rest rfl
    case In => exact gen_ir_cons_plain HirOp.In rest rfl
    case Out => exact gen_ir_cons_plain HirOp.Out rest rfl
    case BrBack => exact gen_ir_cons_plain HirOp.BrBack rest rfl
    case BrFor =>
      cases hopt : LirGen.try_opt_simple_hir_loop (HirOp.BrFor :: rest) with
      | some os =>
        obtain ⟨opt, skip⟩ := os
        obtain ⟨v, hfi, hnf, hskip, hpat⟩ := try_opt_cases _ _ _ hopt
        have hA : LirGen.passA (rest.length + 1) (HirOp.BrFor :: rest) =
            opt :: LirGen.passA rest.length ((HirOp.BrFor :: rest).drop (skip + 1)) := by
          simp [LirGen.passA, hopt]
        have hD : ((HirOp.BrFor :: rest).drop (skip + 1)).length ≤ rest.length := by
          rw [List.length_drop]
          simp only [List.length_cons]
          omega
        have hA' : LirGen.passA rest.length ((HirOp.BrFor :: rest).drop (skip + 1)) =
            LirGen.passA ((HirOp.BrFor :: rest).drop (skip + 1)).length
              ((HirOp.BrFor :: rest).drop (skip + 1)) :=
          passA_congr rest.length _ hD _ _ (by omega) (le_refl _)
        have hB : LirGen.passB
            ((LirGen.passA ((HirOp.BrFor :: rest).drop (skip + 1)).length
              ((HirOp.BrFor :: rest).drop (skip + 1))).length + 1)
            (opt :: LirGen.passA ((HirOp.BrFor :: rest).drop (skip + 1)).length
              ((HirOp.BrFor :: rest).drop (skip + 1))) =
            opt :: LirGen.passB
              (LirGen.passA ((HirOp.BrFor :: rest).drop (skip + 1)).length
                ((HirOp.BrFor :: rest).drop (skip + 1))).length
              (LirGen.passA ((HirOp.BrFor :: rest).drop (skip + 1)).length
                ((HirOp.BrFor :: rest).drop (skip + 1))) := by
          rcases hpat with ⟨d, -, rfl⟩ | ⟨d, -, rfl⟩ | ⟨d, -, rfl⟩ <;> rfl
        have hcout : cOut (HirOp.BrFor :: rest) = [opt] := by
          simp [cOut, hopt]
        have hcstep : cStep (HirOp.BrFor :: rest) = skip + 1 := by
          simp [cStep, hopt]
        simp only [LirGen.gen_ir, List.length_cons]
        rw [hA, hA']
        rw [show ∀ (z : LirOp) (X : List LirOp), (z :: X).length = X.length + 1 from
          fun z X => rfl]
        rw [hB, hcout, hcstep]
        rfl
      | none =>
        have hA : LirGen.passA (rest.length + 1) (HirOp.BrFor :: rest) =
            LirOp.BrFor :: LirGen.passA rest.length rest := by
          simp [LirGen.passA, hopt]
        cases hfi : firstIdx HirOp.isBr rest with
        | none =>
          have hnb_h : ∀ y ∈ rest, HirOp.isBr y = false := firstIdx_none _ _ hfi
          have hno : ∀ y ∈ rest, HirOp.isOpen y = false := by
            intro y hy
            have := hnb_h y hy
            cases y <;> simp_all [HirOp.isBr, HirOp.isOpen, HirOp.isClose]
          have hAmap : LirGen.passA rest.length rest = rest.map HirOp.toLir := by
            have := passA_nonopen_prefix rest [] hno rest.length (by simp)
            simpa [passA_nil] using this
          have hlirnone : LirGen.try_opt_simple_lir_loop
              (LirOp.BrFor :: LirGen.passA rest.length rest) = none := by
            apply try_opt_lir_none_of_content
            intro v hv
            exfalso
            obtain ⟨y, hy, hbry⟩ := firstIdx_found _ _ _ hv
            rw [hAmap] at hy
            have hymem := List.getElem?_mem hy
            obtain ⟨x, hxmem, hxy⟩ := List.mem_map.mp hymem
            rw [← hxy, toLir_isBr] at hbry
            rw [hnb_h x hxmem] at hbry
            exact Bool.noConfusion hbry
          have hB : LirGen.passB ((LirGen.passA rest.length rest).length + 1)
              (LirOp.BrFor :: LirGen.passA rest.length rest) =
              LirOp.BrFor :: LirGen.passB (LirGen.passA rest.length rest).length
                (LirGen.passA rest.length rest) := by
            simp [LirGen.passB, hlirnone]
          have hcout : cOut (HirOp.BrFor :: rest) = [LirOp.BrFor] := by
            simp [cOut, hopt, hfi]
          have hcstep : cStep (HirOp.BrFor :: rest) = 1 := by
            simp [cStep, hopt, hfi]
          simp only [LirGen.gen_ir, List.length_cons]
          rw [hA]
          rw [show ∀ (z : LirOp) (X : List LirOp), (z :: X).length = X.length + 1 from
            fun z X => rfl]
          rw [hB, hcout, hcstep]
          rfl
        | some v =>
          have hvlen : v < rest.length := firstIdx_lt_length _ _ _ hfi
          obtain ⟨br, hbr, hbrbr⟩ := firstIdx_found _ _ _ hfi
          have hgetD : rest.getD v HirOp.BrBack = br := getD_of_getElem _ _ _ _ hbr
          have hw1len : (rest.take v).length = v := by
            rw [List.length_take]
            omega
          have hnbr1 : ∀ y ∈ rest.take v, HirOp.isBr y = false := by
            intro y hy
            obtain ⟨k, hk, hky⟩ := List.getElem_of_mem hy
            have hkv : k < v := by omega
            have hky' : rest[k]? = some y := by
              have h1 : (rest.take v)[k]? = some y := by
                rw [List.getElem?_eq_getElem hk, hky]
              rw [List.getElem?_take_of_lt hkv] at h1
              exact h1
            exact firstIdx_min HirOp.isBr rest v hfi k hkv y hky'
          have hno : ∀ y ∈ rest.take v, HirOp.isOpen y = false := by
            intro y hy
            have := hnbr1 y hy
            cases y <;> simp_all [HirOp.isBr, HirOp.isOpen, HirOp.isClose]
          have hnbmap : ∀ y ∈ (rest.take v).map HirOp.toLir, LirOp.isBr y = false := by
            intro y hy
            obtain ⟨x, hxmem, hxy⟩ := List.mem_map.mp hy
            rw [← hxy, toLir_isBr]
            exact hnbr1 x hxmem
          have hdropv : rest.drop v = br :: rest.drop (v + 1) :=
            drop_eq_cons_of_getElem rest v br hbr
          have hsplitrest : rest = rest.take v ++ rest.drop v :=
            (List.take_append_drop v rest).symm
          have hsplitA : LirGen.passA rest.length rest =
              (rest.take v).map HirOp.toLir ++
                LirGen.passA (rest.length - v) (rest.drop v) := by
            have h1 := passA_nonopen_prefix (rest.take v) (rest.drop v) hno rest.length
              (by rw [hw1len, List.length_drop]; omega)
            rw [List.take_append_drop] at h1
            rw [h1, hw1len]
          have hfuel3 : rest.length - v = (rest.drop (v + 1)).length + 1 := by
            rw [List.length_drop]
            omega
          by_cases hbrf : rest.getD v HirOp.BrBack = HirOp.BrFor
          · have hbrfor : br = HirOp.BrFor := by
              rw [hgetD] at hbrf
              exact hbrf
            subst hbrfor
            have hlirnone : LirGen.try_opt_simple_lir_loop
                (LirOp.BrFor :: LirGen.passA rest.length rest) = none := by
              rw [hsplitA, hdropv, hfuel3]
              cases hopt2 : LirGen.try_opt_simple_hir_loop
                  (HirOp.BrFor :: rest.drop (v + 1)) with
              | some os2 =>
                obtain ⟨opt2, skip2⟩ := os2
                obtain ⟨v2, hfi2, hne2, hskip2, hpat2⟩ := try_opt_cases _ _ _ hopt2
                have hopt2props : LirOp.isBr opt2 = false ∧ LirOp.isModMov opt2 = false := by
                  rcases hpat2 with ⟨d, -, rfl⟩ | ⟨d, -, rfl⟩ | ⟨d, -, rfl⟩ <;>
                    exact ⟨rfl, rfl⟩
                have hP2 : LirGen.passA ((rest.drop (v + 1)).length + 1)
                    (HirOp.BrFor :: rest.drop (v + 1)) =
                    opt2 :: LirGen.passA (rest.drop (v + 1)).length
                      ((HirOp.BrFor :: rest.drop (v + 1)).drop (skip2 + 1)) := by
                  simp [LirGen.passA, hopt2]
                rw [hP2]
                apply try_opt_lir_none_of_content
                intro vl hvl
                right
                rw [firstIdx_append_not _ _ _ hnbmap] at hvl
                obtain ⟨w, hw, hwv⟩ := Option.map_eq_some'.mp hvl
                rw [show firstIdx LirOp.isBr (opt2 :: LirGen.passA (rest.drop (v + 1)).length
                    ((HirOp.BrFor :: rest.drop (v + 1)).drop (skip2 + 1))) =
                    if LirOp.isBr opt2 then some 0
                    else (firstIdx LirOp.isBr (LirGen.passA (rest.drop (v + 1)).length
                      ((HirOp.BrFor :: rest.drop (v + 1)).drop (skip2 + 1)))).map (· + 1)
                  from rfl, hopt2props.1] at hw
                simp only [Bool.false_eq_true, if_false] at hw
                obtain ⟨w2, hw2, hww⟩ := Option.map_eq_some'.mp hw
                refine ⟨opt2, ?_, hopt2props.2⟩
                have hidx : getElem? ((rest.take v).map HirOp.toLir ++ opt2 ::
                    LirGen.passA (rest.drop (v + 1)).length
                      ((HirOp.BrFor :: rest.drop (v + 1)).drop (skip2 + 1)))
                    ((rest.take v).map HirOp.toLir).length = some opt2 := by
                  rw [getElem_append_length]
                  simp
                have hlt : ((rest.take v).map HirOp.toLir).length < vl := by
                  simp only [List.length_map] at hwv ⊢
                  omega
                have hmem : getElem? (((rest.take v).map HirOp.toLir ++ opt2 ::
                    LirGen.passA (rest.drop (v + 1)).length
                      ((HirOp.BrFor :: rest.drop (v + 1)).drop (skip2 + 1))).take vl)
                    ((rest.take v).map HirOp.toLir).length = some opt2 := by
                  rw [List.getElem?_take_of_lt hlt]
                  exact hidx
                exact List.getElem?_mem hmem
              | none =>
                have hP2 : LirGen.passA ((rest.drop (v + 1)).length + 1)
                    (HirOp.BrFor :: rest.drop (v + 1)) =
                    LirOp.BrFor :: LirGen.passA (rest.drop (v + 1)).length
                      (rest.drop (v + 1)) := by
                  simp [LirGen.passA, hopt2]
                rw [hP2]
                apply try_opt_lir_none_of_content
                intro vl hvl
                left
                rw [firstIdx_append_not _ _ _ hnbmap] at hvl
                rw [show firstIdx LirOp.isBr (LirOp.BrFor ::
                    LirGen.passA (rest.drop (v + 1)).length (rest.drop (v + 1))) = some 0
                  from rfl] at hvl
                simp only [Option.map_some', Option.some.injEq] at hvl
                rw [List.getD_eq_getElem?_getD, ← hvl]
                rw [show (0 : Nat) + ((rest.take v).map HirOp.toLir).length =
                  ((rest.take v).map HirOp.toLir).length from by omega]
                rw [getElem_append_length]
                simp
            have hB : LirGen.passB ((LirGen.passA rest.length rest).length + 1)
                (LirOp.BrFor :: LirGen.passA rest.length rest) =
                LirOp.BrFor :: LirGen.passB (LirGen.passA rest.length rest).length
                  (LirGen.passA rest.length rest) := by
              simp [LirGen.passB, hlirnone]
            have hbrf' := hbrf
            rw [List.getD_eq_getElem?_getD] at hbrf'
            have hcout : cOut (HirOp.BrFor :: rest) = [LirOp.BrFor] := by
              simp [cOut, hopt, hfi, hbrf']
            have hcstep : cStep (HirOp.BrFor :: rest) = 1 := by
              simp [cStep, hopt, hfi, hbrf']
            simp only [LirGen.gen_ir, List.length_cons]
            rw [hA]
            rw [show ∀ (z : LirOp) (X : List LirOp), (z :: X).length = X.length + 1 from
              fun z X => rfl]
            rw [hB, hcout, hcstep]
            rfl
          · have hbrback : br = HirOp.BrBack := by
              rw [hgetD] at hbrf
              cases br
              case BrBack => rfl
              case BrFor => exact absurd rfl hbrf
              all_goals exact absurd hbrbr (by simp [HirOp.isBr, HirOp.isOpen, HirOp.isClose])
            subst hbrback
            have hP3 : LirGen.passA ((rest.drop (v + 1)).length + 1)
                (HirOp.BrBack :: rest.drop (v + 1)) =
                LirOp.BrBack :: LirGen.passA (rest.drop (v + 1)).length
                  (rest.drop (v + 1)) := rfl
            by_cases hall : (rest.take v).all HirOp.isModMov
            · -- pass B folds this loop into a CnstMovSet block
              have hmmL : ∀ y ∈ (rest.take v).map HirOp.toLir, LirOp.isModMov y = true := by
                intro y hy
                obtain ⟨x, hxmem, hxy⟩ := List.mem_map.mp hy
                rw [← hxy, toLir_isModMov]
                exact List.all_eq_true.mp hall x hxmem
              have hAfull : LirGen.passA rest.length rest =
                  (rest.take v).map HirOp.toLir ++ LirOp.BrBack ::
                    LirGen.passA (rest.drop (v + 1)).length (rest.drop (v + 1)) := by
                rw [hsplitA, hdropv, hfuel3, hP3]
              have hchunk := try_opt_lir_chunk ((rest.take v).map HirOp.toLir)
                (LirGen.passA (rest.drop (v + 1)).length (rest.drop (v + 1))) hmmL
              have hbrf' := hbrf
              rw [List.getD_eq_getElem?_getD] at hbrf'
              have hcout : cOut (HirOp.BrFor :: rest) =
                  [LirOp.BrFor,
                    LirOp.CnstMovSet (LirGen.simBody ((rest.take v).map HirOp.toLir) 0 []).2,
                    LirOp.Move (LirGen.simBody ((rest.take v).map HirOp.toLir) 0 []).1,
                    LirOp.BrBack] := by
                simp [cOut, hopt, hfi, hbrf', hall]
              have hcstep : cStep (HirOp.BrFor :: rest) = v + 2 := by
                simp [cStep, hopt, hfi, hbrf', hall]
              have hdropc : (HirOp.BrFor :: rest).drop (v + 2) = rest.drop (v + 1) := by
                rw [show (HirOp.BrFor :: rest).drop (v + 2) = rest.drop (v + 1) from by
                  rw [show v + 2 = (v + 1) + 1 from rfl]
                  rfl]
              simp only [LirGen.gen_ir, List.length_cons]
              rw [hA]
              rw [show ∀ (z : LirOp) (X : List LirOp), (z :: X).length = X.length + 1 from
                fun z X => rfl]
              rw [hAfull]
              have hBskip : LirGen.passB
                  (((rest.take v).map HirOp.toLir ++ LirOp.BrBack ::
                    LirGen.passA (rest.drop (v + 1)).length (rest.drop (v + 1))).length + 1)
                  (LirOp.BrFor :: ((rest.take v).map HirOp.toLir ++ LirOp.BrBack ::
                    LirGen.passA (rest.drop (v + 1)).length (rest.drop (v + 1)))) =
                  [LirOp.BrFor,
                    LirOp.CnstMovSet (LirGen.simBody ((rest.take v).map HirOp.toLir) 0 []).2,
                    LirOp.Move (LirGen.simBody ((rest.take v).map HirOp.toLir) 0 []).1,
                    LirOp.BrBack] ++
                  LirGen.passB
                    (((rest.take v).map HirOp.toLir ++ LirOp.BrBack ::
                      LirGen.passA (rest.drop (v + 1)).length (rest.drop (v + 1))).length)
                    ((LirOp.BrFor :: ((rest.take v).map HirOp.toLir ++ LirOp.BrBack ::
                      LirGen.passA (rest.drop (v + 1)).length
                        (rest.drop (v + 1)))).drop
                      (((rest.take v).map HirOp.toLir).length + 1 + 1)) := by
                simp only [LirGen.passB, hchunk]
              rw [hBskip]
              have hdropL : (LirOp.BrFor :: ((rest.take v).map HirOp.toLir ++ LirOp.BrBack ::
                  LirGen.passA (rest.drop (v + 1)).length (rest.drop (v + 1)))).drop
                    (((rest.take v).map HirOp.toLir).length + 1 + 1) =
                  LirGen.passA (rest.drop (v + 1)).length (rest.drop (v + 1)) := by
                rw [show ((rest.take v).map HirOp.toLir).length + 1 + 1 =
                  (((rest.take v).map HirOp.toLir).length + 1) + 1 from rfl]
                rw [show (LirOp.BrFor :: ((rest.take v).map HirOp.toLir ++ LirOp.BrBack ::
                    LirGen.passA (rest.drop (v + 1)).length (rest.drop (v + 1)))).drop
                      ((((rest.take v).map HirOp.toLir).length + 1) + 1) =
                    (((rest.take v).map HirOp.toLir ++ LirOp.BrBack ::
                      LirGen.passA (rest.drop (v + 1)).length (rest.drop (v + 1)))).drop
                      (((rest.take v).map HirOp.toLir).length + 1) from rfl]
                rw [show ((rest.take v).map HirOp.toLir).length + 1 =
                  ((rest.take v).map HirOp.toLir).length + 1 from rfl]
                rw [show (((rest.take v).map HirOp.toLir ++ LirOp.BrBack ::
                    LirGen.passA (rest.drop (v + 1)).length (rest.drop (v + 1)))).drop
                    (((rest.take v).map HirOp.toLir).length + 1) =
                    ((LirOp.BrBack :: LirGen.passA (rest.drop (v + 1)).length
                      (rest.drop (v + 1))).drop 1) from by
                  rw [show ((rest.take v).map HirOp.toLir).length + 1 =
                    ((rest.take v).map HirOp.toLir).length + 1 from rfl]
                  rw [List.drop_append 1]]
                rfl
              rw [hdropL]
              have hcongrB : LirGen.passB
                  (((rest.take v).map HirOp.toLir ++ LirOp.BrBack ::
                    LirGen.passA (rest.drop (v + 1)).length (rest.drop (v + 1))).length)
                  (LirGen.passA (rest.drop (v + 1)).length (rest.drop (v + 1))) =
                  LirGen.passB
                    (LirGen.passA (rest.drop (v + 1)).length (rest.drop (v + 1))).length
                    (LirGen.passA (rest.drop (v + 1)).length (rest.drop (v + 1))) := by
                exact passB_congr
                  (LirGen.passA (rest.drop (v + 1)).length (rest.drop (v + 1))).length
                  _ (le_refl _) _ _ (by simp <;> omega) (le_refl _)
              rw [hcongrB, hcout, hcstep, hdropc]
            · -- body is not all modifies/moves: pass B leaves the loop alone
              have hlirnone : LirGen.try_opt_simple_lir_loop
                  (LirOp.BrFor :: LirGen.passA rest.length rest) = none := by
                rw [hsplitA, hdropv, hfuel3, hP3]
                apply try_opt_lir_none_of_content
                intro vl hvl
                right
                obtain ⟨y0, hy0mem, hy0⟩ := List.all_eq_false.mp (by
                  rw [← Bool.not_eq_true]
                  exact hall)
                rw [firstIdx_append_not _ _ _ hnbmap] at hvl
                rw [show firstIdx LirOp.isBr (LirOp.BrBack ::
                    LirGen.passA (rest.drop (v + 1)).length (rest.drop (v + 1))) = some 0
                  from rfl] at hvl
                simp only [Option.map_some', Option.some.injEq] at hvl
                refine ⟨HirOp.toLir y0, ?_, ?_⟩
                · obtain ⟨k, hk, hky⟩ := List.getElem_of_mem hy0mem
                  have hky' : ((rest.take v).map HirOp.toLir)[k]? = some (HirOp.toLir y0) := by
                    rw [List.getElem?_map, List.getElem?_eq_getElem hk, hky]
                    rfl
                  have hklt : k < vl := by
                    rw [← hvl]
                    simp only [List.length_map]
                    omega
                  have hidx2 : ((rest.take v).map HirOp.toLir ++ LirOp.BrBack ::
                      LirGen.passA (rest.drop (v + 1)).length (rest.drop (v + 1)))[k]? =
                      some (HirOp.toLir y0) := by
                    rw [List.getElem?_append_left (by
                      simp only [List.length_map]
                      omega)]
                    exact hky'
                  have hmem : getElem? (((rest.take v).map HirOp.toLir ++ LirOp.BrBack ::
                      LirGen.passA (rest.drop (v + 1)).length (rest.drop (v + 1))).take vl)
                      k = some (HirOp.toLir y0) := by
                    rw [List.getElem?_take_of_lt hklt]
                    exact hidx2
                  exact List.getElem?_mem hmem
                · rw [toLir_isModMov]
                  simpa using hy0
              have hB : LirGen.passB ((LirGen.passA rest.length rest).length + 1)
                  (LirOp.BrFor :: LirGen.passA rest.length rest) =
                  LirOp.BrFor :: LirGen.passB (LirGen.passA rest.length rest).length
                    (LirGen.passA rest.length rest) := by
                simp [LirGen.passB, hlirnone]
              have hbrf' := hbrf
              rw [List.getD_eq_getElem?_getD] at hbrf'
              have hallf : (rest.take v).all HirOp.isModMov = false := by
                rw [← Bool.not_eq_true]
                exact hall
              have hcout : cOut (HirOp.BrFor :: rest) = [LirOp.BrFor] := by
                simp [cOut, hopt, hfi, hbrf', hallf]
              have hcstep : cStep (HirOp.BrFor :: rest) = 1 := by
                simp [cStep, hopt, hfi, hbrf', hallf]
              simp only [LirGen.gen_ir, List.length_cons]
              rw [hA]
              rw [show ∀ (z : LirOp) (X : List LirOp), (z :: X).length = X.length + 1 from
                fun z X => rfl]
              rw [hB, hcout, hcstep]
              rfl

theorem gen_ir_nil : LirGen.gen_ir [] = [] := rfl

theorem gen_ir_drop (h : List HirOp) :
    ∀ j, LirGen.gen_ir (h.drop (cIdx j h)) = (LirGen.gen_ir h).drop (oIdx j h) := by
  intro j
  induction j generalizing h with
  | zero => simp [cIdx, oIdx]
  | succ j ih =>
    by_cases hne : h = []
    · subst hne
      have hnil : ∀ k, List.drop (cIdx k ([] : List HirOp)) ([] : List HirOp) = [] := by
        intro k
        simp
      rw [hnil]
      simp [gen_ir_nil]
    · rw [cIdx_cons, oIdx_cons]
      rw [gen_ir_seg h hne]
      rw [← List.drop_drop]
      rw [ih (h.drop (cStep h))]
      rw [show List.drop ((cOut h).length + oIdx j (List.drop (cStep h) h))
          (cOut h ++ LirGen.gen_ir (List.drop (cStep h) h)) =
          List.drop (oIdx j (List.drop (cStep h) h))
            (LirGen.gen_ir (List.drop (cStep h) h)) from List.drop_append _]

theorem cCount_go_congr :
    ∀ (n : Nat) (h : List HirOp), h.length ≤ n → ∀ f1 f2, h.length ≤ f1 → h.length ≤ f2 →
      cCount.go f1 h = cCount.go f2 h := by
  intro n
  induction n with
  | zero =>
    intro h hn f1 f2 h1 h2
    have : h = [] := by
      cases h with
      | nil => rfl
      | cons a t => simp at hn
    subst this
    cases f1 <;> cases f2 <;> rfl
  | succ n ih =>
    intro h hn f1 f2 h1 h2
    cases h with
    | nil => cases f1 <;> cases f2 <;> rfl
    | cons op rest =>
      cases f1 with
      | zero => simp at h1
      | succ f1 =>
        cases f2 with
        | zero => simp at h2
        | succ f2 =>
          simp only [cCount.go]
          have hstep := cStep_pos (op :: rest)
          have hlen : ((op :: rest).drop (cStep (op :: rest))).length ≤ n := by
            rw [List.length_drop]
            simp only [List.length_cons] at hn
            simp only [List.length_cons]
            omega
          rw [ih _ hlen f1 f2 (by rw [List.length_drop]; simp only [List.length_cons] at h1 ⊢; omega)
            (by rw [List.length_drop]; simp only [List.length_cons] at h2 ⊢; omega)]

theorem cCount_seg (h : List HirOp) (hne : h ≠ []) :
    cCount h = 1 + cCount (h.drop (cStep h)) := by
  match h with
  | op :: rest =>
    show cCount.go (op :: rest).length (op :: rest) = _
    rw [show (op :: rest).length = rest.length + 1 from by simp]
    rw [show cCount.go (rest.length + 1) (op :: rest) =
      1 + cCount.go rest.length ((op :: rest).drop (cStep (op :: rest))) from rfl]
    congr 1
    have hstep := cStep_pos (op :: rest)
    apply cCount_go_congr ((op :: rest).drop (cStep (op :: rest))).length _ (le_refl _)
    · rw [List.length_drop]
      simp only [List.length_cons]
      omega
    · exact le_refl _

theorem cCount_nil : cCount ([] : List HirOp) = 0 := rfl

theorem drop_cIdx_ne_nil (h : List HirOp) :
    ∀ j, j < cCount h → h.drop (cIdx j h) ≠ [] := by
  intro j
  induction j generalizing h with
  | zero =>
    intro hj
    rw [show cIdx 0 h = 0 from rfl]
    intro hcon
    subst hcon
    simp [cCount_nil] at hj
  | succ j ih =>
    intro hj
    have hne : h ≠ [] := by
      intro hcon
      subst hcon
      simp [cCount_nil] at hj
    rw [cCount_seg h hne] at hj
    rw [cIdx_cons]
    rw [← List.drop_drop]
    exact ih (h.drop (cStep h)) (by omega)

theorem cIdx_succ_gt (h : List HirOp) (j : Nat) (hj : j < cCount h) :
    cIdx j h < cIdx (j + 1) h := by
  induction j generalizing h with
  | zero =>
    rw [show cIdx 0 h = 0 from rfl, cIdx_cons, show cIdx 0 (h.drop (cStep h)) = 0 from rfl]
    have := cStep_pos h
    omega
  | succ j ih =>
    have hne : h ≠ [] := by
      intro hcon
      subst hcon
      simp [cCount_nil] at hj
    rw [cCount_seg h hne] at hj
    rw [cIdx_cons, cIdx_cons]
    have := ih (h.drop (cStep h)) (by omega)
    omega

theorem cIdx_strictMono (h : List HirOp) :
    ∀ j k, j < k → k ≤ cCount h → cIdx j h < cIdx k h := by
  intro j k
  induction k with
  | zero => omega
  | succ k ih =>
    intro hjk hk
    rcases Nat.lt_or_ge j k with hlt | hge
    · have h1 := ih hlt (by omega)
      have h2 := cIdx_succ_gt h k (by omega)
      omega
    · have hEq : j = k := by omega
      subst hEq
      exact cIdx_succ_gt h j (by omega)

theorem cIdx_inj (h : List HirOp) (j k : Nat) (hj : j ≤ cCount h) (hk : k ≤ cCount h)
    (hEq : cIdx j h = cIdx k h) : j = k := by
  rcases Nat.lt_trichotomy j k with hlt | he | hgt
  · have := cIdx_strictMono h j k hlt hk
    omega
  · exact he
  · have := cIdx_strictMono h k j hgt hj
    omega

theorem oIdx_succ_gt (h : List HirOp) (j : Nat) (hj : j < cCount h) :
    oIdx j h < oIdx (j + 1) h := by
  induction j generalizing h with
  | zero =>
    have hne : h ≠ [] := by
      intro hcon
      subst hcon
      simp [cCount_nil] at hj
    rw [show oIdx 0 h = 0 from rfl, oIdx_cons, show oIdx 0 (h.drop (cStep h)) = 0 from rfl]
    have := cOut_ne_nil h hne
    cases hc : cOut h with
    | nil => exact absurd hc this
    | cons a t => simp
  | succ j ih =>
    have hne : h ≠ [] := by
      intro hcon
      subst hcon
      simp [cCount_nil] at hj
    rw [cCount_seg h hne] at hj
    rw [oIdx_cons, oIdx_cons]
    have := ih (h.drop (cStep h)) (by omega)
    omega

theorem oIdx_strictMono (h : List HirOp) :
    ∀ j k, j < k → k ≤ cCount h → oIdx j h < oIdx k h := by
  intro j k
  induction k with
  | zero => omega
  | succ k ih =>
    intro hjk hk
    rcases Nat.lt_or_ge j k with hlt | hge
    · have h1 := ih hlt (by omega)
      have h2 := oIdx_succ_gt h k (by omega)
      omega
    · have hEq : j = k := by omega
      subst hEq
      exact oIdx_succ_gt h j (by omega)

theorem oIdx_inj (h : List HirOp) (j k : Nat) (hj : j ≤ cCount h) (hk : k ≤ cCount h)
    (hEq : oIdx j h = oIdx k h) : j = k := by
  rcases Nat.lt_trichotomy j k with hlt | he | hgt
  · have := oIdx_strictMono h j k hlt hk
    omega
  · exact he
  · have := oIdx_strictMono h k j hgt hj
    omega

theorem cIdx_add (h : List HirOp) (j k : Nat) :
    cIdx (j + k) h = cIdx j h + cIdx k (h.drop (cIdx j h)) := by
  induction j generalizing h with
  | zero => simp [cIdx]
  | succ j ih =>
    rw [show j + 1 + k = (j + k) + 1 from by omega, cIdx_cons, cIdx_cons, ih]
    rw [← List.drop_drop]
    omega

theorem oIdx_add (h : List HirOp) (j k : Nat) :
    oIdx (j + k) h = oIdx j h + oIdx k (h.drop (cIdx j h)) := by
  induction j generalizing h with
  | zero => simp [cIdx, oIdx]
  | succ j ih =>
    rw [show j + 1 + k = (j + k) + 1 from by omega, oIdx_cons, oIdx_cons, cIdx_cons, ih]
    rw [← List.drop_drop]
    omega

theorem cseg_cases (u : List HirOp) (hne : u ≠ []) :
    (∃ op rest, u = op :: rest ∧ HirOp.isOpen op = false ∧
      cStep u = 1 ∧ cOut u = [HirOp.toLir op]) ∨
    (∃ rest, u = HirOp.BrFor :: rest ∧ cStep u = 1 ∧ cOut u = [LirOp.BrFor]) ∨
    (∃ body rest' opt, u = HirOp.BrFor :: (body ++ HirOp.BrBack :: rest') ∧
      (∀ y ∈ body, HirOp.isBr y = false) ∧
      cStep u = body.length + 2 ∧ cOut u = [opt] ∧
      LirOp.isBr opt = false ∧ LirOp.classify opt = OpClass.plain ∧
      ((∃ d, body = [HirOp.Modify d] ∧ opt = LirOp.WriteZero) ∨
       (∃ d, body = [HirOp.Move d] ∧ opt = LirOp.Hop d) ∨
       (∃ d, body = [HirOp.Modify (-1), HirOp.Move d, HirOp.Modify 1, HirOp.Move (-d)] ∧
        opt = LirOp.MoveCell d))) ∨
    (∃ body rest', u = HirOp.BrFor :: (body ++ HirOp.BrBack :: rest') ∧
      (∀ y ∈ body, HirOp.isModMov y = true) ∧
      cStep u = body.length + 2 ∧
      cOut u = [LirOp.BrFor,
        LirOp.CnstMovSet (LirGen.simBody (body.map HirOp.toLir) 0 []).2,
        LirOp.Move (LirGen.simBody (body.map HirOp.toLir) 0 []).1, LirOp.BrBack]) := by
  match u with
  | op :: rest =>
    cases op
    case Modify d => exact Or.inl ⟨HirOp.Modify d, rest, rfl, rfl, rfl, rfl⟩
    case Move d => exact Or.inl ⟨HirOp.Move d, rest, rfl, rfl, rfl, rfl⟩
    case In => exact Or.inl ⟨HirOp.In, rest, rfl, rfl, rfl, rfl⟩
    case Out => exact Or.inl ⟨HirOp.Out, rest, rfl, rfl, rfl, rfl⟩
    case BrBack => exact Or.inl ⟨HirOp.BrBack, rest, rfl, rfl, rfl, rfl⟩
    case BrFor =>
      cases hopt : LirGen.try_opt_simple_hir_loop (HirOp.BrFor :: rest) with
      | some os =>
        obtain ⟨opt, skip⟩ := os
        obtain ⟨v, hfi, hnfor, hskip, hpat⟩ := try_opt_cases _ _ _ hopt
        rw [show (HirOp.BrFor :: rest).drop 1 = rest from rfl] at hfi hnfor hpat
        have hvlen : v < rest.length := firstIdx_lt_length _ _ _ hfi
        obtain ⟨br, hbr, hbrbr⟩ := firstIdx_found _ _ _ hfi
        have hgetD : rest.getD v HirOp.BrBack = br := getD_of_getElem _ _ _ _ hbr
        have hbrback : br = HirOp.BrBack := by
          rw [hgetD] at hnfor
          cases br
          case BrBack => rfl
          case BrFor => exact absurd rfl hnfor
          all_goals exact absurd hbrbr (by simp [HirOp.isBr, HirOp.isOpen, HirOp.isClose])
        subst hbrback
        have hdropv : rest.drop v = HirOp.BrBack :: rest.drop (v + 1) :=
          drop_eq_cons_of_getElem rest v HirOp.BrBack hbr
        have hsplit : rest = rest.take v ++ HirOp.BrBack :: rest.drop (v + 1) := by
          conv_lhs => rw [← List.take_append_drop v rest]
          rw [hdropv]
        have hw1len : (rest.take v).length = v := by
          rw [List.length_take]
          omega
        have hnbr1 : ∀ y ∈ rest.take v, HirOp.isBr y = false := by
          intro y hy
          obtain ⟨k, hk, hky⟩ := List.getElem_of_mem hy
          have hkv : k < v := by omega
          have hky' : rest[k]? = some y := by
            have h1 : (rest.take v)[k]? = some y := by
              rw [List.getElem?_eq_getElem hk, hky]
            rw [List.getElem?_take_of_lt hkv] at h1
            exact h1
          exact firstIdx_min HirOp.isBr rest v hfi k hkv y hky'
        refine Or.inr (Or.inr (Or.inl ⟨rest.take v, rest.drop (v + 1), opt, ?_, hnbr1,
          ?_, ?_, ?_, ?_, ?_⟩))
        · rw [← hsplit]
        · rw [show cStep (HirOp.BrFor :: rest) =
            match LirGen.try_opt_simple_hir_loop (HirOp.BrFor :: rest) with
            | some (_, skip) => skip + 1
            | none =>
              match firstIdx HirOp.isBr rest with
              | none => 1
              | some v =>
                if rest.getD v HirOp.BrBack = HirOp.BrFor then 1
                else if (rest.take v).all HirOp.isModMov then v + 2
                else 1 from rfl, hopt]
          show skip + 1 = (rest.take v).length + 2
          rw [hw1len, hskip]
        · rw [show cOut (HirOp.BrFor :: rest) =
            match LirGen.try_opt_simple_hir_loop (HirOp.BrFor :: rest) with
            | some (opt, _) => [opt]
            | none =>
              match firstIdx HirOp.isBr rest with
              | none => [LirOp.BrFor]
              | some v =>
                if rest.getD v HirOp.BrBack = HirOp.BrFor then [LirOp.BrFor]
                else if (rest.take v).all HirOp.isModMov then
                  [LirOp.BrFor,
                    LirOp.CnstMovSet (LirGen.simBody ((rest.take v).map HirOp.toLir) 0 []).2,
                    LirOp.Move (LirGen.simBody ((rest.take v).map HirOp.toLir) 0 []).1,
                    LirOp.BrBack]
                else [LirOp.BrFor] from rfl, hopt]
        · rcases hpat with ⟨d, -, rfl⟩ | ⟨d, -, rfl⟩ | ⟨d, -, rfl⟩ <;> rfl
        · rcases hpat with ⟨d, -, rfl⟩ | ⟨d, -, rfl⟩ | ⟨d, -, rfl⟩ <;> rfl
        · exact hpat
      | none =>
        cases hfi : firstIdx HirOp.isBr rest with
        | none =>
          refine Or.inr (Or.inl ⟨rest, rfl, ?_, ?_⟩)
          · simp [cStep, hopt, hfi]
          · simp [cOut, hopt, hfi]
        | some v =>
          have hvlen : v < rest.length := firstIdx_lt_length _ _ _ hfi
          obtain ⟨br, hbr, hbrbr⟩ := firstIdx_found _ _ _ hfi
          have hgetD : rest.getD v HirOp.BrBack = br := getD_of_getElem _ _ _ _ hbr
          by_cases hbrf : rest.getD v HirOp.BrBack = HirOp.BrFor
          · have hbrf' := hbrf
            rw [List.getD_eq_getElem?_getD] at hbrf'
            refine Or.inr (Or.inl ⟨rest, rfl, ?_, ?_⟩)
            · simp [cStep, hopt, hfi, hbrf']
            · simp [cOut, hopt, hfi, hbrf']
          · have hbrback : br = HirOp.BrBack := by
              rw [hgetD] at hbrf
              cases br
              case BrBack => rfl
              case BrFor => exact absurd rfl hbrf
              all_goals exact absurd hbrbr (by simp [HirOp.isBr, HirOp.isOpen, HirOp.isClose])
            subst hbrback
            have hbrf' := hbrf
            rw [List.getD_eq_getElem?_getD] at hbrf'
            have hdropv : rest.drop v = HirOp.BrBack :: rest.drop (v + 1) :=
              drop_eq_cons_of_getElem rest v HirOp.BrBack hbr
            have hsplit : rest = rest.take v ++ HirOp.BrBack :: rest.drop (v + 1) := by
              conv_lhs => rw [← List.take_append_drop v rest]
              rw [hdropv]
            have hw1len : (rest.take v).length = v := by
              rw [List.length_take]
              omega
            by_cases hall : (rest.take v).all HirOp.isModMov
            · refine Or.inr (Or.inr (Or.inr ⟨rest.take v, rest.drop (v + 1), ?_,
                List.all_eq_true.mp hall, ?_, ?_⟩))
              · rw [← hsplit]
              · rw [show cStep (HirOp.BrFor :: rest) =
                  match LirGen.try_opt_simple_hir_loop (HirOp.BrFor :: rest) with
                  | some (_, skip) => skip + 1
                  | none =>
                    match firstIdx HirOp.isBr rest with
                    | none => 1
                    | some v =>
                      if rest.getD v HirOp.BrBack = HirOp.BrFor then 1
                      else if (rest.take v).all HirOp.isModMov then v + 2
                      else 1 from rfl, hopt, hfi]
                simp only [hbrf, if_false, hall, if_true, hw1len]
              · rw [show cOut (HirOp.BrFor :: rest) =
                  match LirGen.try_opt_simple_hir_loop (HirOp.BrFor :: rest) with
                  | some (opt, _) => [opt]
                  | none =>
                    match firstIdx HirOp.isBr rest with
                    | none => [LirOp.BrFor]
                    | some v =>
                      if rest.getD v HirOp.BrBack = HirOp.BrFor then [LirOp.BrFor]
                      else if (rest.take v).all HirOp.isModMov then
                        [LirOp.BrFor,
                          LirOp.CnstMovSet
                            (LirGen.simBody ((rest.take v).map HirOp.toLir) 0 []).2,
                          LirOp.Move (LirGen.simBody ((rest.take v).map HirOp.toLir) 0 []).1,
                          LirOp.BrBack]
                      else [LirOp.BrFor] from rfl, hopt, hfi]
                simp only [hbrf, if_false, hall, if_true]
            · have hallf : (rest.take v).all HirOp.isModMov = false := by
                rw [← Bool.not_eq_true]
                exact hall
              refine Or.inr (Or.inl ⟨rest, rfl, ?_, ?_⟩)
              · simp [cStep, hopt, hfi, hbrf', hallf]
              · simp [cOut, hopt, hfi, hbrf', hallf]

theorem toLir_isOpen (y : HirOp) : LirOp.isOpen (HirOp.toLir y) = HirOp.isOpen y := by
  cases y <;> rfl

theorem toLir_isClose (y : HirOp) : LirOp.isClose (HirOp.toLir y) = HirOp.isClose y := by
  cases y <;> rfl

theorem scanAux_chunk (isOp isCl : α → Bool) (opb clb : α) (body u' : List α) (d : Nat)
    (hob : isOp opb = true) (hcob : isCl opb = false) (hcc : isCl clb = true)
    (hbody : ∀ y ∈ body, isOp y = false ∧ isCl y = false) :
    scanAux isOp isCl d (opb :: (body ++ clb :: u')) =
      (scanAux isOp isCl d u').map (· + (body.length + 2)) := by
  rw [scanAux_cons_open _ _ _ _ _ hcob hob]
  rw [scanAux_append_nobr _ _ _ _ _ (fun y hy =>
    ⟨(hbody y hy).1, (hbody y hy).2⟩)]
  rw [scanAux_cons_close_succ _ _ _ _ _ hcc]
  cases scanAux isOp isCl d u' with
  | none => simp
  | some r =>
    simp only [Option.map_some', Option.some.injEq]
    omega

theorem cStep_le (u : List HirOp) (hne : u ≠ []) : cStep u ≤ u.length := by
  rcases cseg_cases u hne with
    ⟨op, rest, rfl, -, hstep, -⟩ | ⟨rest, rfl, hstep, -⟩ |
    ⟨body, rest', opt, rfl, -, hstep, -⟩ | ⟨body, rest', rfl, -, hstep, -⟩ <;>
    rw [hstep] <;> simp <;> omega

theorem c_partition (n : Nat) :
    ∀ (h : List HirOp), h.length ≤ n → ∀ p, p < h.length →
      ∃ j, j < cCount h ∧ cIdx j h ≤ p ∧ p < cIdx (j + 1) h := by
  induction n with
  | zero =>
    intro h hn p hp
    omega
  | succ n ih =>
    intro h hn p hp
    have hne : h ≠ [] := by
      intro hcon
      subst hcon
      simp at hp
    by_cases hps : p < cStep h
    · refine ⟨0, ?_, by simp [cIdx], ?_⟩
      · rw [cCount_seg h hne]
        omega
      · rw [cIdx_cons]
        simp only [cIdx]
        omega
    · push_neg at hps
      have hpos := cStep_pos h
      have hlen : (h.drop (cStep h)).length ≤ n := by
        rw [List.length_drop]
        omega
      have hp' : p - cStep h < (h.drop (cStep h)).length := by
        rw [List.length_drop]
        omega
      obtain ⟨j, hj1, hj2, hj3⟩ := ih (h.drop (cStep h)) hlen (p - cStep h) hp'
      refine ⟨j + 1, ?_, ?_, ?_⟩
      · rw [cCount_seg h hne]
        omega
      · rw [cIdx_cons]
        omega
      · rw [cIdx_cons]
        omega

theorem interior_no_open (u : List HirOp) (hne : u ≠ []) (q : Nat) (hq0 : 0 < q)
    (hqs : q < cStep u) (y : HirOp) (hy : u[q]? = some y) : y ≠ HirOp.BrFor := by
  rcases cseg_cases u hne with
    ⟨op, rest, rfl, -, hstep, -⟩ | ⟨rest, rfl, hstep, -⟩ |
    ⟨body, rest', opt, hu, hnb, hstep, -⟩ | ⟨body, rest', hu, hmm, hstep, -⟩
  · omega
  · omega
  · rw [hstep] at hqs
    subst hu
    rw [show (HirOp.BrFor :: (body ++ HirOp.BrBack :: rest'))[q]? =
      (body ++ HirOp.BrBack :: rest')[q - 1]? from by
        cases q with
        | zero => omega
        | succ q => simp] at hy
    by_cases hqb : q - 1 < body.length
    · rw [List.getElem?_append_left hqb] at hy
      have := hnb y (List.getElem?_mem hy)
      intro hcon
      subst hcon
      simp [HirOp.isBr, HirOp.isOpen] at this
    · have hqe : q - 1 = body.length := by omega
      rw [hqe, getElem_append_length] at hy
      simp only [List.getElem?_cons_zero, Option.some.injEq] at hy
      subst hy
      intro hcon
      exact HirOp.noConfusion hcon
  · rw [hstep] at hqs
    subst hu
    rw [show (HirOp.BrFor :: (body ++ HirOp.BrBack :: rest'))[q]? =
      (body ++ HirOp.BrBack :: rest')[q - 1]? from by
        cases q with
        | zero => omega
        | succ q => simp] at hy
    by_cases hqb : q - 1 < body.length
    · rw [List.getElem?_append_left hqb] at hy
      have := hmm y (List.getElem?_mem hy)
      intro hcon
      subst hcon
      simp [HirOp.isModMov] at this
    · have hqe : q - 1 = body.length := by omega
      rw [hqe, getElem_append_length] at hy
      simp only [List.getElem?_cons_zero, Option.some.injEq] at hy
      subst hy
      intro hcon
      exact HirOp.noConfusion hcon

theorem chunk_drop_cStep (body rest' : List HirOp) (k : Nat)
    (hk : k = body.length + 2) :
    (HirOp.BrFor :: (body ++ HirOp.BrBack :: rest')).drop k = rest' := by
  subst hk
  rw [show body.length + 2 = body.length + 1 + 1 from rfl]
  rw [show (HirOp.BrFor :: (body ++ HirOp.BrBack :: rest')).drop (body.length + 1 + 1) =
    (body ++ HirOp.BrBack :: rest').drop (body.length + 1) from rfl]
  rw [List.drop_append 1]
  rfl

theorem scan_commute_gen :
    ∀ (n : Nat) (u : List HirOp), u.length ≤ n → ∀ d r,
      scanAux HirOp.isOpen HirOp.isClose d u = some r →
      ∃ k r', scanAux LirOp.isOpen LirOp.isClose d (LirGen.gen_ir u) = some r' ∧
        r + 1 = cIdx k u ∧ r' + 1 = oIdx k u := by
  intro n
  induction n with
  | zero =>
    intro u hu d r hscan
    match u with
    | [] => simp [scanAux] at hscan
  | succ n ih =>
    intro u hu d r hscan
    have hne : u ≠ [] := by
      intro hcon
      subst hcon
      simp [scanAux] at hscan
    rcases cseg_cases u hne with
      ⟨op, rest, hueq, hnop, hstep, hout⟩ | ⟨rest, hueq, hstep, hout⟩ |
      ⟨body, rest', opt, hueq, hnb, hstep, hout, hoptbr, hoptcl, hpat⟩ |
      ⟨body, rest', hueq, hmm, hstep, hout⟩
    · -- single op, not an open bracket
      have hgen : LirGen.gen_ir u = HirOp.toLir op :: LirGen.gen_ir rest := by
        rw [gen_ir_seg u hne, hout, hstep, hueq]
        rfl
      by_cases hcl : HirOp.isClose op = true
      · -- a close bracket
        have hclL : LirOp.isClose (HirOp.toLir op) = true := by
          rw [toLir_isClose]
          exact hcl
        rcases d with _ | s
        · rw [hueq, scanAux_cons_close_zero _ _ _ _ hcl] at hscan
          obtain rfl : r = 0 := by simpa using hscan.symm
          refine ⟨1, 0, ?_, ?_, ?_⟩
          · rw [hgen, scanAux_cons_close_zero _ _ _ _ hclL]
          · rw [show cIdx 1 u = cStep u + cIdx 0 (u.drop (cStep u)) from rfl, hstep]
            rfl
          · rw [show oIdx 1 u = (cOut u).length + oIdx 0 (u.drop (cStep u)) from rfl, hout]
            rfl
        · rw [hueq, scanAux_cons_close_succ _ _ _ _ _ hcl] at hscan
          obtain ⟨r0, hr0, rfl⟩ := Option.map_eq_some'.mp hscan
          obtain ⟨k0, r0', hr0', hk1, hk2⟩ := ih rest (by rw [hueq] at hu; simpa using hu)
            s r0 hr0
          refine ⟨k0 + 1, r0' + 1, ?_, ?_, ?_⟩
          · rw [hgen, scanAux_cons_close_succ _ _ _ _ _ hclL, hr0']
            rfl
          · rw [cIdx_cons, hstep, show u.drop 1 = rest from by rw [hueq]; rfl]
            omega
          · rw [oIdx_cons, hout, hstep, show u.drop 1 = rest from by rw [hueq]; rfl]
            simp only [List.length_cons, List.length_nil]
            omega
      · -- plain op on both sides
        have hclf : HirOp.isClose op = false := by simpa using hcl
        have hclL : LirOp.isClose (HirOp.toLir op) = false := by
          rw [toLir_isClose]
          exact hclf
        have hopL : LirOp.isOpen (HirOp.toLir op) = false := by
          rw [toLir_isOpen]
          exact hnop
        rw [hueq, scanAux_cons_other _ _ _ _ _ hclf hnop] at hscan
        obtain ⟨r0, hr0, rfl⟩ := Option.map_eq_some'.mp hscan
        obtain ⟨k0, r0', hr0', hk1, hk2⟩ := ih rest (by rw [hueq] at hu; simpa using hu)
          d r0 hr0
        refine ⟨k0 + 1, r0' + 1, ?_, ?_, ?_⟩
        · rw [hgen, scanAux_cons_other _ _ _ _ _ hclL hopL, hr0']
          rfl
        · rw [cIdx_cons, hstep, show u.drop 1 = rest from by rw [hueq]; rfl]
          omega
        · rw [oIdx_cons, hout, hstep, show u.drop 1 = rest from by rw [hueq]; rfl]
          simp only [List.length_cons, List.length_nil]
          omega
    · -- kept BrFor
      have hgen : LirGen.gen_ir u = LirOp.BrFor :: LirGen.gen_ir rest := by
        rw [gen_ir_seg u hne, hout, hstep, hueq]
        rfl
      rw [hueq, scanAux_cons_open _ _ _ _ _ rfl rfl] at hscan
      obtain ⟨r0, hr0, rfl⟩ := Option.map_eq_some'.mp hscan
      obtain ⟨k0, r0', hr0', hk1, hk2⟩ := ih rest (by rw [hueq] at hu; simpa using hu)
        (d + 1) r0 hr0
      refine ⟨k0 + 1, r0' + 1, ?_, ?_, ?_⟩
      · rw [hgen, scanAux_cons_open _ _ _ _ _ rfl rfl, hr0']
        rfl
      · rw [cIdx_cons, hstep, show u.drop 1 = rest from by rw [hueq]; rfl]
        omega
      · rw [oIdx_cons, hout, hstep, show u.drop 1 = rest from by rw [hueq]; rfl]
        simp only [List.length_cons, List.length_nil]
        omega
    · -- collapsed simple loop
      have hdrop : u.drop (body.length + 2) = rest' := by
        rw [hueq]
        exact chunk_drop_cStep body rest' _ rfl
      have hgen : LirGen.gen_ir u = opt :: LirGen.gen_ir rest' := by
        rw [gen_ir_seg u hne, hout, hstep, hdrop]
        rfl
      rw [hueq, scanAux_chunk _ _ _ _ _ _ _ rfl rfl rfl (fun y hy => by
        have := hnb y hy
        cases y <;> simp_all [HirOp.isBr, HirOp.isOpen, HirOp.isClose])] at hscan
      obtain ⟨r0, hr0, rfl⟩ := Option.map_eq_some'.mp hscan
      have hlen' : rest'.length ≤ n := by
        rw [hueq] at hu
        simp only [List.length_cons, List.length_append] at hu
        omega
      obtain ⟨k0, r0', hr0', hk1, hk2⟩ := ih rest' hlen' d r0 hr0
      have hoptcl' : LirOp.isClose opt = false := by
        cases opt <;> simp_all [LirOp.isBr, LirOp.isOpen, LirOp.isClose]
      have hoptop' : LirOp.isOpen opt = false := by
        cases opt <;> simp_all [LirOp.isBr, LirOp.isOpen, LirOp.isClose]
      refine ⟨k0 + 1, r0' + 1, ?_, ?_, ?_⟩
      · rw [hgen, scanAux_cons_other _ _ _ _ _ hoptcl' hoptop', hr0']
        rfl
      · rw [cIdx_cons, hstep, hdrop]
        omega
      · rw [oIdx_cons, hout, hstep, hdrop]
        simp only [List.length_cons, List.length_nil]
        omega
    · -- loop folded to a CnstMovSet block
      have hdrop : u.drop (body.length + 2) = rest' := by
        rw [hueq]
        exact chunk_drop_cStep body rest' _ rfl
      have hgen : LirGen.gen_ir u =
          LirOp.BrFor :: ((LirOp.CnstMovSet (LirGen.simBody (body.map HirOp.toLir) 0 []).2 ::
            [LirOp.Move (LirGen.simBody (body.map HirOp.toLir) 0 []).1]) ++
            LirOp.BrBack :: LirGen.gen_ir rest') := by
        rw [gen_ir_seg u hne, hout, hstep, hdrop]
        rfl
      rw [hueq, scanAux_chunk _ _ _ _ _ _ _ rfl rfl rfl (fun y hy => by
        have := hmm y hy
        cases y <;> simp_all [HirOp.isModMov, HirOp.isOpen, HirOp.isClose])] at hscan
      obtain ⟨r0, hr0, rfl⟩ := Option.map_eq_some'.mp hscan
      have hlen' : rest'.length ≤ n := by
        rw [hueq] at hu
        simp only [List.length_cons, List.length_append] at hu
        omega
      obtain ⟨k0, r0', hr0', hk1, hk2⟩ := ih rest' hlen' d r0 hr0
      refine ⟨k0 + 1, r0' + 4, ?_, ?_, ?_⟩
      · rw [hgen, scanAux_chunk _ _ _ _ _ _ _ rfl rfl rfl (by
          intro y hy
          rcases List.mem_cons.mp hy with rfl | hy2
          · exact ⟨rfl, rfl⟩
          · rcases List.mem_singleton.mp hy2 with rfl
            exact ⟨rfl, rfl⟩), hr0']
        rfl
      · rw [cIdx_cons, hstep, hdrop]
        omega
      · rw [oIdx_cons, hout, hstep, hdrop]
        simp only [List.length_cons, List.length_nil]
        omega

theorem StEq_refl (a : ExecSt) : StEq a a := ⟨rfl, rfl, rfl, fun _ => rfl⟩

theorem StEq_readCur (a b : ExecSt) (h : StEq a b) : a.readCur = b.readCur := by
  obtain ⟨hpos, -, -, hcells⟩ := h
  unfold ExecSt.readCur BrainfuckState.read_cur_cell
  rw [hpos]
  exact hcells b.st.pos

theorem whileRun_mono (readC : σ → Nat) (eff : σ → Option σ) :
    ∀ f s t, whileRun readC eff f s = some t → whileRun readC eff (f + 1) s = some t := by
  intro f
  induction f with
  | zero =>
    intro s t h
    simp [whileRun] at h
  | succ f ih =>
    intro s t h
    rw [show whileRun readC eff (f + 1) s =
      if 0 < readC s then (eff s).bind (whileRun readC eff f) else some s from rfl] at h
    rw [show whileRun readC eff (f + 1 + 1) s =
      if 0 < readC s then (eff s).bind (whileRun readC eff (f + 1)) else some s from rfl]
    by_cases hc : 0 < readC s
    · rw [if_pos hc] at h ⊢
      cases he : eff s with
      | none =>
        rw [he] at h
        exact absurd h (by simp)
      | some s1 =>
        rw [he] at h
        simp only [Option.some_bind] at h ⊢
        exact ih s1 t h
    · rw [if_neg hc] at h ⊢
      exact h

theorem whileRun_le (readC : σ → Nat) (eff : σ → Option σ) (f f' : Nat) (hf : f ≤ f') :
    ∀ s t, whileRun readC eff f s = some t → whileRun readC eff f' s = some t := by
  induction f' with
  | zero =>
    intro s t h
    have : f = 0 := by omega
    subst this
    exact h
  | succ f' ih =>
    intro s t h
    rcases Nat.lt_or_ge f (f' + 1) with hlt | hge
    · exact whileRun_mono readC eff f' s t (ih (by omega) s t h)
    · have : f = f' + 1 := by omega
      subst this
      exact h

theorem whileRun_post (readC : σ → Nat) (eff : σ → Option σ) :
    ∀ f s t, whileRun readC eff f s = some t → readC t = 0 := by
  intro f
  induction f with
  | zero =>
    intro s t h
    simp [whileRun] at h
  | succ f ih =>
    intro s t h
    rw [show whileRun readC eff (f + 1) s =
      if 0 < readC s then (eff s).bind (whileRun readC eff f) else some s from rfl] at h
    by_cases hc : 0 < readC s
    · rw [if_pos hc] at h
      cases he : eff s with
      | none =>
        rw [he] at h
        exact absurd h (by simp)
      | some s1 =>
        rw [he] at h
        simp only [Option.some_bind] at h
        exact ih s1 t h
    · rw [if_neg hc] at h
      obtain rfl : s = t := by simpa using h
      omega

theorem whileRun_inv (readC : σ → Nat) (eff : σ → Option σ) (Q : σ → Prop)
    (hQ : ∀ x y, Q x → eff x = some y → Q y) :
    ∀ f s t, Q s → whileRun readC eff f s = some t → Q t := by
  intro f
  induction f with
  | zero =>
    intro s t hs h
    simp [whileRun] at h
  | succ f ih =>
    intro s t hs h
    rw [show whileRun readC eff (f + 1) s =
      if 0 < readC s then (eff s).bind (whileRun readC eff f) else some s from rfl] at h
    by_cases hc : 0 < readC s
    · rw [if_pos hc] at h
      cases he : eff s with
      | none =>
        rw [he] at h
        exact absurd h (by simp)
      | some s1 =>
        rw [he] at h
        simp only [Option.some_bind] at h
        exact ih s1 t (hQ s s1 hs he) h
    · rw [if_neg hc] at h
      obtain rfl : s = t := by simpa using h
      exact hs

theorem whileRun_never (readC : σ → Nat) (eff : σ → Option σ) (Q : σ → Prop)
    (hQ : ∀ x, Q x → 0 < readC x ∧ ∀ y, eff x = some y → Q y) :
    ∀ f s t, Q s → whileRun readC eff f s ≠ some t := by
  intro f
  induction f with
  | zero =>
    intro s t hs h
    simp [whileRun] at h
  | succ f ih =>
    intro s t hs h
    rw [show whileRun readC eff (f + 1) s =
      if 0 < readC s then (eff s).bind (whileRun readC eff f) else some s from rfl] at h
    rw [if_pos (hQ s hs).1] at h
    cases he : eff s with
    | none =>
      rw [he] at h
      exact absurd h (by simp)
    | some s1 =>
      rw [he] at h
      simp only [Option.some_bind] at h
      exact ih s1 t ((hQ s hs).2 s1 he) h

theorem whileRun_rel (readC : σ → Nat) (readC' : τ → Nat)
    (eff : σ → Option σ) (eff' : τ → Option τ) (R : σ → τ → Prop)
    (hread : ∀ a b, R a b → readC a = readC' b)
    (heff : ∀ a b a', R a b → eff a = some a' → ∃ b', eff' b = some b' ∧ R a' b') :
    ∀ f a b t, R a b → whileRun readC eff f a = some t →
      ∃ t', whileRun readC' eff' f b = some t' ∧ R t t' := by
  intro f
  induction f with
  | zero =>
    intro a b t hR h
    simp [whileRun] at h
  | succ f ih =>
    intro a b t hR h
    rw [show whileRun readC eff (f + 1) a =
      if 0 < readC a then (eff a).bind (whileRun readC eff f) else some a from rfl] at h
    rw [show whileRun readC' eff' (f + 1) b =
      if 0 < readC' b then (eff' b).bind (whileRun readC' eff' f) else some b from rfl]
    rw [← hread a b hR]
    by_cases hc : 0 < readC a
    · rw [if_pos hc] at h ⊢
      cases he : eff a with
      | none =>
        rw [he] at h
        exact absurd h (by simp)
      | some a1 =>
        rw [he] at h
        simp only [Option.some_bind] at h
        obtain ⟨b1, hb1, hR1⟩ := heff a b a1 hR he
        rw [hb1]
        simp only [Option.some_bind]
        exact ih a1 b1 t hR1 h
    · rw [if_neg hc] at h ⊢
      obtain rfl : a = t := by simpa using h
      exact ⟨b, rfl, hR⟩

theorem runG_plain_none (classify : α → OpClass) (readC : σ → Nat)
    (eff : Nat → α → σ → Option σ) (prog : List α) (table : List Nat)
    (fuel ip : Nat) (s : σ) (op : α) (hip : prog[ip]? = some op)
    (hcl : classify op = OpClass.plain) (heff : eff fuel op s = none) :
    runG classify readC eff prog table (fuel + 1) ip s = none := by
  simp [runG, hip, hcl, heff]

theorem runG_straightline_extract (classify : α → OpClass) (readC : σ → Nat)
    (eff : Nat → α → σ → Option σ) (prog : List α) (table : List Nat) :
    ∀ (body t : List α) (f ip : Nat) (s res : σ),
      prog.drop ip = body ++ t →
      (∀ y ∈ body, classify y = OpClass.plain) →
      (∀ f1 f2 y s1, y ∈ body → eff f1 y s1 = eff f2 y s1) →
      runG classify readC eff prog table f ip s = some res →
      ∃ f' s', f = f' + body.length ∧ seqEff eff body s = some s' ∧
        runG classify readC eff prog table f' (ip + body.length) s' = some res := by
  intro body
  induction body with
  | nil =>
    intro t f ip s res hdrop hplain hind hrun
    exact ⟨f, s, rfl, rfl, hrun⟩
  | cons op bd ih =>
    intro t f ip s res hdrop hplain hind hrun
    have hip : prog[ip]? = some op := by
      have h0 : (prog.drop ip)[0]? = some op := by
        rw [hdrop]
        simp
      rw [List.getElem?_drop] at h0
      simpa using h0
    have hdrop' : prog.drop (ip + 1) = bd ++ t := by
      rw [← List.drop_drop, hdrop]
      rfl
    cases f with
    | zero => simp [runG] at hrun
    | succ f =>
      cases he : eff f op s with
      | none =>
        rw [runG_plain_none classify readC eff prog table f ip s op hip
          (hplain op (by simp)) he] at hrun
        exact absurd hrun (by simp)
      | some s1 =>
        rw [runG_plain_step classify readC eff prog table f ip s s1 op hip
          (hplain op (by simp)) he] at hrun
        obtain ⟨f', s', hf, hseq, hcont⟩ := ih t f (ip + 1) s1 res hdrop'
          (fun y hy => hplain y (by simp [hy])) (fun f1 f2 y s2 hy => hind f1 f2 y s2 (by simp [hy])) hrun
        refine ⟨f', s', by simp only [List.length_cons]; omega, ?_, ?_⟩
        · rw [show seqEff eff (op :: bd) s =
            match eff 0 op s with
            | none => none
            | some s2 => seqEff eff bd s2 from rfl]
          rw [hind 0 f op s (by simp), he]
          exact hseq
        · rw [show ip + (op :: bd).length = ip + 1 + bd.length from by
            simp only [List.length_cons]; omega]
          exact hcont

theorem runG_straightline_construct (classify : α → OpClass) (readC : σ → Nat)
    (eff : Nat → α → σ → Option σ) (prog : List α) (table : List Nat) :
    ∀ (body t : List α) (f ip : Nat) (s s' : σ),
      prog.drop ip = body ++ t →
      (∀ y ∈ body, classify y = OpClass.plain) →
      (∀ f1 f2 y s1, y ∈ body → eff f1 y s1 = eff f2 y s1) →
      seqEff eff body s = some s' →
      runG classify readC eff prog table (f + body.length) ip s =
        runG classify readC eff prog table f (ip + body.length) s' := by
  intro body
  induction body with
  | nil =>
    intro t f ip s s' hdrop hplain hind hseq
    obtain rfl : s = s' := by simpa [seqEff] using hseq
    rfl
  | cons op bd ih =>
    intro t f ip s s' hdrop hplain hind hseq
    have hip : prog[ip]? = some op := by
      have h0 : (prog.drop ip)[0]? = some op := by
        rw [hdrop]
        simp
      rw [List.getElem?_drop] at h0
      simpa using h0
    have hdrop' : prog.drop (ip + 1) = bd ++ t := by
      rw [← List.drop_drop, hdrop]
      rfl
    rw [show seqEff eff (op :: bd) s =
      match eff 0 op s with
      | none => none
      | some s1 => seqEff eff bd s1 from rfl] at hseq
    cases he : eff 0 op s with
    | none =>
      rw [he] at hseq
      exact absurd hseq (by simp)
    | some s1 =>
      rw [he] at hseq
      simp only at hseq
      have hstep := runG_plain_step classify readC eff prog table (f + bd.length) ip s s1 op
        hip (hplain op (by simp)) (by rw [hind (f + bd.length) 0 op s (by simp)]; exact he)
      rw [show f + (op :: bd).length = f + bd.length + 1 from by
        simp only [List.length_cons]; omega]
      rw [hstep]
      rw [show ip + (op :: bd).length = ip + 1 + bd.length from by
        simp only [List.length_cons]; omega]
      exact ih t f (ip + 1) s1 s' hdrop'
        (fun y hy => hplain y (by simp [hy]))
        (fun f1 f2 y s2 hy => hind f1 f2 y s2 (by simp [hy])) hseq

theorem cIdx_one (u : List HirOp) : cIdx 1 u = cStep u := by
  rw [cIdx_cons]
  rfl

theorem oIdx_one (u : List HirOp) : oIdx 1 u = (cOut u).length := by
  rw [oIdx_cons]
  rfl

theorem cIdx_boundary_succ (h : List HirOp) (j : Nat) :
    cIdx (j + 1) h = cIdx j h + cStep (h.drop (cIdx j h)) := by
  rw [cIdx_add h j 1, cIdx_one]

theorem oIdx_boundary_succ (h : List HirOp) (j : Nat) :
    oIdx (j + 1) h = oIdx j h + (cOut (h.drop (cIdx j h))).length := by
  rw [oIdx_add h j 1, oIdx_one]

theorem cIdx_le_mono (h : List HirOp) (j k : Nat) (hjk : j ≤ k) : cIdx j h ≤ cIdx k h := by
  obtain ⟨t, rfl⟩ := Nat.exists_eq_add_of_le hjk
  rw [cIdx_add]
  omega

theorem oIdx_le_mono (h : List HirOp) (j k : Nat) (hjk : j ≤ k) : oIdx j h ≤ oIdx k h := by
  obtain ⟨t, rfl⟩ := Nat.exists_eq_add_of_le hjk
  rw [oIdx_add]
  omega

theorem cIdx_succ_gt' (h : List HirOp) (j : Nat) : cIdx j h < cIdx (j + 1) h := by
  rw [cIdx_boundary_succ]
  have := cStep_pos (h.drop (cIdx j h))
  omega

theorem cIdx_strictMono' (h : List HirOp) (j k : Nat) (hjk : j < k) : cIdx j h < cIdx k h := by
  have h1 := cIdx_succ_gt' h j
  have h2 := cIdx_le_mono h (j + 1) k (by omega)
  omega

theorem cIdx_inj' (h : List HirOp) (j k : Nat) (hEq : cIdx j h = cIdx k h) : j = k := by
  rcases Nat.lt_trichotomy j k with hlt | he | hgt
  · have := cIdx_strictMono' h j k hlt
    omega
  · exact he
  · have := cIdx_strictMono' h k j hgt
    omega

theorem cIdx_nil_t (t : Nat) : cIdx t ([] : List HirOp) = t := by
  induction t with
  | zero => rfl
  | succ t ih =>
    rw [cIdx_cons]
    show cStep [] + cIdx t [] = t + 1
    rw [ih, show cStep ([] : List HirOp) = 1 from rfl]
    omega

theorem cIdx_cCount : ∀ (n : Nat) (h : List HirOp), h.length ≤ n →
    cIdx (cCount h) h = h.length := by
  intro n
  induction n with
  | zero =>
    intro h hn
    have : h = [] := by
      cases h with
      | nil => rfl
      | cons a t => simp at hn
    subst this
    rfl
  | succ n ih =>
    intro h hn
    by_cases hne : h = []
    · subst hne
      rfl
    · rw [cCount_seg h hne]
      rw [show 1 + cCount (h.drop (cStep h)) = cCount (h.drop (cStep h)) + 1 from by omega]
      rw [cIdx_cons]
      have hstep := cStep_pos h
      have hsle := cStep_le h hne
      have hlen : (h.drop (cStep h)).length ≤ n := by
        rw [List.length_drop]
        have : 0 < h.length := by
          cases h with
          | nil => exact absurd rfl hne
          | cons a t => simp
        omega
      rw [ih _ hlen]
      rw [List.length_drop]
      omega

theorem lt_cCount_of_drop_ne_nil (h : List HirOp) (j : Nat)
    (hne : h.drop (cIdx j h) ≠ []) : j < cCount h := by
  by_contra hcon
  push_neg at hcon
  obtain ⟨t, rfl⟩ := Nat.exists_eq_add_of_le hcon
  rw [cIdx_add] at hne
  rw [cIdx_cCount h.length h (le_refl _)] at hne
  apply hne
  rw [← List.drop_drop]
  rw [List.drop_length]
  simp

theorem scanAux_lt_length (isOp isCl : α → Bool) :
    ∀ (l : List α) (d r : Nat), scanAux isOp isCl d l = some r → r < l.length := by
  intro l
  induction l with
  | nil =>
    intro d r h
    simp [scanAux] at h
  | cons x xs ih =>
    intro d r h
    rw [show scanAux isOp isCl d (x :: xs) =
      if isCl x then
        if d = 0 then some 0
        else (scanAux isOp isCl (d - 1) xs).map (· + 1)
      else if isOp x then (scanAux isOp isCl (d + 1) xs).map (· + 1)
      else (scanAux isOp isCl d xs).map (· + 1) from rfl] at h
    by_cases hcl : isCl x
    · rw [if_pos hcl] at h
      by_cases hd : d = 0
      · rw [if_pos hd] at h
        simp only [Option.some.injEq] at h
        simp only [List.length_cons]
        omega
      · rw [if_neg hd] at h
        obtain ⟨w, hw, hwr⟩ := Option.map_eq_some'.mp h
        have := ih _ _ hw
        simp only [List.length_cons]
        omega
    · rw [if_neg hcl] at h
      by_cases hop : isOp x
      · rw [if_pos hop] at h
        obtain ⟨w, hw, hwr⟩ := Option.map_eq_some'.mp h
        have := ih _ _ hw
        simp only [List.length_cons]
        omega
      · rw [if_neg hop] at h
        obtain ⟨w, hw, hwr⟩ := Option.map_eq_some'.mp h
        have := ih _ _ hw
        simp only [List.length_cons]
        omega

theorem scanMatch_obtain (isOp isCl : α → Bool) (prog : List α) (i m : Nat)
    (h : scanMatch isOp isCl prog i = some m) :
    ∃ r0, scanAux isOp isCl 0 (prog.drop (i + 1)) = some r0 ∧ m = i + 1 + r0 := by
  unfold scanMatch at h
  obtain ⟨r0, hr0, hm⟩ := Option.map_eq_some'.mp h
  exact ⟨r0, hr0, hm.symm⟩

theorem scanMatch_build (isOp isCl : α → Bool) (prog : List α) (i r0 : Nat)
    (h : scanAux isOp isCl 0 (prog.drop (i + 1)) = some r0) :
    scanMatch isOp isCl prog i = some (i + 1 + r0) := by
  unfold scanMatch
  rw [h]
  rfl

theorem oIdx_len : ∀ (n : Nat) (h : List HirOp), h.length ≤ n →
    oIdx (cCount h) h = (LirGen.gen_ir h).length := by
  intro n
  induction n with
  | zero =>
    intro h hn
    have : h = [] := by
      cases h with
      | nil => rfl
      | cons a t => simp at hn
    subst this
    rfl
  | succ n ih =>
    intro h hn
    by_cases hne : h = []
    · subst hne
      rfl
    · rw [cCount_seg h hne]
      rw [show 1 + cCount (h.drop (cStep h)) = cCount (h.drop (cStep h)) + 1 from by omega]
      rw [oIdx_cons]
      rw [gen_ir_seg h hne]
      rw [List.length_append]
      have hstep := cStep_pos h
      have hlen : (h.drop (cStep h)).length ≤ n := by
        rw [List.length_drop]
        have : 0 < h.length := by
          cases h with
          | nil => exact absurd rfl hne
          | cons a t => simp
        omega
      rw [ih _ hlen]

theorem genir_getElem_none (h : List HirOp) (j : Nat)
    (hnil : h.drop (cIdx j h) = []) : (LirGen.gen_ir h)[oIdx j h]? = none := by
  have hgd : (LirGen.gen_ir h).drop (oIdx j h) = [] := by
    rw [← gen_ir_drop, hnil, gen_ir_nil]
  rw [List.getElem?_eq_none]
  have := congrArg List.length hgd
  rw [List.length_drop] at this
  simp only [List.length_nil] at this
  omega

theorem open_match_transport (h : List HirOp) (j m : Nat)
    (hkept : cStep (h.drop (cIdx j h)) = 1)
    (hout : cOut (h.drop (cIdx j h)) = [LirOp.BrFor])
    (hsm : scanMatch HirOp.isOpen HirOp.isClose h (cIdx j h) = some m) :
    ∃ K rl, scanMatch LirOp.isOpen LirOp.isClose (LirGen.gen_ir h) (oIdx j h) = some rl ∧
      m + 1 = cIdx K h ∧ rl + 1 = oIdx K h ∧ j + 1 ≤ K := by
  obtain ⟨r0, haux, hm⟩ := scanMatch_obtain _ _ _ _ _ hsm
  have hc1 : cIdx (j + 1) h = cIdx j h + 1 := by
    rw [cIdx_boundary_succ, hkept]
  have ho1 : oIdx (j + 1) h = oIdx j h + 1 := by
    rw [oIdx_boundary_succ, hout]
    rfl
  have haux' : scanAux HirOp.isOpen HirOp.isClose 0 (h.drop (cIdx (j + 1) h)) = some r0 := by
    rw [hc1]
    exact haux
  obtain ⟨k, r', hauxL, hr0k, hr'k⟩ := scan_commute_gen (h.drop (cIdx (j + 1) h)).length
    (h.drop (cIdx (j + 1) h)) (le_refl _) 0 r0 haux'
  rw [hc1] at hr0k hr'k
  have hgd : LirGen.gen_ir (h.drop (cIdx (j + 1) h)) =
      (LirGen.gen_ir h).drop (oIdx j h + 1) := by
    rw [gen_ir_drop, ho1]
  rw [hgd] at hauxL
  refine ⟨j + 1 + k, oIdx j h + 1 + r', scanMatch_build _ _ _ _ _ hauxL, ?_, ?_, by omega⟩
  · rw [cIdx_add h (j + 1) k, hc1]
    omega
  · rw [oIdx_add h (j + 1) k, hc1, ho1]
    omega

theorem add_offset_8_lt (c : Nat) (d : Int) : add_offset_8 c d < 256 := by
  unfold add_offset_8
  split
  · exact Nat.mod_lt _ (by omega)
  · exact Nat.mod_lt _ (by omega)

theorem seqEff_single (eff : Nat → α → σ → Option σ) (x : α) (s : σ) :
    seqEff eff [x] s = eff 0 x s := by
  rw [show seqEff eff [x] s =
    (match eff 0 x s with | none => none | some s' => seqEff eff [] s') from rfl]
  cases eff 0 x s <;> rfl

theorem hirEff_fuel (f : Nat) (op : HirOp) (es : ExecSt) : hirEff f op es = hirEff 0 op es := rfl

theorem whileRun_congr (readC : σ → Nat) (eff1 eff2 : σ → Option σ)
    (heq : ∀ s, eff1 s = eff2 s) (f : Nat) (s : σ) :
    whileRun readC eff1 f s = whileRun readC eff2 f s := by
  have h2 : eff1 = eff2 := funext heq
  rw [h2]

theorem classify_plain_of_not_br (y : HirOp) (h : HirOp.isBr y = false) :
    HirOp.classify y = OpClass.plain := by
  cases y <;> simp_all [HirOp.isBr, HirOp.isOpen, HirOp.isClose, HirOp.classify]

theorem classify_plain_of_modmov (y : HirOp) (h : HirOp.isModMov y = true) :
    HirOp.classify y = OpClass.plain := by
  cases y <;> simp_all [HirOp.isModMov, HirOp.classify]

theorem read_cell_cells_eq (s1 s2 : BrainfuckState) (h : s1.cells = s2.cells) (i : Nat) :
    s1.read_cell i = s2.read_cell i := by
  unfold BrainfuckState.read_cell
  rw [h]

theorem hirEff_valid (f : Nat) (op : HirOp) (a a' : ExecSt) (hv : ValidSt a)
    (ha : hirEff f op a = some a') : ValidSt a' := by
  cases op with
  | Modify d =>
    simp only [hirEff, Option.some.injEq] at ha
    intro i
    rw [← ha]
    show (a.st.modify_cur_cell_with _).read_cell i < 256
    unfold BrainfuckState.modify_cur_cell_with
    by_cases hi : i = a.st.pos
    · subst hi
      rw [read_cell_set_cell_self]
      exact add_offset_8_lt _ _
    · rw [read_cell_set_cell_ne _ _ _ _ hi]
      exact hv i
  | Move d =>
    simp only [hirEff] at ha
    cases haos : add_offset_size a.st.pos d with
    | none => rw [haos] at ha; exact absurd ha (by simp)
    | some p =>
      rw [haos] at ha
      simp only [Option.some.injEq] at ha
      intro i
      rw [← ha]
      exact hv i
  | Out =>
    simp only [hirEff, Option.some.injEq] at ha
    intro i
    rw [← ha]
    exact hv i
  | In =>
    simp only [hirEff] at ha
    cases hain : a.input with
    | nil => rw [hain] at ha; exact absurd ha (by simp)
    | cons byte rest =>
      rw [hain] at ha
      simp only [Option.some.injEq] at ha
      intro i
      rw [← ha]
      show (a.st.set_cur_cell (byte % 256)).read_cell i < 256
      unfold BrainfuckState.set_cur_cell
      by_cases hi : i = a.st.pos
      · subst hi
        rw [read_cell_set_cell_self]
        omega
      · rw [read_cell_set_cell_ne _ _ _ _ hi]
        exact hv i
  | BrFor => simp [hirEff] at ha
  | BrBack => simp [hirEff] at ha

theorem hir_plain_transport (op : HirOp) (f g : Nat) (a b a' : ExecSt)
    (hcl : HirOp.classify op = OpClass.plain) (hR : StEq a b)
    (ha : hirEff f op a = some a') :
    ∃ b', lirEff g (HirOp.toLir op) b = some b' ∧ StEq a' b' := by
  obtain ⟨hpos, hin, hout, hcells⟩ := hR
  have hreadc : a.st.read_cur_cell = b.st.read_cur_cell := by
    unfold BrainfuckState.read_cur_cell
    rw [hpos]
    exact hcells b.st.pos
  cases op with
  | Modify d =>
    simp only [hirEff, Option.some.injEq] at ha
    refine ⟨{ b with st := b.st.modify_cur_cell_with (fun c => add_offset_8 c (toI8 d)) },
      rfl, ?_, ?_, ?_, ?_⟩
    · rw [← ha]
      show (a.st.modify_cur_cell_with _).pos = (b.st.modify_cur_cell_with _).pos
      unfold BrainfuckState.modify_cur_cell_with
      rw [set_cell_pos, set_cell_pos, hpos]
    · rw [← ha]
      exact hin
    · rw [← ha]
      exact hout
    · intro i
      rw [← ha]
      show (a.st.modify_cur_cell_with _).read_cell i =
        (b.st.modify_cur_cell_with _).read_cell i
      unfold BrainfuckState.modify_cur_cell_with
      by_cases hi : i = a.st.pos
      · subst hi
        rw [read_cell_set_cell_self]
        rw [show a.st.pos = b.st.pos from hpos, read_cell_set_cell_self, hreadc]
      · rw [read_cell_set_cell_ne _ _ _ _ hi]
        rw [read_cell_set_cell_ne _ _ _ _ (by rw [← hpos]; exact hi)]
        exact hcells i
  | Move d =>
    simp only [hirEff] at ha
    cases haos : add_offset_size a.st.pos d with
    | none => rw [haos] at ha; exact absurd ha (by simp)
    | some p =>
      rw [haos] at ha
      simp only [Option.some.injEq] at ha
      refine ⟨{ b with st := { b.st with pos := p } }, ?_, ?_, ?_, ?_, ?_⟩
      · show lirEff g (LirOp.Move d) b = _
        simp only [lirEff, moveEff]
        rw [← hpos, haos]
      · rw [← ha]
      · rw [← ha]
        exact hin
      · rw [← ha]
        exact hout
      · intro i
        rw [← ha]
        show a.st.read_cell i = b.st.read_cell i
        exact hcells i
  | Out =>
    simp only [hirEff, Option.some.injEq] at ha
    refine ⟨{ b with output := b.output ++ [b.st.read_cur_cell] }, rfl, ?_, ?_, ?_, ?_⟩
    · rw [← ha]
      exact hpos
    · rw [← ha]
      exact hin
    · rw [← ha]
      show a.output ++ [a.st.read_cur_cell] = b.output ++ [b.st.read_cur_cell]
      rw [hout, hreadc]
    · intro i
      rw [← ha]
      exact hcells i
  | In =>
    simp only [hirEff] at ha
    cases hain : a.input with
    | nil => rw [hain] at ha; exact absurd ha (by simp)
    | cons byte rest =>
      rw [hain] at ha
      simp only [Option.some.injEq] at ha
      refine ⟨{ b with st := b.st.set_cur_cell (byte % 256), input := rest }, ?_, ?_, ?_, ?_, ?_⟩
      · show lirEff g LirOp.In b = _
        simp only [lirEff]
        rw [show b.input = byte :: rest from by rw [← hin]; exact hain]
      · rw [← ha]
        show (a.st.set_cur_cell _).pos = (b.st.set_cur_cell _).pos
        unfold BrainfuckState.set_cur_cell
        rw [set_cell_pos, set_cell_pos, hpos]
      · rw [← ha]
      · rw [← ha]
        exact hout
      · intro i
        rw [← ha]
        show (a.st.set_cur_cell _).read_cell i = (b.st.set_cur_cell _).read_cell i
        unfold BrainfuckState.set_cur_cell
        by_cases hi : i = a.st.pos
        · subst hi
          rw [read_cell_set_cell_self]
          rw [show a.st.pos = b.st.pos from hpos, read_cell_set_cell_self]
        · rw [read_cell_set_cell_ne _ _ _ _ hi]
          rw [read_cell_set_cell_ne _ _ _ _ (by rw [← hpos]; exact hi)]
          exact hcells i
  | BrFor => simp [HirOp.classify] at hcl
  | BrBack => simp [HirOp.classify] at hcl

theorem lirEff_mono (f : Nat) (op : LirOp) (s s' : ExecSt)
    (ha : lirEff f op s = some s') : lirEff (f + 1) op s = some s' := by
  cases op with
  | Hop d =>
    simp only [lirEff] at ha ⊢
    exact whileRun_mono _ _ f s s' ha
  | Modify d => exact ha
  | Move d => exact ha
  | Out => exact ha
  | In => exact ha
  | WriteZero => exact ha
  | MoveCell d => exact ha
  | Meta m => exact ha
  | CnstMovSet set => exact ha
  | BrFor => exact ha
  | BrBack => exact ha

theorem runG_mono (classify : α → OpClass) (readC : σ → Nat) (eff : Nat → α → σ → Option σ)
    (prog : List α) (table : List Nat)
    (hm : ∀ f op s s', eff f op s = some s' → eff (f + 1) op s = some s') :
    ∀ f ip s res, runG classify readC eff prog table f ip s = some res →
      runG classify readC eff prog table (f + 1) ip s = some res := by
  intro f
  induction f with
  | zero =>
    intro ip s res h
    simp [runG] at h
  | succ f ih =>
    intro ip s res h
    cases hip : prog[ip]? with
    | none =>
      rw [runG_stop _ _ _ _ _ _ _ _ hip] at h
      rw [runG_stop _ _ _ _ _ _ _ _ hip]
      exact h
    | some op =>
      cases hcl : classify op with
      | openBr =>
        by_cases hr : readC s = 0
        · rw [runG_open_zero _ _ _ _ _ _ _ _ _ hip hcl hr] at h
          rw [runG_open_zero _ _ _ _ _ _ _ _ _ hip hcl hr]
          exact ih _ _ _ h
        · rw [runG_open_pos _ _ _ _ _ _ _ _ _ hip hcl hr] at h
          rw [runG_open_pos _ _ _ _ _ _ _ _ _ hip hcl hr]
          exact ih _ _ _ h
      | closeBr =>
        by_cases hr : readC s = 0
        · rw [runG_close_zero _ _ _ _ _ _ _ _ _ hip hcl hr] at h
          rw [runG_close_zero _ _ _ _ _ _ _ _ _ hip hcl hr]
          exact ih _ _ _ h
        · rw [runG_close_pos _ _ _ _ _ _ _ _ _ hip hcl hr] at h
          rw [runG_close_pos _ _ _ _ _ _ _ _ _ hip hcl hr]
          exact ih _ _ _ h
      | plain =>
        cases he : eff f op s with
        | none =>
          rw [runG_plain_none _ _ _ _ _ _ _ _ _ hip hcl he] at h
          exact absurd h (by simp)
        | some s1 =>
          rw [runG_plain_step _ _ _ _ _ _ _ _ _ _ hip hcl he] at h
          rw [runG_plain_step _ _ _ _ _ _ _ _ _ _ hip hcl (hm f op s s1 he)]
          exact ih _ _ _ h

theorem runG_le (classify : α → OpClass) (readC : σ → Nat) (eff : Nat → α → σ → Option σ)
    (prog : List α) (table : List Nat)
    (hm : ∀ f op s s', eff f op s = some s' → eff (f + 1) op s = some s')
    (f f' : Nat) (hf : f ≤ f') :
    ∀ ip s res, runG classify readC eff prog table f ip s = some res →
      runG classify readC eff prog table f' ip s = some res := by
  induction f' with
  | zero =>
    intro ip s res h
    have : f = 0 := by omega
    subst this
    exact h
  | succ f' ih =>
    intro ip s res h
    rcases Nat.lt_or_ge f (f' + 1) with hlt | hge
    · exact runG_mono classify readC eff prog table hm f' ip s res (ih (by omega) ip s res h)
    · have : f = f' + 1 := by omega
      subst this
      exact h

theorem loop_extract_body (classify : α → OpClass) (readC : σ → Nat)
    (eff : Nat → α → σ → Option σ) (prog : List α) (table : List Nat)
    (opb clb : α) (q : Nat) (body rest' : List α)
    (hcb : classify clb = OpClass.closeBr)
    (hdrop : prog.drop q = opb :: (body ++ clb :: rest'))
    (hplain : ∀ y ∈ body, classify y = OpClass.plain)
    (hind : ∀ f1 f2 y s, y ∈ body → eff f1 y s = eff f2 y s)
    (htm : table.getD (q + 1 + body.length) 0 = q) :
    ∀ f, ∀ a res, runG classify readC eff prog table f (q + 1) a = some res → 0 < readC a →
      ∃ fw a' f', whileRun readC (seqEff eff body) fw a = some a' ∧ f' < f + 1 ∧
        runG classify readC eff prog table f' (q + 1 + body.length + 1) a' = some res := by
  have hdrop1 : prog.drop (q + 1) = body ++ clb :: rest' := by
    rw [← List.drop_drop, hdrop]
    rfl
  have hmcl : prog[q + 1 + body.length]? = some clb := by
    rw [show q + 1 + body.length = q + 1 + body.length from rfl, ← List.getElem?_drop, hdrop1]
    rw [getElem_append_length]
    simp
  intro f
  induction f using Nat.strong_induction_on with
  | _ f ih =>
    intro a res hrun hra
    obtain ⟨f1, s1, hf1, hseq, hcont⟩ := runG_straightline_extract classify readC eff prog table
      body (clb :: rest') f (q + 1) a res hdrop1 hplain hind hrun
    cases f1 with
    | zero => simp [runG] at hcont
    | succ f2 =>
      by_cases hr : readC s1 = 0
      · rw [runG_close_zero _ _ _ _ _ _ _ _ _ hmcl hcb hr] at hcont
        refine ⟨2, s1, f2, ?_, by omega, hcont⟩
        rw [show whileRun readC (seqEff eff body) 2 a =
          if 0 < readC a then (seqEff eff body a).bind (whileRun readC (seqEff eff body) 1)
          else some a from rfl]
        rw [if_pos hra, hseq]
        simp only [Option.some_bind]
        rw [show whileRun readC (seqEff eff body) 1 s1 =
          if 0 < readC s1 then (seqEff eff body s1).bind (whileRun readC (seqEff eff body) 0)
          else some s1 from rfl]
        rw [if_neg (by omega)]
      · rw [runG_close_pos _ _ _ _ _ _ _ _ _ hmcl hcb hr] at hcont
        rw [htm] at hcont
        obtain ⟨fw', a', f'', hwr, hf'', hcont'⟩ := ih f2 (by omega) s1 res hcont (by omega)
        refine ⟨fw' + 1, a', f'', ?_, by omega, hcont'⟩
        rw [show whileRun readC (seqEff eff body) (fw' + 1) a =
          if 0 < readC a then (seqEff eff body a).bind (whileRun readC (seqEff eff body) fw')
          else some a from rfl]
        rw [if_pos hra, hseq]
        simp only [Option.some_bind]
        exact hwr

theorem loop_extract (classify : α → OpClass) (readC : σ → Nat)
    (eff : Nat → α → σ → Option σ) (prog : List α) (table : List Nat)
    (opb clb : α) (q : Nat) (body rest' : List α)
    (hob : classify opb = OpClass.openBr) (hcb : classify clb = OpClass.closeBr)
    (hdrop : prog.drop q = opb :: (body ++ clb :: rest'))
    (hplain : ∀ y ∈ body, classify y = OpClass.plain)
    (hind : ∀ f1 f2 y s, y ∈ body → eff f1 y s = eff f2 y s)
    (htq : table.getD q 0 = q + 1 + body.length)
    (htm : table.getD (q + 1 + body.length) 0 = q) :
    ∀ f a res, runG classify readC eff prog table f q a = some res →
      ∃ fw a' f', whileRun readC (seqEff eff body) fw a = some a' ∧ f' < f ∧
        runG classify readC eff prog table f' (q + 1 + body.length + 1) a' = some res := by
  have hq : prog[q]? = some opb := by
    have h0 : (prog.drop q)[0]? = some opb := by
      rw [hdrop]
      simp
    rw [List.getElem?_drop] at h0
    simpa using h0
  intro f a res hrun
  cases f with
  | zero => simp [runG] at hrun
  | succ f0 =>
    by_cases hr : readC a = 0
    · rw [runG_open_zero _ _ _ _ _ _ _ _ _ hq hob hr] at hrun
      rw [htq] at hrun
      refine ⟨1, a, f0, ?_, by omega, hrun⟩
      rw [show whileRun readC (seqEff eff body) 1 a =
        if 0 < readC a then (seqEff eff body a).bind (whileRun readC (seqEff eff body) 0)
        else some a from rfl]
      rw [if_neg (by omega)]
    · rw [runG_open_pos _ _ _ _ _ _ _ _ _ hq hob hr] at hrun
      obtain ⟨fw, a', f', hwr, hf', hcont⟩ := loop_extract_body classify readC eff prog table
        opb clb q body rest' hcb hdrop hplain hind htm f0 a res hrun (by omega)
      exact ⟨fw, a', f', hwr, by omega, hcont⟩

theorem loop_construct_body (classify : α → OpClass) (readC : σ → Nat)
    (eff : Nat → α → σ → Option σ) (prog : List α) (table : List Nat)
    (opb clb : α) (r : Nat) (lbody tail : List α)
    (hcb : classify clb = OpClass.closeBr)
    (hdrop : prog.drop r = opb :: (lbody ++ clb :: tail))
    (hplain : ∀ y ∈ lbody, classify y = OpClass.plain)
    (hind : ∀ f1 f2 y s, y ∈ lbody → eff f1 y s = eff f2 y s)
    (htm : table.getD (r + 1 + lbody.length) 0 = r) :
    ∀ fw b b', whileRun readC (seqEff eff lbody) fw b = some b' → 0 < readC b →
      ∀ fc res, runG classify readC eff prog table fc (r + 1 + lbody.length + 1) b' = some res →
        ∃ F, runG classify readC eff prog table F (r + 1) b = some res := by
  have hdrop1 : prog.drop (r + 1) = lbody ++ clb :: tail := by
    rw [← List.drop_drop, hdrop]
    rfl
  have hmcl : prog[r + 1 + lbody.length]? = some clb := by
    rw [← List.getElem?_drop, hdrop1]
    rw [getElem_append_length]
    simp
  intro fw
  induction fw with
  | zero =>
    intro b b' hwr
    simp [whileRun] at hwr
  | succ fw ih =>
    intro b b' hwr hrb fc res hcont
    rw [show whileRun readC (seqEff eff lbody) (fw + 1) b =
      if 0 < readC b then (seqEff eff lbody b).bind (whileRun readC (seqEff eff lbody) fw)
      else some b from rfl] at hwr
    rw [if_pos hrb] at hwr
    cases hseq : seqEff eff lbody b with
    | none => rw [hseq] at hwr; exact absurd hwr (by simp)
    | some b1 =>
      rw [hseq] at hwr
      simp only [Option.some_bind] at hwr
      by_cases hr1 : readC b1 = 0
      · have hb' : b' = b1 := by
          cases fw with
          | zero => simp [whileRun] at hwr
          | succ fw' =>
            rw [show whileRun readC (seqEff eff lbody) (fw' + 1) b1 =
              if 0 < readC b1 then
                (seqEff eff lbody b1).bind (whileRun readC (seqEff eff lbody) fw')
              else some b1 from rfl] at hwr
            rw [if_neg (by omega)] at hwr
            simpa using hwr.symm
        rw [hb'] at hcont
        refine ⟨fc + 1 + lbody.length, ?_⟩
        rw [runG_straightline_construct classify readC eff prog table lbody (clb :: tail)
          (fc + 1) (r + 1) b b1 hdrop1 hplain hind hseq]
        rw [runG_close_zero _ _ _ _ _ _ _ _ _ hmcl hcb hr1]
        exact hcont
      · obtain ⟨F1, hF1⟩ := ih b1 b' hwr (by omega) fc res hcont
        refine ⟨F1 + 1 + lbody.length, ?_⟩
        rw [runG_straightline_construct classify readC eff prog table lbody (clb :: tail)
          (F1 + 1) (r + 1) b b1 hdrop1 hplain hind hseq]
        rw [runG_close_pos _ _ _ _ _ _ _ _ _ hmcl hcb hr1]
        rw [htm]
        exact hF1

theorem loop_construct (classify : α → OpClass) (readC : σ → Nat)
    (eff : Nat → α → σ → Option σ) (prog : List α) (table : List Nat)
    (opb clb : α) (r : Nat) (lbody tail : List α)
    (hob : classify opb = OpClass.openBr) (hcb : classify clb = OpClass.closeBr)
    (hdrop : prog.drop r = opb :: (lbody ++ clb :: tail))
    (hplain : ∀ y ∈ lbody, classify y = OpClass.plain)
    (hind : ∀ f1 f2 y s, y ∈ lbody → eff f1 y s = eff f2 y s)
    (htr : table.getD r 0 = r + 1 + lbody.length)
    (htm : table.getD (r + 1 + lbody.length) 0 = r) :
    ∀ fw b b', whileRun readC (seqEff eff lbody) fw b = some b' →
      ∀ fc res, runG classify readC eff prog table fc (r + 1 + lbody.length + 1) b' = some res →
        ∃ F, runG classify readC eff prog table F r b = some res := by
  have hq : prog[r]? = some opb := by
    have h0 : (prog.drop r)[0]? = some opb := by
      rw [hdrop]
      simp
    rw [List.getElem?_drop] at h0
    simpa using h0
  intro fw b b' hwr fc res hcont
  by_cases hr : readC b = 0
  · have hb' : b' = b := by
      cases fw with
      | zero => simp [whileRun] at hwr
      | succ fw' =>
        rw [show whileRun readC (seqEff eff lbody) (fw' + 1) b =
          if 0 < readC b then (seqEff eff lbody b).bind (whileRun readC (seqEff eff lbody) fw')
          else some b from rfl] at hwr
        rw [if_neg (by omega)] at hwr
        simpa using hwr.symm
    rw [hb'] at hcont
    refine ⟨fc + 1, ?_⟩
    rw [runG_open_zero _ _ _ _ _ _ _ _ _ hq hob hr]
    rw [htr]
    exact hcont
  · obtain ⟨F1, hF1⟩ := loop_construct_body classify readC eff prog table opb clb r lbody tail
      hcb hdrop hplain hind htm fw b b' hwr (by omega) fc res hcont
    refine ⟨F1 + 1, ?_⟩
    rw [runG_open_pos _ _ _ _ _ _ _ _ _ hq hob hr]
    exact hF1

theorem add_offset_size_to_int (p : Nat) (D : Int) (q : Nat)
    (h : add_offset_size p D = some q) : (q : Int) = (p : Int) + D := by
  unfold add_offset_size at h
  split at h
  · next h1 =>
    simp only [Option.some.injEq] at h
    subst h
    push_cast
    omega
  · next h1 =>
    split at h
    · next h2 =>
      simp only [Option.some.injEq] at h
      subst h
      push_cast
      omega
    · exact absurd h (by simp)

theorem add_offset_size_inv (p : Nat) (D : Int) (t : Nat)
    (h : add_offset_size p D = some t) : add_offset_size t (-D) = some p := by
  have h1 := add_offset_size_to_int p D t h
  exact add_offset_size_of_int t (-D) p (by omega)

theorem seqEff_cons (eff : Nat → α → σ → Option σ) (op : α) (t : List α) (s : σ) :
    seqEff eff (op :: t) s =
      match eff 0 op s with
      | none => none
      | some s' => seqEff eff t s' := rfl

theorem seqEff_hir_valid :
    ∀ (body : List HirOp) (x y : ExecSt), ValidSt x → seqEff hirEff body x = some y →
      ValidSt y := by
  intro body
  induction body with
  | nil =>
    intro x y hv h
    obtain rfl : x = y := by simpa [seqEff] using h
    exact hv
  | cons op rest ih =>
    intro x y hv h
    rw [seqEff_cons hirEff op rest x] at h
    cases he : hirEff 0 op x with
    | none => rw [he] at h; exact absurd h (by simp)
    | some x1 =>
      rw [he] at h
      simp only at h
      exact ih x1 y (hirEff_valid 0 op x x1 hv he) h

theorem whileRun_hir_valid (body : List HirOp) (fw : Nat) (a a' : ExecSt) (hv : ValidSt a)
    (h : whileRun ExecSt.readCur (seqEff hirEff body) fw a = some a') : ValidSt a' :=
  whileRun_inv ExecSt.readCur (seqEff hirEff body) ValidSt
    (fun x y hx hxy => seqEff_hir_valid body x y hx hxy) fw a a' hv h

theorem writezero_chars (d : Int) (fw : Nat) (a a' : ExecSt)
    (hwr : whileRun ExecSt.readCur (seqEff hirEff [HirOp.Modify d]) fw a = some a') :
    a'.st.pos = a.st.pos ∧ a'.input = a.input ∧ a'.output = a.output ∧
    a'.st.read_cell a.st.pos = 0 ∧
    ∀ i, i ≠ a.st.pos → a'.st.read_cell i = a.st.read_cell i := by
  have hQ := whileRun_inv ExecSt.readCur (seqEff hirEff [HirOp.Modify d])
    (fun x => x.st.pos = a.st.pos ∧ x.input = a.input ∧ x.output = a.output ∧
      ∀ i, i ≠ a.st.pos → x.st.read_cell i = a.st.read_cell i)
    (by
      intro x y hx hxy
      rw [seqEff_single] at hxy
      simp only [hirEff, Option.some.injEq] at hxy
      obtain ⟨hxp, hxi, hxo, hxc⟩ := hx
      refine ⟨?_, ?_, ?_, ?_⟩
      · rw [← hxy]
        show (x.st.modify_cur_cell_with _).pos = a.st.pos
        unfold BrainfuckState.modify_cur_cell_with
        rw [set_cell_pos]
        exact hxp
      · rw [← hxy]
        exact hxi
      · rw [← hxy]
        exact hxo
      · intro i hi
        rw [← hxy]
        show (x.st.modify_cur_cell_with _).read_cell i = a.st.read_cell i
        unfold BrainfuckState.modify_cur_cell_with
        rw [read_cell_set_cell_ne _ _ _ _ (by rw [hxp]; exact hi)]
        exact hxc i hi)
    fw a a' ⟨rfl, rfl, rfl, fun i _ => rfl⟩ hwr
  obtain ⟨hp, hi, ho, hc⟩ := hQ
  have hpost := whileRun_post ExecSt.readCur (seqEff hirEff [HirOp.Modify d]) fw a a' hwr
  refine ⟨hp, hi, ho, ?_, hc⟩
  unfold ExecSt.readCur BrainfuckState.read_cur_cell at hpost
  rw [hp] at hpost
  exact hpost

theorem writezero_transport (d : Int) (g fw : Nat) (a a' b : ExecSt) (hR : StEq a b)
    (hwr : whileRun ExecSt.readCur (seqEff hirEff [HirOp.Modify d]) fw a = some a') :
    ∃ b', lirEff g LirOp.WriteZero b = some b' ∧ StEq a' b' := by
  obtain ⟨hpos, hin, hout, hp0, hother⟩ := writezero_chars d fw a a' hwr
  obtain ⟨hposR, hinR, houtR, hcellsR⟩ := hR
  refine ⟨{ b with st := b.st.set_cur_cell 0 }, rfl, ?_, ?_, ?_, ?_⟩
  · show a'.st.pos = (b.st.set_cur_cell 0).pos
    unfold BrainfuckState.set_cur_cell
    rw [set_cell_pos, hpos, hposR]
  · rw [hin, hinR]
  · rw [hout, houtR]
  · intro i
    show a'.st.read_cell i = (b.st.set_cur_cell 0).read_cell i
    unfold BrainfuckState.set_cur_cell
    by_cases hi : i = a.st.pos
    · subst hi
      rw [hp0, show a.st.pos = b.st.pos from hposR, read_cell_set_cell_self]
    · rw [read_cell_set_cell_ne _ _ _ _ (by rw [← hposR]; exact hi)]
      rw [hother i hi]
      exact hcellsR i

theorem moveEff_transport (d : Int) :
    ∀ (x y x' : ExecSt), StEq x y → moveEff d x = some x' →
      ∃ y', moveEff d y = some y' ∧ StEq x' y' := by
  intro x y x' hR hx
  obtain ⟨hpos, hin, hout, hcells⟩ := hR
  unfold moveEff at hx
  cases haos : add_offset_size x.st.pos d with
  | none => rw [haos] at hx; exact absurd hx (by simp)
  | some p =>
    rw [haos] at hx
    simp only [Option.some.injEq] at hx
    refine ⟨{ y with st := { y.st with pos := p } }, ?_, ?_, ?_, ?_, ?_⟩
    · unfold moveEff
      rw [← hpos, haos]
    · rw [← hx]
    · rw [← hx]
      exact hin
    · rw [← hx]
      exact hout
    · intro i
      rw [← hx]
      exact hcells i

theorem hop_transport (d : Int) (fw F : Nat) (hF : fw ≤ F) (a a' b : ExecSt) (hR : StEq a b)
    (hwr : whileRun ExecSt.readCur (seqEff hirEff [HirOp.Move d]) fw a = some a') :
    ∃ b', lirEff F (LirOp.Hop d) b = some b' ∧ StEq a' b' := by
  have hcongr : ∀ s, seqEff hirEff [HirOp.Move d] s = moveEff d s := fun s => by
    rw [seqEff_single]
    rfl
  rw [whileRun_congr ExecSt.readCur _ _ hcongr fw a] at hwr
  obtain ⟨b', hb', hR'⟩ := whileRun_rel ExecSt.readCur ExecSt.readCur (moveEff d) (moveEff d)
    StEq (fun x y h => StEq_readCur x y h) (moveEff_transport d) fw a b a' hR hwr
  refine ⟨b', ?_, hR'⟩
  show whileRun ExecSt.readCur (moveEff d) F b = some b'
  exact whileRun_le _ _ fw F hF b b' hb'

theorem seqEff_cons_some (eff : Nat → α → σ → Option σ) (op : α) (t : List α) (s s1 : σ)
    (h : eff 0 op s = some s1) : seqEff eff (op :: t) s = seqEff eff t s1 := by
  rw [seqEff_cons, h]

theorem whileRun_zero_exit (readC : σ → Nat) (eff : σ → Option σ) (fw : Nat) (s t : σ)
    (hr : readC s = 0) (h : whileRun readC eff fw s = some t) : t = s := by
  cases fw with
  | zero => simp [whileRun] at h
  | succ fw =>
    rw [show whileRun readC eff (fw + 1) s =
      if 0 < readC s then (eff s).bind (whileRun readC eff fw) else some s from rfl] at h
    rw [if_neg (by omega)] at h
    simpa using h.symm

theorem movecell_step (d : Int) (p tgt : Nat) (x : ExecSt)
    (hpos : x.st.pos = p) (htgt : add_offset_size p d = some tgt)
    (hv : ValidSt x) (hv1 : 0 < x.st.read_cell p) :
    ∃ y, seqEff hirEff [HirOp.Modify (-1), HirOp.Move d, HirOp.Modify 1, HirOp.Move (-d)] x
        = some y ∧
      y.st.pos = p ∧ y.input = x.input ∧ y.output = x.output ∧ ValidSt y ∧
      (tgt ≠ p →
        y.st.read_cell p = x.st.read_cell p - 1 ∧
        y.st.read_cell tgt = (x.st.read_cell tgt + 1) % 256 ∧
        ∀ i, i ≠ p → i ≠ tgt → y.st.read_cell i = x.st.read_cell i) ∧
      (tgt = p → ∀ i, y.st.read_cell i = x.st.read_cell i) := by
  have hvp := hv p
  have htgtInt := add_offset_size_to_int p d tgt htgt
  cases he1 : hirEff 0 (HirOp.Modify (-1)) x with
  | none => rw [hirEff_modify] at he1; exact absurd he1 (by simp)
  | some x1 =>
    have he1s : hirEff 0 (HirOp.Modify (-1)) x = some x1 := he1
    rw [hirEff_modify] at he1
    simp only [Option.some.injEq] at he1
    have h1pos : x1.st.pos = p := by
      rw [← he1]
      show (x.st.set_cell _ x.st.pos).pos = p
      rw [set_cell_pos, hpos]
    have h1in : x1.input = x.input := by rw [← he1]
    have h1out : x1.output = x.output := by rw [← he1]
    have h1p : x1.st.read_cell p = x.st.read_cell p - 1 := by
      rw [← he1]
      show (x.st.set_cell ((((x.st.read_cur_cell : Int) + (-1)) % 256)).toNat
        x.st.pos).read_cell p = x.st.read_cell p - 1
      rw [hpos, read_cell_set_cell_self]
      unfold BrainfuckState.read_cur_cell
      rw [hpos]
      omega
    have h1ne : ∀ i, i ≠ p → x1.st.read_cell i = x.st.read_cell i := by
      intro i hi
      rw [← he1]
      show (x.st.set_cell _ x.st.pos).read_cell i = x.st.read_cell i
      rw [hpos, read_cell_set_cell_ne _ _ _ _ hi]
    cases he2 : hirEff 0 (HirOp.Move d) x1 with
    | none =>
      rw [hirEff_move 0 d x1 tgt (by rw [h1pos]; exact htgtInt)] at he2
      exact absurd he2 (by simp)
    | some x2 =>
      have he2s : hirEff 0 (HirOp.Move d) x1 = some x2 := he2
      rw [hirEff_move 0 d x1 tgt (by rw [h1pos]; exact htgtInt)] at he2
      simp only [Option.some.injEq] at he2
      have h2pos : x2.st.pos = tgt := by rw [← he2]
      have h2in : x2.input = x1.input := by rw [← he2]
      have h2out : x2.output = x1.output := by rw [← he2]
      have h2cells : ∀ i, x2.st.read_cell i = x1.st.read_cell i := by
        intro i
        rw [← he2]
        rfl
      cases he3 : hirEff 0 (HirOp.Modify 1) x2 with
      | none => rw [hirEff_modify] at he3; exact absurd he3 (by simp)
      | some x3 =>
        have he3s : hirEff 0 (HirOp.Modify 1) x2 = some x3 := he3
        rw [hirEff_modify] at he3
        simp only [Option.some.injEq] at he3
        have h3pos : x3.st.pos = tgt := by
          rw [← he3]
          show (x2.st.set_cell _ x2.st.pos).pos = tgt
          rw [set_cell_pos, h2pos]
        have h3in : x3.input = x2.input := by rw [← he3]
        have h3out : x3.output = x2.output := by rw [← he3]
        have h3tgt : x3.st.read_cell tgt = (x2.st.read_cell tgt + 1) % 256 := by
          rw [← he3]
          show (x2.st.set_cell ((((x2.st.read_cur_cell : Int) + 1) % 256)).toNat
            x2.st.pos).read_cell tgt = (x2.st.read_cell tgt + 1) % 256
          rw [h2pos, read_cell_set_cell_self]
          unfold BrainfuckState.read_cur_cell
          rw [h2pos]
          have := hv tgt
          have h2t := h2cells tgt
          omega
        have h3ne : ∀ i, i ≠ tgt → x3.st.read_cell i = x2.st.read_cell i := by
          intro i hi
          rw [← he3]
          show (x2.st.set_cell _ x2.st.pos).read_cell i = x2.st.read_cell i
          rw [h2pos, read_cell_set_cell_ne _ _ _ _ hi]
        cases he4 : hirEff 0 (HirOp.Move (-d)) x3 with
        | none =>
          rw [hirEff_move 0 (-d) x3 p (by rw [h3pos]; omega)] at he4
          exact absurd he4 (by simp)
        | some x4 =>
          have he4s : hirEff 0 (HirOp.Move (-d)) x3 = some x4 := he4
          rw [hirEff_move 0 (-d) x3 p (by rw [h3pos]; omega)] at he4
          simp only [Option.some.injEq] at he4
          have h4pos : x4.st.pos = p := by rw [← he4]
          have h4in : x4.input = x3.input := by rw [← he4]
          have h4out : x4.output = x3.output := by rw [← he4]
          have h4cells : ∀ i, x4.st.read_cell i = x3.st.read_cell i := by
            intro i
            rw [← he4]
            rfl
          have hs : seqEff hirEff [HirOp.Modify (-1), HirOp.Move d, HirOp.Modify 1,
              HirOp.Move (-d)] x = some x4 := by
            rw [seqEff_cons_some _ _ _ _ _ he1s, seqEff_cons_some _ _ _ _ _ he2s,
              seqEff_cons_some _ _ _ _ _ he3s, seqEff_cons_some _ _ _ _ _ he4s]
            rfl
          refine ⟨x4, hs, h4pos, by rw [h4in, h3in, h2in, h1in],
            by rw [h4out, h3out, h2out, h1out],
            seqEff_hir_valid _ x x4 hv hs, ?_, ?_⟩
          · intro hne
            refine ⟨?_, ?_, ?_⟩
            · rw [h4cells p, h3ne p (by omega), h2cells p, h1p]
            · rw [h4cells tgt, h3tgt, h2cells tgt, h1ne tgt hne]
            · intro i hip hit
              rw [h4cells i, h3ne i hit, h2cells i, h1ne i hip]
          · intro hEq
            intro i
            by_cases hip : i = p
            · subst hip
              rw [h4cells i, ← hEq, h3tgt, h2cells tgt, hEq, h1p]
              omega
            · rw [h4cells i, h3ne i (by rw [hEq]; exact hip), h2cells i, h1ne i hip]

theorem movecell_loop (d : Int) (p tgt : Nat) (htgt : add_offset_size p d = some tgt)
    (hne : tgt ≠ p) :
    ∀ v (fw : Nat) (x a' : ExecSt), x.st.pos = p → x.st.read_cell p = v → ValidSt x →
      whileRun ExecSt.readCur (seqEff hirEff [HirOp.Modify (-1), HirOp.Move d, HirOp.Modify 1,
        HirOp.Move (-d)]) fw x = some a' →
      a'.st.pos = p ∧ a'.input = x.input ∧ a'.output = x.output ∧
      a'.st.read_cell p = 0 ∧ a'.st.read_cell tgt = (x.st.read_cell tgt + v) % 256 ∧
      (∀ i, i ≠ p → i ≠ tgt → a'.st.read_cell i = x.st.read_cell i) ∧ ValidSt a' := by
  intro v
  induction v with
  | zero =>
    intro fw x a' hxp hxv hvx hwr
    have hrc : ExecSt.readCur x = 0 := by
      unfold ExecSt.readCur BrainfuckState.read_cur_cell
      rw [hxp, hxv]
    have hax := whileRun_zero_exit _ _ fw x a' hrc hwr
    subst hax
    have := hvx tgt
    refine ⟨hxp, rfl, rfl, hxv, by omega, fun i _ _ => rfl, hvx⟩
  | succ v ih =>
    intro fw x a' hxp hxv hvx hwr
    have hrc : ExecSt.readCur x = v + 1 := by
      unfold ExecSt.readCur BrainfuckState.read_cur_cell
      rw [hxp, hxv]
    cases fw with
    | zero => simp [whileRun] at hwr
    | succ fw =>
      rw [show whileRun ExecSt.readCur (seqEff hirEff [HirOp.Modify (-1), HirOp.Move d,
          HirOp.Modify 1, HirOp.Move (-d)]) (fw + 1) x =
        if 0 < ExecSt.readCur x then
          (seqEff hirEff [HirOp.Modify (-1), HirOp.Move d, HirOp.Modify 1,
            HirOp.Move (-d)] x).bind
            (whileRun ExecSt.readCur (seqEff hirEff [HirOp.Modify (-1), HirOp.Move d,
              HirOp.Modify 1, HirOp.Move (-d)]) fw)
        else some x from rfl] at hwr
      rw [if_pos (by omega)] at hwr
      obtain ⟨y, hy, hypos, hyin, hyout, hyv, hyne, -⟩ :=
        movecell_step d p tgt x hxp htgt hvx (by omega)
      obtain ⟨hyp, hytgt, hyoth⟩ := hyne hne
      rw [hy] at hwr
      simp only [Option.some_bind] at hwr
      obtain ⟨hps, hins, houts, hp0, hptgt, hoth, hv'⟩ :=
        ih fw y a' hypos (by rw [hyp, hxv]; omega) hyv hwr
      refine ⟨hps, by rw [hins, hyin], by rw [houts, hyout], hp0, ?_, ?_, hv'⟩
      · rw [hptgt, hytgt]
        omega
      · intro i hip hit
        rw [hoth i hip hit, hyoth i hip hit]

theorem movecell_transport (d : Int) (g fw : Nat) (a a' b : ExecSt) (hR : StEq a b)
    (hv : ValidSt a)
    (hwr : whileRun ExecSt.readCur (seqEff hirEff [HirOp.Modify (-1), HirOp.Move d,
      HirOp.Modify 1, HirOp.Move (-d)]) fw a = some a') :
    ∃ b', lirEff g (LirOp.MoveCell d) b = some b' ∧ StEq a' b' := by
  obtain ⟨hposR, hinR, houtR, hcellsR⟩ := hR
  have hrcab : a.st.read_cur_cell = b.st.read_cur_cell := by
    unfold BrainfuckState.read_cur_cell
    rw [hposR]
    exact hcellsR b.st.pos
  by_cases hra : ExecSt.readCur a = 0
  · have hax := whileRun_zero_exit _ _ fw a a' hra hwr
    have hrb : b.st.read_cur_cell = 0 := by
      rw [← hrcab]
      exact hra
    refine ⟨b, ?_, by rw [hax]; exact ⟨hposR, hinR, houtR, hcellsR⟩⟩
    simp [lirEff, hrb]
  · cases haos : add_offset_size a.st.pos d with
    | none =>
      exfalso
      cases he1 : hirEff 0 (HirOp.Modify (-1)) a with
      | none => rw [hirEff_modify] at he1; exact absurd he1 (by simp)
      | some x1 =>
        have h1pos : x1.st.pos = a.st.pos := by
          rw [hirEff_modify] at he1
          simp only [Option.some.injEq] at he1
          rw [← he1]
          show (a.st.set_cell _ a.st.pos).pos = a.st.pos
          rw [set_cell_pos]
        have he2 : hirEff 0 (HirOp.Move d) x1 = none := by
          simp only [hirEff]
          rw [h1pos, haos]
        have hseqn : seqEff hirEff [HirOp.Modify (-1), HirOp.Move d, HirOp.Modify 1,
            HirOp.Move (-d)] a = none := by
          rw [seqEff_cons_some _ _ _ _ _ he1, seqEff_cons, he2]
        cases fw with
        | zero => simp [whileRun] at hwr
        | succ fw =>
          rw [show whileRun ExecSt.readCur (seqEff hirEff [HirOp.Modify (-1), HirOp.Move d,
              HirOp.Modify 1, HirOp.Move (-d)]) (fw + 1) a =
            if 0 < ExecSt.readCur a then
              (seqEff hirEff [HirOp.Modify (-1), HirOp.Move d, HirOp.Modify 1,
                HirOp.Move (-d)] a).bind
                (whileRun ExecSt.readCur (seqEff hirEff [HirOp.Modify (-1), HirOp.Move d,
                  HirOp.Modify 1, HirOp.Move (-d)]) fw)
            else some a from rfl] at hwr
          rw [if_pos (by omega), hseqn] at hwr
          simp at hwr
    | some tgt =>
      by_cases htp : tgt = a.st.pos
      · exfalso
        refine whileRun_never ExecSt.readCur _
          (fun x => 0 < x.st.read_cell a.st.pos ∧ ValidSt x ∧ x.st.pos = a.st.pos)
          ?_ fw a a' ⟨?_, hv, rfl⟩ hwr
        · intro x hx
          obtain ⟨hx1, hx2, hx3⟩ := hx
          constructor
          · show 0 < x.st.read_cur_cell
            unfold BrainfuckState.read_cur_cell
            rw [hx3]
            exact hx1
          · intro y hy
            obtain ⟨y', hy', hypos, -, -, hyv, -, hyeq⟩ :=
              movecell_step d a.st.pos tgt x hx3 haos hx2 hx1
            rw [hy'] at hy
            simp only [Option.some.injEq] at hy
            rw [← hy]
            exact ⟨by rw [hyeq htp a.st.pos]; exact hx1, hyv, hypos⟩
        · show 0 < a.st.read_cur_cell
          unfold ExecSt.readCur at hra
          omega
      · obtain ⟨hps, hins, houts, hp0, hptgt, hoth, hv'⟩ :=
          movecell_loop d a.st.pos tgt haos htp (a.st.read_cell a.st.pos) fw a a' rfl rfl hv hwr
        have hrb : b.st.read_cur_cell ≠ 0 := by
          rw [← hrcab]
          unfold ExecSt.readCur at hra
          exact hra
        refine ⟨{ b with st :=
          (b.st.set_cell ((b.st.read_cell tgt + b.st.read_cur_cell) % 256)
            tgt).set_cur_cell 0 }, ?_, ?_, ?_, ?_, ?_⟩
        · simp only [lirEff]
          rw [if_pos hrb]
          rw [show add_offset_size b.st.pos d = some tgt from by rw [← hposR]; exact haos]
        · show a'.st.pos = ((b.st.set_cell _ tgt).set_cur_cell 0).pos
          unfold BrainfuckState.set_cur_cell
          rw [set_cell_pos, set_cell_pos, hps, hposR]
        · rw [hins, hinR]
        · rw [houts, houtR]
        · intro i
          show a'.st.read_cell i = ((b.st.set_cell _ tgt).set_cur_cell 0).read_cell i
          unfold BrainfuckState.set_cur_cell
          rw [set_cell_pos]
          by_cases hip : i = a.st.pos
          · subst hip
            rw [hp0, show a.st.pos = b.st.pos from hposR, read_cell_set_cell_self]
          · rw [read_cell_set_cell_ne _ _ _ _ (by rw [← hposR]; exact hip)]
            by_cases hit : i = tgt
            · subst hit
              rw [hptgt, read_cell_set_cell_self, hcellsR i]
              have hcur : a.st.read_cell a.st.pos = b.st.read_cur_cell := by
                rw [← hrcab]
                rfl
              rw [hcur]
            · rw [read_cell_set_cell_ne _ _ _ _ hit]
              rw [hoth i hip hit]
              exact hcellsR i

theorem foldlM_cons_opt (f : β → γ → Option β) (b : β) (e : γ) (l : List γ) :
    List.foldlM f b (e :: l) = (f b e).bind (fun b' => List.foldlM f b' l) := by
  simp [List.foldlM]

theorem simBody_acc : ∀ (l : List LirOp) (off : Int) (set : List (Int × Int)),
    LirGen.simBody l off set = ((LirGen.simBody l off []).1, set ++ (LirGen.simBody l off []).2) := by
  intro l
  induction l with
  | nil =>
    intro off set
    simp [LirGen.simBody]
  | cons x rest ih =>
    intro off set
    cases x with
    | Move d =>
      rw [show LirGen.simBody (LirOp.Move d :: rest) off set =
        LirGen.simBody rest (off + d) set from rfl]
      rw [show LirGen.simBody (LirOp.Move d :: rest) off [] =
        LirGen.simBody rest (off + d) [] from rfl]
      exact ih (off + d) set
    | Modify d =>
      rw [show LirGen.simBody (LirOp.Modify d :: rest) off set =
        LirGen.simBody rest off (set ++ [(off, d)]) from rfl]
      rw [show LirGen.simBody (LirOp.Modify d :: rest) off [] =
        LirGen.simBody rest off ([] ++ [(off, d)]) from rfl]
      rw [ih off (set ++ [(off, d)]), ih off ([] ++ [(off, d)])]
      simp
    | In => exact ih off set
    | Out => exact ih off set
    | WriteZero => exact ih off set
    | Hop d => exact ih off set
    | MoveCell d => exact ih off set
    | Meta m => exact ih off set
    | CnstMovSet s => exact ih off set
    | BrFor => exact ih off set
    | BrBack => exact ih off set

theorem cms_body_aux :
    ∀ (body : List HirOp), (∀ y ∈ body, HirOp.isModMov y = true) →
    ∀ (off : Int) (a a' : ExecSt) (bSt : BrainfuckState),
      ((a.st.pos : Int) = (bSt.pos : Int) + off) →
      (∀ i, a.st.read_cell i = bSt.read_cell i) →
      seqEff hirEff body a = some a' →
      ∃ bSt', List.foldlM cmsEntry bSt (LirGen.simBody (body.map HirOp.toLir) off []).2
          = some bSt' ∧
        bSt'.pos = bSt.pos ∧
        ((a'.st.pos : Int) = (bSt.pos : Int) + (LirGen.simBody (body.map HirOp.toLir) off []).1) ∧
        (∀ i, a'.st.read_cell i = bSt'.read_cell i) ∧
        a'.input = a.input ∧ a'.output = a.output := by
  intro body
  induction body with
  | nil =>
    intro hmm off a a' bSt hpos hcells hseq
    obtain rfl : a = a' := by simpa [seqEff] using hseq
    exact ⟨bSt, rfl, rfl, hpos, hcells, rfl, rfl⟩
  | cons y rest ih =>
    intro hmm off a a' bSt hpos hcells hseq
    cases y with
    | Move d =>
      have hsb : LirGen.simBody ((HirOp.Move d :: rest).map HirOp.toLir) off [] =
          LirGen.simBody (rest.map HirOp.toLir) (off + d) [] := rfl
      rw [hsb]
      cases haos : add_offset_size a.st.pos d with
      | none =>
        have he : hirEff 0 (HirOp.Move d) a = none := by
          simp only [hirEff]
          rw [haos]
        rw [seqEff_cons, he] at hseq
        exact absurd hseq (by simp)
      | some pn =>
        have hpn := add_offset_size_to_int a.st.pos d pn haos
        have he : hirEff 0 (HirOp.Move d) a =
            some { a with st := { a.st with pos := pn } } := by
          simp only [hirEff]
          rw [haos]
        rw [seqEff_cons_some _ _ _ _ _ he] at hseq
        obtain ⟨bSt', hfold, hbpos, hoffpos, hcells', hin', hout'⟩ :=
          ih (fun z hz => hmm z (by simp [hz])) (off + d)
            { a with st := { a.st with pos := pn } } a' bSt
            (by show (pn : Int) = (bSt.pos : Int) + (off + d); omega)
            (fun i => hcells i) hseq
        exact ⟨bSt', hfold, hbpos, by omega, hcells', hin', hout'⟩
    | Modify d =>
      have hsb : LirGen.simBody ((HirOp.Modify d :: rest).map HirOp.toLir) off [] =
          LirGen.simBody (rest.map HirOp.toLir) off [(off, d)] := rfl
      rw [hsb, simBody_acc (rest.map HirOp.toLir) off [(off, d)]]
      cases he : hirEff 0 (HirOp.Modify d) a with
      | none => rw [hirEff_modify] at he; exact absurd he (by simp)
      | some a1 =>
        have hes : hirEff 0 (HirOp.Modify d) a = some a1 := he
        rw [hirEff_modify] at he
        simp only [Option.some.injEq] at he
        have h1pos : a1.st.pos = a.st.pos := by
          rw [← he]
          show (a.st.set_cell _ a.st.pos).pos = a.st.pos
          rw [set_cell_pos]
        have h1in : a1.input = a.input := by rw [← he]
        have h1out : a1.output = a.output := by rw [← he]
        have h1p : a1.st.read_cell a.st.pos =
            ((((a.st.read_cur_cell : Int) + d) % 256)).toNat := by
          rw [← he]
          show (a.st.set_cell _ a.st.pos).read_cell a.st.pos = _
          rw [read_cell_set_cell_self]
        have h1ne : ∀ i, i ≠ a.st.pos → a1.st.read_cell i = a.st.read_cell i := by
          intro i hi
          rw [← he]
          show (a.st.set_cell _ a.st.pos).read_cell i = a.st.read_cell i
          rw [read_cell_set_cell_ne _ _ _ _ hi]
        rw [seqEff_cons_some _ _ _ _ _ hes] at hseq
        have hentry : cmsEntry bSt (off, d) =
            some (bSt.set_cell (add_offset_8 (bSt.read_cell a.st.pos) (toI8 d)) a.st.pos) := by
          unfold cmsEntry
          rw [show add_offset_size bSt.pos (off, d).1 = some a.st.pos from
            add_offset_size_of_int _ _ _ (by omega)]
        have hvals : add_offset_8 (bSt.read_cell a.st.pos) (toI8 d) =
            ((((a.st.read_cur_cell : Int) + d) % 256)).toNat := by
          rw [add_offset_8_toI8]
          rw [← hcells a.st.pos]
          rfl
        obtain ⟨bSt', hfold, hbpos, hoffpos, hcells', hin', hout'⟩ :=
          ih (fun z hz => hmm z (by simp [hz])) off a1 a'
            (bSt.set_cell (add_offset_8 (bSt.read_cell a.st.pos) (toI8 d)) a.st.pos)
            (by rw [h1pos, set_cell_pos]; exact hpos)
            (by
              intro i
              by_cases hi : i = a.st.pos
              · subst hi
                rw [h1p, read_cell_set_cell_self, hvals]
              · rw [h1ne i hi, read_cell_set_cell_ne _ _ _ _ hi]
                exact hcells i)
            hseq
        refine ⟨bSt', ?_, ?_, ?_, hcells', by rw [hin', h1in], by rw [hout', h1out]⟩
        · show List.foldlM cmsEntry bSt
            ((off, d) :: (LirGen.simBody (rest.map HirOp.toLir) off []).2) = some bSt'
          rw [foldlM_cons_opt, hentry]
          simp only [Option.some_bind]
          exact hfold
        · exact hbpos
        · show (a'.st.pos : Int) = (bSt.pos : Int) +
            (LirGen.simBody (rest.map HirOp.toLir) off []).1
          exact hoffpos
    | In => exact absurd (hmm HirOp.In (by simp)) (by simp [HirOp.isModMov])
    | Out => exact absurd (hmm HirOp.Out (by simp)) (by simp [HirOp.isModMov])
    | BrFor => exact absurd (hmm HirOp.BrFor (by simp)) (by simp [HirOp.isModMov])
    | BrBack => exact absurd (hmm HirOp.BrBack (by simp)) (by simp [HirOp.isModMov])

theorem bchunk_iter (body : List HirOp) (hmm : ∀ y ∈ body, HirOp.isModMov y = true)
    (a a' b : ExecSt) (hR : StEq a b) (hseq : seqEff hirEff body a = some a') :
    ∃ b', seqEff lirEff [LirOp.CnstMovSet (LirGen.simBody (body.map HirOp.toLir) 0 []).2,
      LirOp.Move (LirGen.simBody (body.map HirOp.toLir) 0 []).1] b = some b' ∧ StEq a' b' := by
  obtain ⟨hpos, hin, hout, hcells⟩ := hR
  obtain ⟨bSt', hfold, hbpos, hoffpos, hcells', hin', hout'⟩ := cms_body_aux body hmm 0 a a' b.st
    (by rw [hpos]; omega) (fun i => hcells i) hseq
  have hcms : lirEff 0 (LirOp.CnstMovSet (LirGen.simBody (body.map HirOp.toLir) 0 []).2) b =
      some { b with st := bSt' } := by
    simp only [lirEff]
    rw [hfold]
  have hmv : lirEff 0 (LirOp.Move (LirGen.simBody (body.map HirOp.toLir) 0 []).1)
      { b with st := bSt' } = some { b with st := { bSt' with pos := a'.st.pos } } := by
    show moveEff _ _ = _
    unfold moveEff
    rw [show add_offset_size bSt'.pos (LirGen.simBody (body.map HirOp.toLir) 0 []).1 =
      some a'.st.pos from add_offset_size_of_int _ _ _ (by rw [hbpos]; omega)]
  refine ⟨{ b with st := { bSt' with pos := a'.st.pos } }, ?_, rfl, by rw [hin', hin],
    by rw [hout', hout], fun i => hcells' i⟩
  rw [seqEff_cons_some _ _ _ _ _ hcms, seqEff_cons_some _ _ _ _ _ hmv]
  rfl

theorem chunk_scanMatch (isOp isCl : α → Bool) (prog : List α) (q : Nat) (opb clb : α)
    (body rest' : List α) (hdrop : prog.drop q = opb :: (body ++ clb :: rest'))
    (hcl : isCl clb = true)
    (hb : ∀ y ∈ body, isOp y = false ∧ isCl y = false) :
    scanMatch isOp isCl prog q = some (q + 1 + body.length) := by
  have hdrop1 : prog.drop (q + 1) = body ++ clb :: rest' := by
    rw [← List.drop_drop, hdrop]
    rfl
  apply scanMatch_build
  rw [hdrop1, scanAux_append_nobr _ _ _ _ _ hb, scanAux_cons_close_zero _ _ _ _ hcl]
  simp

theorem toLir_classify_plain (op : HirOp) (hcl : HirOp.classify op = OpClass.plain) :
    LirOp.classify (HirOp.toLir op) = OpClass.plain := by
  cases op <;> simp_all [HirOp.classify, HirOp.toLir, LirOp.classify]

theorem toLir_eff_fuelfree (op : HirOp) (hcl : HirOp.classify op = OpClass.plain)
    (g g' : Nat) (s : ExecSt) : lirEff g (HirOp.toLir op) s = lirEff g' (HirOp.toLir op) s := by
  cases op with
  | Modify d => rfl
  | Move d => rfl
  | In => rfl
  | Out => rfl
  | BrFor => simp [HirOp.classify] at hcl
  | BrBack => simp [HirOp.classify] at hcl

theorem lirEff_le (f f' : Nat) (hf : f ≤ f') (op : LirOp) (s s' : ExecSt)
    (ha : lirEff f op s = some s') : lirEff f' op s = some s' := by
  induction f' with
  | zero =>
    have : f = 0 := by omega
    subst this
    exact ha
  | succ f' ih =>
    rcases Nat.lt_or_ge f (f' + 1) with hlt | hge
    · exact lirEff_mono f' op s s' (ih (by omega))
    · have : f = f' + 1 := by omega
      subst this
      exact ha

theorem modmov_not_br (y : HirOp) (hmm : HirOp.isModMov y = true) : HirOp.isBr y = false := by
  cases y <;> simp_all [HirOp.isModMov, HirOp.isBr, HirOp.isOpen, HirOp.isClose]

theorem hirop_not_br_split (y : HirOp) (hbr : HirOp.isBr y = false) :
    HirOp.isOpen y = false ∧ HirOp.isClose y = false := by
  cases y <;> simp_all [HirOp.isBr, HirOp.isOpen, HirOp.isClose]

theorem genir_head (h : List HirOp) (j : Nat) (c : LirOp) (w : List LirOp)
    (hne : h.drop (cIdx j h) ≠ []) (hco : cOut (h.drop (cIdx j h)) = c :: w) :
    (LirGen.gen_ir h)[oIdx j h]? = some c := by
  have hgd := gen_ir_drop h j
  have hseg := gen_ir_seg (h.drop (cIdx j h)) hne
  rw [hco] at hseg
  have hd : (LirGen.gen_ir h).drop (oIdx j h) =
      (c :: w) ++ LirGen.gen_ir ((h.drop (cIdx j h)).drop (cStep (h.drop (cIdx j h)))) := by
    rw [← hgd, hseg]
  have h0 : ((LirGen.gen_ir h).drop (oIdx j h))[0]? = some c := by
    rw [hd]
    simp
  rw [List.getElem?_drop] at h0
  simpa using h0

theorem close_match_boundary (h : List HirOp) (TH : List Nat) (j : Nat)
    (hCM : ClosesMatched HirOp.isOpen HirOp.isClose h)
    (htableH : ∀ i op, h[i]? = some op → HirOp.isOpen op = true →
      ∃ m, scanMatch HirOp.isOpen HirOp.isClose h i = some m ∧
        TH.getD i 0 = m ∧ TH.getD m 0 = i)
    (hq : h[cIdx j h]? = some HirOp.BrBack) :
    ∃ jq, scanMatch HirOp.isOpen HirOp.isClose h (cIdx jq h) = some (cIdx j h) ∧
      TH.getD (cIdx j h) 0 = cIdx jq h ∧ TH.getD (cIdx jq h) 0 = cIdx j h ∧
      cStep (h.drop (cIdx jq h)) = 1 ∧ cOut (h.drop (cIdx jq h)) = [LirOp.BrFor] ∧
      h[cIdx jq h]? = some HirOp.BrFor := by
  obtain ⟨i, op', hio, hisopen, hsm⟩ := hCM (cIdx j h) HirOp.BrBack hq (by rfl)
  have hopf : op' = HirOp.BrFor := by
    cases op' <;> simp_all [HirOp.isOpen]
  subst hopf
  have hi_lt : i < h.length := (List.getElem?_eq_some_iff.mp hio).1
  obtain ⟨jq, hjq, hile, hilt⟩ := c_partition h.length h (le_refl _) i hi_lt
  have hbnd := cIdx_boundary_succ h jq
  have hne : h.drop (cIdx jq h) ≠ [] := drop_cIdx_ne_nil h jq hjq
  have hieq : i = cIdx jq h := by
    by_contra hcon
    have h0lt : 0 < i - cIdx jq h := by omega
    have hlt2 : i - cIdx jq h < cStep (h.drop (cIdx jq h)) := by omega
    have hgi : (h.drop (cIdx jq h))[i - cIdx jq h]? = some HirOp.BrFor := by
      rw [List.getElem?_drop]
      rw [show cIdx jq h + (i - cIdx jq h) = i from by omega]
      exact hio
    exact interior_no_open (h.drop (cIdx jq h)) hne (i - cIdx jq h) h0lt hlt2
      HirOp.BrFor hgi rfl
  subst hieq
  have hmono_contra : ∀ bodyLen : Nat, cIdx j h = cIdx jq h + 1 + bodyLen →
      cIdx j h < cIdx (jq + 1) h → False := by
    intro bodyLen hEq hlt
    have hgt : cIdx jq h < cIdx j h := by omega
    have hj_gt : jq < j := by
      by_contra hc
      push_neg at hc
      have := cIdx_le_mono h j jq hc
      omega
    have := cIdx_le_mono h (jq + 1) j (by omega)
    omega
  rcases cseg_cases (h.drop (cIdx jq h)) hne with
    ⟨op, rest, hueq, hopen, hstepu, houtu⟩ | ⟨rest, hueq, hstepu, houtu⟩ |
    ⟨body, rest', opt, hueq, hnbody, hstepu, houtu, -, -, -⟩ |
    ⟨body, rest', hueq, hbmm, hstepu, houtu⟩
  · have hop : op = HirOp.BrFor := by
      have h0 : (h.drop (cIdx jq h))[0]? = some HirOp.BrFor := by
        rw [List.getElem?_drop]
        simpa using hio
      rw [hueq] at h0
      simpa using h0
    subst hop
    simp [HirOp.isOpen] at hopen
  · obtain ⟨m, hsmm, hTHi, hTHm⟩ := htableH (cIdx jq h) HirOp.BrFor hio rfl
    rw [hsm] at hsmm
    simp only [Option.some.injEq] at hsmm
    refine ⟨jq, hsm, by rw [hsmm]; exact hTHm, by rw [hsmm]; exact hTHi,
      hstepu, houtu, hio⟩
  · exfalso
    have hsm2 := chunk_scanMatch HirOp.isOpen HirOp.isClose h (cIdx jq h) HirOp.BrFor
      HirOp.BrBack body rest' hueq rfl (fun y hy => hirop_not_br_split y (hnbody y hy))
    rw [hsm] at hsm2
    simp only [Option.some.injEq] at hsm2
    refine hmono_contra body.length hsm2 ?_
    rw [hbnd, hstepu]
    omega
  · exfalso
    have hsm2 := chunk_scanMatch HirOp.isOpen HirOp.isClose h (cIdx jq h) HirOp.BrFor
      HirOp.BrBack body rest' hueq rfl
      (fun y hy => hirop_not_br_split y (modmov_not_br y (hbmm y hy)))
    rw [hsm] at hsm2
    simp only [Option.some.injEq] at hsm2
    refine hmono_contra body.length hsm2 ?_
    rw [hbnd, hstepu]
    omega

theorem hir_to_lir_sim (h : List HirOp) (TH TL : List Nat)
    (hCM : ClosesMatched HirOp.isOpen HirOp.isClose h)
    (htableH : ∀ i op, h[i]? = some op → HirOp.isOpen op = true →
      ∃ m, scanMatch HirOp.isOpen HirOp.isClose h i = some m ∧
        TH.getD i 0 = m ∧ TH.getD m 0 = i)
    (htableL : ∀ i op, (LirGen.gen_ir h)[i]? = some op → LirOp.isOpen op = true →
      ∃ m, scanMatch LirOp.isOpen LirOp.isClose (LirGen.gen_ir h) i = some m ∧
        TL.getD i 0 = m ∧ TL.getD m 0 = i) :
    ∀ fuel j a b resA, StEq a b → ValidSt a →
      runG HirOp.classify ExecSt.readCur hirEff h TH fuel (cIdx j h) a = some resA →
      ∃ n resB, runG LirOp.classify ExecSt.readCur lirEff (LirGen.gen_ir h) TL n (oIdx j h) b
        = some resB ∧ StEq resA resB := by
  intro fuel
  induction fuel using Nat.strong_induction_on with
  | _ fuel ih =>
    intro j a b resA hR hV hrun
    cases fuel with
    | zero => simp [runG] at hrun
    | succ f0 =>
      by_cases hnil : h.drop (cIdx j h) = []
      · have hip : h[cIdx j h]? = none := by
          rw [List.getElem?_eq_none]
          have := congrArg List.length hnil
          rw [List.length_drop] at this
          simp only [List.length_nil] at this
          omega
        rw [runG_stop _ _ _ _ _ _ _ _ hip] at hrun
        have hres : resA = a := by simpa using hrun.symm
        refine ⟨1, b, ?_, by rw [hres]; exact hR⟩
        exact runG_stop _ _ _ _ _ _ _ _ (genir_getElem_none h j hnil)
      · have hq1 := cIdx_boundary_succ h j
        have hr1 := oIdx_boundary_succ h j
        have hrcur := StEq_readCur a b hR
        rcases cseg_cases (h.drop (cIdx j h)) hnil with
          ⟨op, rest, hueq, hopen, hstep, hout⟩ | ⟨rest, hueq, hstep, hout⟩ |
          ⟨body, rest', opt, hueq, hnb, hstep, hout, hbr, hcls, hpat⟩ |
          ⟨body, rest', hueq, hbmm, hstep, hout⟩
      -- CASE 1: plain 1-1 op (non-open head)
        · have hiq : h[cIdx j h]? = some op := by
            have h0 : (h.drop (cIdx j h))[0]? = some op := by rw [hueq]; simp
            rw [List.getElem?_drop] at h0
            simpa using h0
          have hlq : (LirGen.gen_ir h)[oIdx j h]? = some (HirOp.toLir op) :=
            genir_head h j _ _ hnil hout
          have hstep1 : cIdx j h + 1 = cIdx (j + 1) h := by rw [hq1, hstep]
          have hostep1 : oIdx j h + 1 = oIdx (j + 1) h := by rw [hr1, hout]; simp
          cases hco : HirOp.classify op with
          | openBr => cases op <;> simp_all [HirOp.classify, HirOp.isOpen]
          | plain =>
            cases he : hirEff f0 op a with
            | none =>
              rw [runG_plain_none _ _ _ _ _ _ _ _ _ hiq hco he] at hrun
              exact absurd hrun (by simp)
            | some a1 =>
              rw [runG_plain_step _ _ _ _ _ _ _ _ _ _ hiq hco he] at hrun
              rw [hstep1] at hrun
              obtain ⟨b1, hb1, hR1⟩ := hir_plain_transport op f0 0 a b a1 hco hR he
              have hV1 := hirEff_valid f0 op a a1 hV he
              obtain ⟨n, resB, hnrun, hRres⟩ := ih f0 (by omega) (j + 1) a1 b1 resA hR1 hV1 hrun
              refine ⟨n + 1, resB, ?_, hRres⟩
              rw [runG_plain_step _ _ _ _ _ _ _ _ _ _ hlq (toLir_classify_plain op hco)
                (by rw [toLir_eff_fuelfree op hco n 0]; exact hb1)]
              rw [hostep1]
              exact hnrun
          | closeBr =>
            have hopb : op = HirOp.BrBack := by
              cases op <;> simp_all [HirOp.classify]
            subst hopb
            have hclB : LirOp.classify (HirOp.toLir HirOp.BrBack) = OpClass.closeBr := rfl
            by_cases hra : ExecSt.readCur a = 0
            · rw [runG_close_zero _ _ _ _ _ _ _ _ _ hiq hco hra] at hrun
              rw [hstep1] at hrun
              obtain ⟨n, resB, hnrun, hRres⟩ := ih f0 (by omega) (j + 1) a b resA hR hV hrun
              refine ⟨n + 1, resB, ?_, hRres⟩
              rw [runG_close_zero _ _ _ _ _ _ _ _ _ hlq hclB (by rw [← hrcur]; exact hra)]
              rw [hostep1]
              exact hnrun
            · obtain ⟨jq, hsmq, hTHq, hTHqi, hkept, houtq, hioq⟩ :=
                close_match_boundary h TH j hCM htableH hiq
              rw [runG_close_pos _ _ _ _ _ _ _ _ _ hiq hco hra] at hrun
              rw [hTHq] at hrun
              have hcs : cIdx jq h + 1 = cIdx (jq + 1) h := by
                rw [cIdx_boundary_succ h jq, hkept]
              rw [hcs] at hrun
              obtain ⟨K, rl, hsmL, hK1, hK2, hKge⟩ :=
                open_match_transport h jq (cIdx j h) hkept houtq hsmq
              have hKj : K = j + 1 := cIdx_inj' h K (j + 1) (by rw [← hK1, hq1, hstep])
              subst hKj
              have hoj1 : oIdx (j + 1) h = oIdx j h + 1 := by rw [hr1, hout]; simp
              have hrl : rl = oIdx j h := by omega
              have hneq : h.drop (cIdx jq h) ≠ [] := by
                intro hcon
                rw [hcon] at houtq
                rw [show cOut ([] : List HirOp) = [] from rfl] at houtq
                simp at houtq
              have hlqO : (LirGen.gen_ir h)[oIdx jq h]? = some LirOp.BrFor :=
                genir_head h jq _ _ hneq houtq
              obtain ⟨m2, hsm2, hTLq, hTLm2⟩ := htableL (oIdx jq h) LirOp.BrFor hlqO rfl
              have hm2 : m2 = rl := by
                rw [hsmL] at hsm2
                simpa using hsm2.symm
              have hTLr : TL.getD (oIdx j h) 0 = oIdx jq h := by
                rw [← hrl, ← hm2]
                exact hTLm2
              obtain ⟨n, resB, hnrun, hRres⟩ := ih f0 (by omega) (jq + 1) a b resA hR hV hrun
              refine ⟨n + 1, resB, ?_, hRres⟩
              rw [runG_close_pos _ _ _ _ _ _ _ _ _ hlq hclB (by rw [← hrcur]; exact hra)]
              rw [hTLr]
              rw [show oIdx jq h + 1 = oIdx (jq + 1) h from by
                rw [oIdx_boundary_succ h jq, houtq]; simp]
              exact hnrun
      -- CASE 2: kept BrFor
        · have hiq : h[cIdx j h]? = some HirOp.BrFor := by
            have h0 : (h.drop (cIdx j h))[0]? = some HirOp.BrFor := by rw [hueq]; simp
            rw [List.getElem?_drop] at h0
            simpa using h0
          have hlq : (LirGen.gen_ir h)[oIdx j h]? = some LirOp.BrFor :=
            genir_head h j _ _ hnil hout
          have hclO : LirOp.classify LirOp.BrFor = OpClass.openBr := rfl
          have hstep1 : cIdx j h + 1 = cIdx (j + 1) h := by rw [hq1, hstep]
          have hostep1 : oIdx j h + 1 = oIdx (j + 1) h := by rw [hr1, hout]; simp
          obtain ⟨m, hsmH, hTHq, hTHm⟩ := htableH (cIdx j h) HirOp.BrFor hiq rfl
          obtain ⟨K, rl, hsmL, hK1, hK2, hKge⟩ := open_match_transport h j m hstep hout hsmH
          obtain ⟨m2, hsm2, hTLr, hTLm2⟩ := htableL (oIdx j h) LirOp.BrFor hlq rfl
          have hm2 : m2 = rl := by
            rw [hsmL] at hsm2
            simpa using hsm2.symm
          by_cases hra : ExecSt.readCur a = 0
          · rw [runG_open_zero _ _ _ _ _ _ _ _ _ hiq rfl hra] at hrun
            rw [hTHq] at hrun
            rw [show m + 1 = cIdx K h from hK1] at hrun
            obtain ⟨n, resB, hnrun, hRres⟩ := ih f0 (by omega) K a b resA hR hV hrun
            refine ⟨n + 1, resB, ?_, hRres⟩
            rw [runG_open_zero _ _ _ _ _ _ _ _ _ hlq hclO (by rw [← hrcur]; exact hra)]
            rw [hTLr, hm2]
            rw [show rl + 1 = oIdx K h from hK2]
            exact hnrun
          · rw [runG_open_pos _ _ _ _ _ _ _ _ _ hiq rfl hra] at hrun
            rw [hstep1] at hrun
            obtain ⟨n, resB, hnrun, hRres⟩ := ih f0 (by omega) (j + 1) a b resA hR hV hrun
            refine ⟨n + 1, resB, ?_, hRres⟩
            rw [runG_open_pos _ _ _ _ _ _ _ _ _ hlq hclO (by rw [← hrcur]; exact hra)]
            rw [hostep1]
            exact hnrun
      -- CASE 3: A-chunk
        · have hiq : h[cIdx j h]? = some HirOp.BrFor := by
            have h0 : (h.drop (cIdx j h))[0]? = some HirOp.BrFor := by rw [hueq]; simp
            rw [List.getElem?_drop] at h0
            simpa using h0
          obtain ⟨m, hsmH, hTHq, hTHm⟩ := htableH (cIdx j h) HirOp.BrFor hiq rfl
          have hsmc := chunk_scanMatch HirOp.isOpen HirOp.isClose h (cIdx j h) HirOp.BrFor
            HirOp.BrBack body rest' hueq rfl (fun y hy => hirop_not_br_split y (hnb y hy))
          have hm : m = cIdx j h + 1 + body.length := by
            rw [hsmH] at hsmc
            simp only [Option.some.injEq] at hsmc
            omega
          subst hm
          obtain ⟨fw, a1, f1, hwr, hf1, hcont⟩ := loop_extract HirOp.classify ExecSt.readCur
            hirEff h TH HirOp.BrFor HirOp.BrBack (cIdx j h) body rest' rfl rfl hueq
            (fun y hy => classify_plain_of_not_br y (hnb y hy)) (fun f1 f2 y s _ => rfl)
            hTHq hTHm (f0 + 1) a resA hrun
          have hcix : cIdx j h + 1 + body.length + 1 = cIdx (j + 1) h := by
            rw [hq1, hstep]
            omega
          rw [hcix] at hcont
          have hV1 := whileRun_hir_valid body fw a a1 hV hwr
          have hlq : (LirGen.gen_ir h)[oIdx j h]? = some opt :=
            genir_head h j _ _ hnil hout
          have hostep1 : oIdx j h + 1 = oIdx (j + 1) h := by rw [hr1, hout]; simp
          rcases hpat with ⟨d, hbody, hopt⟩ | ⟨d, hbody, hopt⟩ | ⟨d, hbody, hopt⟩
          · subst hbody
            subst hopt
            obtain ⟨b1, hb1, hR1⟩ := writezero_transport d 0 fw a a1 b hR hwr
            obtain ⟨n, resB, hnrun, hRres⟩ := ih f1 (by omega) (j + 1) a1 b1 resA hR1 hV1 hcont
            refine ⟨n + 1, resB, ?_, hRres⟩
            rw [runG_plain_step _ _ _ _ _ _ _ _ _ _ hlq hcls
              (lirEff_le 0 n (by omega) _ b b1 hb1)]
            rw [hostep1]
            exact hnrun
          · subst hbody
            subst hopt
            obtain ⟨b1, hb1, hR1⟩ := hop_transport d fw fw (le_refl fw) a a1 b hR hwr
            obtain ⟨n, resB, hnrun, hRres⟩ := ih f1 (by omega) (j + 1) a1 b1 resA hR1 hV1 hcont
            refine ⟨fw + n + 1, resB, ?_, hRres⟩
            rw [runG_plain_step _ _ _ _ _ _ _ _ _ _ hlq hcls
              (lirEff_le fw (fw + n) (by omega) _ b b1 hb1)]
            rw [hostep1]
            exact runG_le LirOp.classify ExecSt.readCur lirEff (LirGen.gen_ir h) TL
              (fun f op s s' hss => lirEff_mono f op s s' hss) n (fw + n) (by omega)
              (oIdx (j + 1) h) b1 resB hnrun
          · subst hbody
            subst hopt
            obtain ⟨b1, hb1, hR1⟩ := movecell_transport d 0 fw a a1 b hR hV hwr
            obtain ⟨n, resB, hnrun, hRres⟩ := ih f1 (by omega) (j + 1) a1 b1 resA hR1 hV1 hcont
            refine ⟨n + 1, resB, ?_, hRres⟩
            rw [runG_plain_step _ _ _ _ _ _ _ _ _ _ hlq hcls
              (lirEff_le 0 n (by omega) _ b b1 hb1)]
            rw [hostep1]
            exact hnrun
      -- CASE 4: B-chunk
        · have hiq : h[cIdx j h]? = some HirOp.BrFor := by
            have h0 : (h.drop (cIdx j h))[0]? = some HirOp.BrFor := by rw [hueq]; simp
            rw [List.getElem?_drop] at h0
            simpa using h0
          have hnb : ∀ y ∈ body, HirOp.isBr y = false := fun y hy => modmov_not_br y (hbmm y hy)
          obtain ⟨m, hsmH, hTHq, hTHm⟩ := htableH (cIdx j h) HirOp.BrFor hiq rfl
          have hsmc := chunk_scanMatch HirOp.isOpen HirOp.isClose h (cIdx j h) HirOp.BrFor
            HirOp.BrBack body rest' hueq rfl (fun y hy => hirop_not_br_split y (hnb y hy))
          have hm : m = cIdx j h + 1 + body.length := by
            rw [hsmH] at hsmc
            simp only [Option.some.injEq] at hsmc
            omega
          subst hm
          obtain ⟨fw, a1, f1, hwr, hf1, hcont⟩ := loop_extract HirOp.classify ExecSt.readCur
            hirEff h TH HirOp.BrFor HirOp.BrBack (cIdx j h) body rest' rfl rfl hueq
            (fun y hy => classify_plain_of_not_br y (hnb y hy)) (fun f1 f2 y s _ => rfl)
            hTHq hTHm (f0 + 1) a resA hrun
          have hcix : cIdx j h + 1 + body.length + 1 = cIdx (j + 1) h := by
            rw [hq1, hstep]
            omega
          rw [hcix] at hcont
          have hV1 := whileRun_hir_valid body fw a a1 hV hwr
          obtain ⟨b1, hwrL, hR1⟩ := whileRun_rel ExecSt.readCur ExecSt.readCur
            (seqEff hirEff body)
            (seqEff lirEff [LirOp.CnstMovSet (LirGen.simBody (body.map HirOp.toLir) 0 []).2,
              LirOp.Move (LirGen.simBody (body.map HirOp.toLir) 0 []).1])
            StEq (fun x y hxy => StEq_readCur x y hxy)
            (fun x y x' hxy hx => bchunk_iter body hbmm x x' y hxy hx) fw a b a1 hR hwr
          obtain ⟨n, resB, hnrun, hRres⟩ := ih f1 (by omega) (j + 1) a1 b1 resA hR1 hV1 hcont
          have hgd : (LirGen.gen_ir h).drop (oIdx j h) = LirOp.BrFor ::
              ([LirOp.CnstMovSet (LirGen.simBody (body.map HirOp.toLir) 0 []).2,
                LirOp.Move (LirGen.simBody (body.map HirOp.toLir) 0 []).1] ++
               LirOp.BrBack :: LirGen.gen_ir
                 ((h.drop (cIdx j h)).drop (cStep (h.drop (cIdx j h))))) := by
            rw [← gen_ir_drop h j, gen_ir_seg _ hnil, hout]
            rfl
          have hlq : (LirGen.gen_ir h)[oIdx j h]? = some LirOp.BrFor :=
            genir_head h j _ _ hnil (by rw [hout])
          obtain ⟨m2, hsm2, hTLr, hTLm2⟩ := htableL (oIdx j h) LirOp.BrFor hlq rfl
          have hsmLc := chunk_scanMatch LirOp.isOpen LirOp.isClose (LirGen.gen_ir h)
            (oIdx j h) LirOp.BrFor LirOp.BrBack
            [LirOp.CnstMovSet (LirGen.simBody (body.map HirOp.toLir) 0 []).2,
              LirOp.Move (LirGen.simBody (body.map HirOp.toLir) 0 []).1] _ hgd rfl
            (by
              intro y hy
              simp only [List.mem_cons, List.not_mem_nil, or_false] at hy
              rcases hy with rfl | rfl
              · exact ⟨rfl, rfl⟩
              · exact ⟨rfl, rfl⟩)
          have hm2 : m2 = oIdx j h + 1 + 2 := by
            rw [hsmLc] at hsm2
            simpa using hsm2.symm
          have hTLr' : TL.getD (oIdx j h) 0 = oIdx j h + 1 + 2 := by
            rw [hTLr, hm2]
          have hTLm' : TL.getD (oIdx j h + 1 + 2) 0 = oIdx j h := by
            rw [← hm2]
            exact hTLm2
          have hoj4 : oIdx j h + 1 + 2 + 1 = oIdx (j + 1) h := by
            rw [hr1, hout]
            simp
          have hcont4 : runG LirOp.classify ExecSt.readCur lirEff (LirGen.gen_ir h) TL n
              (oIdx j h + 1 + 2 + 1) b1 = some resB := by
            rw [hoj4]
            exact hnrun
          obtain ⟨F, hF⟩ := loop_construct LirOp.classify ExecSt.readCur lirEff
            (LirGen.gen_ir h) TL LirOp.BrFor LirOp.BrBack (oIdx j h)
            [LirOp.CnstMovSet (LirGen.simBody (body.map HirOp.toLir) 0 []).2,
              LirOp.Move (LirGen.simBody (body.map HirOp.toLir) 0 []).1] _ rfl rfl hgd
            (by
              intro y hy
              simp only [List.mem_cons, List.not_mem_nil, or_false] at hy
              rcases hy with rfl | rfl
              · rfl
              · rfl)
            (by
              intro f1 f2 y s hy
              simp only [List.mem_cons, List.not_mem_nil, or_false] at hy
              rcases hy with rfl | rfl
              · rfl
              · rfl)
            hTLr' hTLm' fw b b1 hwrL n resB hcont4
          exact ⟨F, resB, hF, hRres⟩

theorem opensMatched_drop (isOp isCl : α → Bool) (l : List α) (c : Nat)
    (h : OpensMatched isOp isCl l) : OpensMatched isOp isCl (l.drop c) := by
  intro i op hi hoi
  have hl : l[c + i]? = some op := by
    rw [← List.getElem?_drop]
    exact hi
  have hsm := h (c + i) op hl hoi
  unfold scanMatch at hsm ⊢
  have hdd : (l.drop c).drop (i + 1) = l.drop (c + i + 1) := by
    rw [List.drop_drop]
    congr 1
  rw [hdd]
  cases hx : scanAux isOp isCl 0 (l.drop (c + i + 1)) with
  | none => rw [hx] at hsm; simp at hsm
  | some r => simp

theorem lirop_not_br_split (y : LirOp) (hbr : LirOp.isBr y = false) :
    LirOp.isOpen y = false ∧ LirOp.isClose y = false := by
  cases y <;> simp_all [LirOp.isBr, LirOp.isOpen, LirOp.isClose]

theorem lir_opensMatched : ∀ (n : Nat) (h : List HirOp), h.length ≤ n →
    OpensMatched HirOp.isOpen HirOp.isClose h →
    OpensMatched LirOp.isOpen LirOp.isClose (LirGen.gen_ir h) := by
  intro n
  induction n with
  | zero =>
    intro h hn hOM i op hi hoi
    have : h = [] := by
      cases h with
      | nil => rfl
      | cons a t => simp at hn
    subst this
    rw [gen_ir_nil] at hi
    simp at hi
  | succ n ih =>
    intro h hn hOM
    by_cases hnil : h = []
    · subst hnil
      intro i op hi hoi
      rw [gen_ir_nil] at hi
      simp at hi
    · have hseg := gen_ir_seg h hnil
      have hOM' : OpensMatched HirOp.isOpen HirOp.isClose (h.drop (cStep h)) :=
        opensMatched_drop _ _ h (cStep h) hOM
      have hpos : 0 < h.length := by
        cases h with
        | nil => exact absurd rfl hnil
        | cons a t => simp
      have hlen' : (h.drop (cStep h)).length ≤ n := by
        rw [List.length_drop]
        have := cStep_pos h
        omega
      have ihg := ih (h.drop (cStep h)) hlen' hOM'
      intro i op hi hoi
      rcases Nat.lt_or_ge i (cOut h).length with hlt | hge
      · rcases cseg_cases h hnil with
          ⟨op0, rest, hueq, hopen0, hstep0, hout0⟩ | ⟨rest, hueq, hstep0, hout0⟩ |
          ⟨body, rest', opt, hueq, hnb, hstep0, hout0, hbr0, hcls0, -⟩ |
          ⟨body, rest', hueq, hbmm, hstep0, hout0⟩
        · rw [hout0] at hlt
          simp only [List.length_cons, List.length_nil] at hlt
          have hi0 : i = 0 := by omega
          subst hi0
          rw [hseg, hout0] at hi
          simp only [List.cons_append, List.getElem?_cons_zero, Option.some.injEq] at hi
          rw [← hi] at hoi
          rw [toLir_isOpen] at hoi
          rw [hoi] at hopen0
          exact absurd hopen0 (by simp)
        · rw [hout0] at hlt
          simp only [List.length_cons, List.length_nil] at hlt
          have hi0 : i = 0 := by omega
          subst hi0
          have hh0 : h[0]? = some HirOp.BrFor := by rw [hueq]; simp
          obtain ⟨m, hm⟩ := Option.isSome_iff_exists.mp (hOM 0 HirOp.BrFor hh0 rfl)
          obtain ⟨K, rl, hsmL, -, -, -⟩ := open_match_transport h 0 m hstep0 hout0 hm
          rw [show oIdx 0 h = 0 from rfl] at hsmL
          rw [hsmL]
          rfl
        · rw [hout0] at hlt
          simp only [List.length_cons, List.length_nil] at hlt
          have hi0 : i = 0 := by omega
          subst hi0
          rw [hseg, hout0] at hi
          simp only [List.cons_append, List.getElem?_cons_zero, Option.some.injEq] at hi
          rw [← hi] at hoi
          have := (lirop_not_br_split opt hbr0).1
          rw [hoi] at this
          exact absurd this (by simp)
        · rw [hout0] at hlt
          simp only [List.length_cons, List.length_nil] at hlt
          rw [hseg, hout0] at hi
          have hgd0 : LirGen.gen_ir h = LirOp.BrFor ::
              ([LirOp.CnstMovSet (LirGen.simBody (body.map HirOp.toLir) 0 []).2,
                LirOp.Move (LirGen.simBody (body.map HirOp.toLir) 0 []).1] ++
               LirOp.BrBack :: LirGen.gen_ir (h.drop (cStep h))) := by
            rw [hseg, hout0]
            rfl
          interval_cases i
          · have hsmLc := chunk_scanMatch LirOp.isOpen LirOp.isClose (LirGen.gen_ir h) 0
              LirOp.BrFor LirOp.BrBack
              [LirOp.CnstMovSet (LirGen.simBody (body.map HirOp.toLir) 0 []).2,
                LirOp.Move (LirGen.simBody (body.map HirOp.toLir) 0 []).1] _
              (by rw [List.drop_zero]; exact hgd0) rfl
              (by
                intro y hy
                simp only [List.mem_cons, List.not_mem_nil, or_false] at hy
                rcases hy with rfl | rfl
                · exact ⟨rfl, rfl⟩
                · exact ⟨rfl, rfl⟩)
            rw [hsmLc]
            rfl
          · simp only [List.cons_append, List.getElem?_cons_succ,
              List.getElem?_cons_zero, Option.some.injEq] at hi
            rw [← hi] at hoi
            simp [LirOp.isOpen] at hoi
          · simp only [List.cons_append, List.getElem?_cons_succ,
              List.getElem?_cons_zero, Option.some.injEq] at hi
            rw [← hi] at hoi
            simp [LirOp.isOpen] at hoi
          · simp only [List.cons_append, List.getElem?_cons_succ,
              List.getElem?_cons_zero, Option.some.injEq] at hi
            rw [← hi] at hoi
            simp [LirOp.isOpen] at hoi
      · rw [hseg] at hi
        rw [List.getElem?_append_right hge] at hi
        have hsmT := ihg (i - (cOut h).length) op hi hoi
        unfold scanMatch at hsmT ⊢
        have hdd : (cOut h ++ LirGen.gen_ir (h.drop (cStep h))).drop (i + 1) =
            (LirGen.gen_ir (h.drop (cStep h))).drop (i - (cOut h).length + 1) := by
          rw [show i + 1 = (cOut h).length + (i - (cOut h).length + 1) from by omega]
          exact List.drop_append _
        rw [hseg, hdd]
        cases hx : scanAux LirOp.isOpen LirOp.isClose 0
            ((LirGen.gen_ir (h.drop (cStep h))).drop (i - (cOut h).length + 1)) with
        | none => rw [hx] at hsmT; simp at hsmT
        | some r => simp

theorem lower_closesMatched (bf : List BfOp)
    (hC : ClosesMatched BfOp.isOpen BfOp.isClose bf) :
    ClosesMatched HirOp.isOpen HirOp.isClose (HirGen.lower bf) := by
  intro jh op hjh hcl
  have hopb : op = HirOp.BrBack := by
    cases op <;> simp_all [HirOp.isClose]
  subst hopb
  have hjh_lt : jh < (HirGen.lower bf).length := (List.getElem?_eq_some_iff.mp hjh).1
  have hu : (HirGen.lower (bf.drop (bIdx jh bf)))[0]? = some HirOp.BrBack := by
    rw [lower_drop_bIdx, List.getElem?_drop]
    simpa using hjh
  have hbf0 : (bf.drop (bIdx jh bf))[0]? = some BfOp.BrBack := lower_zero_brback _ hu
  have hbfj : bf[bIdx jh bf]? = some BfOp.BrBack := by
    rw [List.getElem?_drop] at hbf0
    simpa using hbf0
  obtain ⟨i, op', hi, hio, hsm⟩ := hC (bIdx jh bf) BfOp.BrBack hbfj rfl
  have hopf : op' = BfOp.BrFor := by
    cases op' <;> simp_all [BfOp.isOpen]
  subst hopf
  obtain ⟨ji, hjilt, hjieq⟩ := bracket_boundary bf.length bf (le_refl _) i BfOp.BrFor hi
    (Or.inl rfl)
  subst hjieq
  obtain ⟨mh, hsmh, hmh⟩ := scanMatch_commute bf ji (bIdx jh bf) BfOp.BrFor hi (Or.inl rfl) hsm
  have hmh_lt : mh < (HirGen.lower bf).length := by
    obtain ⟨r0, haux, hmm⟩ := scanMatch_obtain _ _ _ _ _ hsmh
    have := scanAux_lt_length _ _ _ _ _ haux
    rw [List.length_drop] at this
    omega
  have hdc2 := drop_cons_of_getElem bf (bIdx jh bf) BfOp.BrBack hbfj
  have hseg1 : segLen (bf.drop (bIdx jh bf)) = 1 := by rw [hdc2]; rfl
  have hb1 : bIdx (jh + 1) bf = bIdx jh bf + 1 := by rw [bIdx_succ, hseg1]
  have hjheq : jh = mh := by
    have heq2 : bIdx (jh + 1) bf = bIdx (mh + 1) bf := by omega
    have := bIdx_inj bf (jh + 1) (mh + 1) (by omega) (by omega) heq2
    omega
  have hhir_i : (HirGen.lower bf)[ji]? = some HirOp.BrFor := by
    have hdc := drop_cons_of_getElem bf (bIdx ji bf) BfOp.BrFor hi
    have h0 : ((HirGen.lower bf).drop ji)[0]? = some HirOp.BrFor := by
      rw [← lower_drop_bIdx, hdc, lower_cons_brfor]
      simp
    rw [List.getElem?_drop] at h0
    simpa using h0
  refine ⟨ji, HirOp.BrFor, hhir_i, rfl, ?_⟩
  rw [hsmh, hjheq]

theorem hir_lir_outputs (h : List HirOp) (input out : List Nat)
    (hOM : OpensMatched HirOp.isOpen HirOp.isClose h)
    (hCM : ClosesMatched HirOp.isOpen HirOp.isClose h)
    (hterm : ∃ fuel, HirInterpreter.execute h input fuel = some out) :
    ∃ fuel, LirInterpreter.execute (LirGen.gen_ir h) input fuel = some out := by
  obtain ⟨fuel, hex⟩ := hterm
  unfold HirInterpreter.execute at hex
  obtain ⟨TH, hTH, hspecH⟩ := branchTable_spec HirOp.isOpen HirOp.isClose h
    (fun x hx => by cases x <;> simp_all [HirOp.isOpen, HirOp.isClose]) hOM
  rw [show HirInterpreter.gen_branch_table h = some TH from hTH] at hex
  have hex2 : (runG HirOp.classify ExecSt.readCur hirEff h TH fuel 0
      ⟨⟨[], 0⟩, input, []⟩).map ExecSt.output = some out := hex
  obtain ⟨resA, hres, hout⟩ := Option.map_eq_some'.mp hex2
  have hOL := lir_opensMatched h.length h (le_refl _) hOM
  obtain ⟨TL, hTL, hspecL⟩ := branchTable_spec LirOp.isOpen LirOp.isClose (LirGen.gen_ir h)
    (fun x hx => by cases x <;> simp_all [LirOp.isOpen, LirOp.isClose]) hOL
  have hVinit : ValidSt (⟨⟨[], 0⟩, input, []⟩ : ExecSt) := by
    intro i
    show (([] : List Nat)).getD i 0 < 256
    simp
  obtain ⟨n, resB, hnrun, hRres⟩ := hir_to_lir_sim h TH TL hCM hspecH hspecL fuel 0
    ⟨⟨[], 0⟩, input, []⟩ ⟨⟨[], 0⟩, input, []⟩ resA (StEq_refl _) hVinit hres
  refine ⟨n, ?_⟩
  unfold LirInterpreter.execute
  rw [show LirInterpreter.gen_branch_table (LirGen.gen_ir h) = some TL from hTL]
  show (runG LirOp.classify ExecSt.readCur lirEff (LirGen.gen_ir h) TL n 0
    ⟨⟨[], 0⟩, input, []⟩).map ExecSt.output = some out
  have hnrun0 : runG LirOp.classify ExecSt.readCur lirEff (LirGen.gen_ir h) TL n 0
      ⟨⟨[], 0⟩, input, []⟩ = some resB := hnrun
  rw [hnrun0, Option.map_some']
  obtain ⟨-, -, houtEq, -⟩ := hRres
  rw [← houtEq, hout]

/-- C1: for every well-formed byte program (all brackets matched in the parsed
BF-IR) that contains no `In` instruction and whose reference BF interpretation
terminates with output byte sequence `out`, the HIR interpreter run on
`HirGen::gen`'s output and the LIR interpreter run on `LirGen::gen_ir`'s output
both also terminate with the same output `out`. -/
theorem c1 (p input out : List Nat)
    (hwf : BfWellFormed (BfParser.parse p))
    (hnoin : BfOp.In ∉ BfParser.parse p)
    (hterm : ∃ fuel, BfInterpreter.execute (BfParser.parse p) input fuel = some out) :
    (∃ fuel, HirInterpreter.execute (HirGen.gen p) input fuel = some out) ∧
    (∃ fuel, LirInterpreter.execute (LirGen.gen_ir (HirGen.gen p)) input fuel = some out) := by
  have hgen : HirGen.gen p = HirGen.lower (BfParser.parse p) := by
    unfold HirGen.gen
    rw [HirGen.filter_eq_parse]
  obtain ⟨hO, hC⟩ := hwf
  have hO' := hO
  have hC' := hC
  rw [bfIsOpen_eq, bfIsClose_eq] at hO' hC'
  have hOMh := lower_opensMatched (BfParser.parse p) hO'
  have hCMh := lower_closesMatched (BfParser.parse p) hC'
  have hhir : ∃ fuel,
      HirInterpreter.execute (HirGen.lower (BfParser.parse p)) input fuel = some out :=
    bf_hir_outputs (BfParser.parse p) input out ⟨hO, hC⟩ hterm
  have hlir := hir_lir_outputs (HirGen.lower (BfParser.parse p)) input out hOMh hCMh hhir
  rw [hgen]
  exact ⟨hhir, hlir⟩

theorem c1_witness :
    (BfWellFormed (BfParser.parse [43, 46]) ∧ BfOp.In ∉ BfParser.parse [43, 46] ∧
      (∃ fuel, BfInterpreter.execute (BfParser.parse [43, 46]) [] fuel = some [1])) ∧
    ((∃ fuel, HirInterpreter.execute (HirGen.gen [43, 46]) [] fuel = some [1]) ∧
     (∃ fuel, LirInterpreter.execute (LirGen.gen_ir (HirGen.gen [43, 46])) [] fuel
        = some [1])) := by
  have hp : BfParser.parse [43, 46] = [BfOp.Inc, BfOp.Out] := rfl
  have hwf : BfWellFormed (BfParser.parse [43, 46]) := by
    constructor
    · intro i op hi hop
      rw [hp] at hi
      match i, hi with
      | 0, hi =>
        simp only [List.getElem?_cons_zero, Option.some.injEq] at hi
        subst hi
        simp at hop
      | 1, hi =>
        simp only [List.getElem?_cons_succ, List.getElem?_cons_zero, Option.some.injEq] at hi
        subst hi
        simp at hop
      | n + 2, hi => simp at hi
    · intro i op hi hcl
      rw [hp] at hi
      match i, hi with
      | 0, hi =>
        simp only [List.getElem?_cons_zero, Option.some.injEq] at hi
        subst hi
        simp at hcl
      | 1, hi =>
        simp only [List.getElem?_cons_succ, List.getElem?_cons_zero, Option.some.injEq] at hi
        subst hi
        simp at hcl
      | n + 2, hi => simp at hi
  have hnoin : BfOp.In ∉ BfParser.parse [43, 46] := by
    rw [hp]
    decide
  have hterm : ∃ fuel, BfInterpreter.execute (BfParser.parse [43, 46]) [] fuel = some [1] :=
    ⟨3, by rfl⟩
  exact ⟨⟨hwf, hnoin, hterm⟩, c1 [43, 46] [] [1] hwf hnoin hterm⟩
